import Mathlib

/-!
Type schemes of the Flux `semantic` package

A shallow embedding of `semantic/polytype.go`: the `PolyType` wrapper around a
decoded type-scheme handle, its bounds-checked accessors, the ordering of
quantified variables and constraints, the canonical numbering of type
variables and the textual rendering of a scheme.  The calendar functions
`quarter`, `millisecond`, `microsecond` and `nanosecond` of
`stdlib/date/date.go` follow the definitions of the type schemes.

Conventions of the embedding.

* A Go call either returns or aborts.  `Result α` is `Except Failure α`:
  `Failure.error` is a returned `error` value (code and message),
  `Failure.panic` is a `panic` that unwinds through every caller.
* Go `int` indices are `Int`; counts and `uint64` variable numbers are `Nat`.
  The canonical counter is never reduced modulo `2 ^ 64`: it is bounded by the
  number of variable nodes of one decoded buffer, far below that.
* A Go `map[uint64]uint64` is an association list `TVarMap` whose keys are
  pairwise distinct; a `nil` map is `none`, a map made by `make` is `some`.
-/

namespace codes

/-- Error codes attached to returned errors. -/
inductive Code where
  | Internal
  | Invalid
  deriving DecidableEq, Repr

end codes

/-- The two ways a call fails: a returned error value, or an abort. -/
inductive Failure where
  | error (code : codes.Code) (msg : String)
  | panic (msg : String)
  deriving DecidableEq, Repr

/-- Outcome of a call that may fail. -/
abbrev Result (α : Type) := Except Failure α

deriving instance DecidableEq for Except

/-- Text of `err.Error()` for a returned error: its message. -/
def Failure.Error : Failure → String
  | .error _ msg => msg
  | .panic msg => msg

/-- The abort raised when a method reads through a nil handle. -/
def nilDereference : Failure :=
  .panic "runtime error: invalid memory address or nil pointer dereference"

/-- Continue with the value of `r`; a returned error ends the rendering with the
placeholder `"<" + err.Error() + ">"`, an abort keeps unwinding. -/
def orPlaceholder {α : Type} (r : Result α) (k : α → Result String) : Result String :=
  match r with
  | .ok a => k a
  | .error (.error _ msg) => .ok ("<" ++ msg ++ ">")
  | .error (.panic p) => .error (.panic p)

namespace fbsemantic

/-- Modelled from the spec: the decoded type variable `Var(id: u64)` of the
generated package `fbsemantic` (not among the sources); `i` is its number. -/
structure Var where
  i : Nat
  deriving DecidableEq, Repr

/-- Modelled from the spec: the `Kind` enumeration of `fbsemantic` (not among
the sources), in the declaration order the spec lists. -/
inductive Kind where
  | Addable
  | Subtractable
  | Divisible
  | Numeric
  | Comparable
  | Equatable
  | Nullable
  | Record
  deriving DecidableEq, Repr

/-- Ordinal of a kind: its position in the declaration order, the value that
`cs[i].Kind() < cs[j].Kind()` compares. -/
def Kind.ordinal : Kind → Nat
  | .Addable => 0
  | .Subtractable => 1
  | .Divisible => 2
  | .Numeric => 3
  | .Comparable => 4
  | .Equatable => 5
  | .Nullable => 6
  | .Record => 7

/-- Modelled from the spec: the name table `EnumNamesKind` of `fbsemantic`. -/
def EnumNamesKind : Kind → String
  | .Addable => "Addable"
  | .Subtractable => "Subtractable"
  | .Divisible => "Divisible"
  | .Numeric => "Numeric"
  | .Comparable => "Comparable"
  | .Equatable => "Equatable"
  | .Nullable => "Nullable"
  | .Record => "Record"

/-- Modelled from the spec: a decoded constraint, the pair `(tvar, kind)`. -/
structure Constraint where
  tvar : Var
  kind : Kind
  deriving DecidableEq, Repr

end fbsemantic

/-- Modelled from the spec: the fixed set of base types. -/
inductive Primitive where
  | bool
  | int
  | uint
  | float
  | string
  | time
  | duration
  | regexp
  | bytes
  deriving DecidableEq, Repr

/-- Modelled from the spec: a labelled record field. -/
structure Property (α : Type) where
  label : String
  typ : α

/-- Modelled from the spec: a labelled function parameter. -/
structure Argument (α : Type) where
  label : String
  typ : α
  required : Bool
  pipe : Bool

/-- Modelled from the spec: the monotype graph of `semantic/monotype.go` (not
among the sources), the closed sum of section 3.  `malformed msg` stands for a
node at which a child accessor fails to decode with message `msg`. -/
inductive MonoType where
  | var (id : Nat)
  | prim (tag : Primitive)
  | arr (element : MonoType)
  | dict (key value : MonoType)
  | record (fields : List (Property MonoType)) (tail : Option Nat)
  | fn (parameters : List (Argument MonoType)) (ret : MonoType)
  | malformed (msg : String)

/-- A Go `map[uint64]uint64` from raw to canonical variable numbers. -/
abbrev TVarMap := List (Nat × Nat)

/-- The two-valued map index `v, ok := m[k]`. -/
def TVarMap.lookup : TVarMap → Nat → Option Nat
  | [], _ => none
  | (k, v) :: rest, x => if x = k then some v else TVarMap.lookup rest x

/-- Modelled from the spec: `updateTVarMap(&counter, tvm, tv)` of
`semantic/monotype.go`: an unseen variable gets the next counter value, a seen
one changes nothing.  The state is the pair `(counter, tvm)`. -/
def updateTVarMap (s : Nat × TVarMap) (tv : Nat) : Nat × TVarMap :=
  match s.2.lookup tv with
  | some _ => s
  | none => (s.1 + 1, s.2 ++ [(tv, s.1)])

mutual
/-- Modelled from the spec: `MonoType.getCanonicalMapping(&counter, tvm)`, the
pre-order traversal of section 4.2: array element; dict key then value; record
fields in declared order then the tail; function parameters in declared order
then the return type.  A failing accessor ends the traversal with its error. -/
def MonoType.getCanonicalMapping : MonoType → Nat × TVarMap → Result (Nat × TVarMap)
  | .var id, s => .ok (updateTVarMap s id)
  | .prim _, s => .ok s
  | .arr e, s => e.getCanonicalMapping s
  | .dict k v, s => do
      let s1 ← k.getCanonicalMapping s
      v.getCanonicalMapping s1
  | .record fs tl, s => do
      let s1 ← MonoType.getCanonicalMappingFields fs s
      match tl with
      | some v => pure (updateTVarMap s1 v)
      | none => pure s1
  | .fn ps r, s => do
      let s1 ← MonoType.getCanonicalMappingParams ps s
      r.getCanonicalMapping s1
  | .malformed msg, _ => .error (.error codes.Code.Internal msg)
/-- The traversal over the fields of a record, in declared order. -/
def MonoType.getCanonicalMappingFields :
    List (Property MonoType) → Nat × TVarMap → Result (Nat × TVarMap)
  | [], s => .ok s
  | p :: rest, s => do
      let s1 ← p.typ.getCanonicalMapping s
      MonoType.getCanonicalMappingFields rest s1
/-- The traversal over the parameters of a function, in declared order. -/
def MonoType.getCanonicalMappingParams :
    List (Argument MonoType) → Nat × TVarMap → Result (Nat × TVarMap)
  | [], s => .ok s
  | p :: rest, s => do
      let s1 ← p.typ.getCanonicalMapping s
      MonoType.getCanonicalMappingParams rest s1
end

/-- Concrete text of each monotype form.  `var` receives the number to show,
or `none` when a mapping is in use and has no entry for the variable. -/
structure Style where
  var : Option Nat → String
  prim : Primitive → String
  arr : String → String
  dict : String → String → String
  record : List (Property String) → Option String → String
  fn : List (Argument String) → String → String
  malformed : String → String

/-- The number a variable is shown with: its raw number without a mapping, its
canonical number through a mapping. -/
def shownId (m : Option TVarMap) (id : Nat) : Option Nat :=
  match m with
  | none => some id
  | some tvm => tvm.lookup id

mutual
/-- Modelled from the spec: `MonoType.string(m)` of `semantic/monotype.go`:
the recursive rendering of section 4.4, step 4, which shows every embedded
variable in the same mode (raw or canonical). -/
def MonoType.string (syn : Style) (m : Option TVarMap) : MonoType → String
  | .var id => syn.var (shownId m id)
  | .prim tag => syn.prim tag
  | .arr e => syn.arr (e.string syn m)
  | .dict k v => syn.dict (k.string syn m) (v.string syn m)
  | .record fs tl =>
      syn.record (MonoType.stringFields syn m fs) (tl.map (fun v => syn.var (shownId m v)))
  | .fn ps r => syn.fn (MonoType.stringParams syn m ps) (r.string syn m)
  | .malformed msg => syn.malformed msg
/-- The rendered fields of a record. -/
def MonoType.stringFields (syn : Style) (m : Option TVarMap) :
    List (Property MonoType) → List (Property String)
  | [] => []
  | p :: rest => ⟨p.label, p.typ.string syn m⟩ :: MonoType.stringFields syn m rest
/-- The rendered parameters of a function. -/
def MonoType.stringParams (syn : Style) (m : Option TVarMap) :
    List (Argument MonoType) → List (Argument String)
  | [] => []
  | p :: rest =>
      ⟨p.label, p.typ.string syn m, p.required, p.pipe⟩ :: MonoType.stringParams syn m rest
end

/-- Modelled from the spec: `monoTypeFromVar(v)`, the monotype of a variable. -/
def monoTypeFromVar (v : fbsemantic.Var) : MonoType := .var v.i

/-- Modelled from the spec: the decoded handle `*fbsemantic.PolyType`: the
quantified variables and the constraints by ordinal position, each entry
`none` when its indexed decode fails, and the body, `none` when missing. -/
structure fbsemantic.PolyType where
  vars : List (Option fbsemantic.Var)
  cons : List (Option fbsemantic.Constraint)
  expr : Option MonoType

/-- The count `VarsLength()`. -/
def fbsemantic.PolyType.VarsLength (fb : fbsemantic.PolyType) : Nat := fb.vars.length

/-- The indexed decode `Vars(v, j)`: `none` when it reports `false`. -/
def fbsemantic.PolyType.Vars (fb : fbsemantic.PolyType) (j : Nat) : Option fbsemantic.Var :=
  (fb.vars.get? j).join

/-- The count `ConsLength()`. -/
def fbsemantic.PolyType.ConsLength (fb : fbsemantic.PolyType) : Nat := fb.cons.length

/-- The indexed decode `Cons(c, j)`: `none` when it reports `false`. -/
def fbsemantic.PolyType.Cons (fb : fbsemantic.PolyType) (j : Nat) :
    Option fbsemantic.Constraint :=
  (fb.cons.get? j).join

namespace sort

/-- Inner loop of the insertion sort run by `sort.Slice`:
`for j := i; j > a && less(j, j-1); j-- { swap(j, j-1) }`.
`x` is the element moving left; the sorted part before it is held back to
front, so its head is the left neighbour `data[j-1]`. -/
def insertionStep {α : Type} (less : α → α → Result Bool) (x : α) : List α → Result (List α)
  | [] => .ok [x]
  | y :: before => do
      let b ← less x y
      if b then do
        let moved ← insertionStep less x before
        pure (y :: moved)
      else
        pure (x :: y :: before)

/-- Outer loop `for i := a + 1; i < b; i++`: `todo` is the part of the slice
not yet visited, `done` the sorted part, back to front. -/
def insertionSort {α : Type} (less : α → α → Result Bool) :
    List α → List α → Result (List α)
  | [], done => .ok done.reverse
  | x :: todo, done => do
      let done1 ← insertionStep less x done
      insertionSort less todo done1

/-- The library call `sort.Slice(xs, less)` as the insertion sort it runs on
short slices; an abort inside `less` ends the sort. -/
def Slice {α : Type} (less : α → α → Result Bool) (xs : List α) : Result (List α) :=
  insertionSort less xs []

end sort

/-- The wrapper `PolyType{fb}`; `fb = none` is the nil handle of the zero value. -/
structure PolyType where
  fb : Option fbsemantic.PolyType

/-- `NewPolyType(fb)`: the pair of returned values, wrapper and error. -/
def NewPolyType (fb : Option fbsemantic.PolyType) : PolyType × Option Failure :=
  match fb with
  | none => (⟨none⟩, some (.error codes.Code.Internal "got nil fbsemantic.polytype"))
  | some h => (⟨some h⟩, none)

/-- The error of `Var` for an index outside the count:
`errors.Newf(codes.Internal, "request for polytype var out of bounds: %v in %v", i, n)`. -/
def outOfBoundsVar (i : Int) (n : Nat) : Failure :=
  .error codes.Code.Internal
    ("request for polytype var out of bounds: " ++ toString i ++ " in " ++ toString n)

/-- The error of `Constraint` for an index outside the count:
`errors.Newf(codes.Internal, "request for constraint out of bounds: %v in %v", i, n)`. -/
def outOfBoundsConstraint (i : Int) (n : Nat) : Failure :=
  .error codes.Code.Internal
    ("request for constraint out of bounds: " ++ toString i ++ " in " ++ toString n)

/-- `pt.NumVars()`. -/
def PolyType.NumVars (pt : PolyType) : Result Nat :=
  match pt.fb with
  | none => .error nilDereference
  | some fb => .ok fb.VarsLength

/-- `pt.Var(i)`.  Every path of the Go body reads `pt.NumVars()` before it
returns (in the bounds test, or for the message when `i < 0`), so the count is
read first here. -/
def PolyType.Var (pt : PolyType) (i : Int) : Result fbsemantic.Var := do
  let n ← pt.NumVars
  if i < 0 ∨ i ≥ (n : Int) then
    throw (outOfBoundsVar i n)
  else
    match pt.fb with
    | none => throw nilDereference
    | some fb =>
      match fb.Vars i.toNat with
      | none => throw (.error codes.Code.Internal "missing var")
      | some v => pure v

/-- `pt.NumConstraints()`. -/
def PolyType.NumConstraints (pt : PolyType) : Result Nat :=
  match pt.fb with
  | none => .error nilDereference
  | some fb => .ok fb.ConsLength

/-- `pt.Constraint(i)`.  As for `Var`, every path reads `pt.NumConstraints()`
before it returns. -/
def PolyType.Constraint (pt : PolyType) (i : Int) : Result fbsemantic.Constraint := do
  let n ← pt.NumConstraints
  if i < 0 ∨ i ≥ (n : Int) then
    throw (outOfBoundsConstraint i n)
  else
    match pt.fb with
    | none => throw nilDereference
    | some fb =>
      match fb.Cons i.toNat with
      | none => throw (.error codes.Code.Internal "missing constraint")
      | some c => pure c

/-- The loop `for i := 0; i < n; i++ { x, err := get(i); if err != nil { return nil, err }; xs[i] = x }`
over the indices still to visit. -/
def collect {α : Type} (get : Int → Result α) : List Nat → Result (List α)
  | [] => .ok []
  | i :: rest => do
      let x ← get (i : Int)
      let xs ← collect get rest
      pure (x :: xs)

/-- The tail of both comparison closures once the two numbers are known. -/
def lessTvarKind (tvi tvj : Nat) (ci cj : fbsemantic.Constraint) : Bool :=
  if tvi = tvj then decide (ci.kind.ordinal < cj.kind.ordinal) else decide (tvi < tvj)

/-- The closure passed to `sort.Slice` by `sortedConstraints(m)`. -/
def PolyType.lessConstraint (m : Option TVarMap) (ci cj : fbsemantic.Constraint) :
    Result Bool :=
  match m with
  | some tvm =>
    match tvm.lookup ci.tvar.i with
    | none => .error (.panic "could not find var mapping")
    | some tvi =>
      match tvm.lookup cj.tvar.i with
      | none => .error (.panic "could not find var mapping")
      | some tvj => .ok (lessTvarKind tvi tvj ci cj)
  | none => .ok (lessTvarKind ci.tvar.i cj.tvar.i ci cj)

/-- `pt.sortedConstraints(m)`. -/
def PolyType.sortedConstraints (pt : PolyType) (m : Option TVarMap) :
    Result (List fbsemantic.Constraint) := do
  let ncs ← pt.NumConstraints
  let cs ← collect pt.Constraint (List.range ncs)
  sort.Slice (PolyType.lessConstraint m) cs

/-- `pt.SortedConstraints()`. -/
def PolyType.SortedConstraints (pt : PolyType) : Result (List fbsemantic.Constraint) :=
  pt.sortedConstraints none

/-- `pt.Expr()`; building the monotype view of a decoded body succeeds. -/
def PolyType.Expr (pt : PolyType) : Result MonoType :=
  match pt.fb with
  | none => .error nilDereference
  | some fb =>
    match fb.expr with
    | none => .error (.error codes.Code.Internal "missing a polytype expr")
    | some mt => .ok mt

/-- The closure passed to `sort.Slice` by `sortedVars(m)`. -/
def PolyType.lessVar (m : Option TVarMap) (vi vj : fbsemantic.Var) : Result Bool :=
  match m with
  | some tvm =>
    match tvm.lookup vi.i with
    | none => .error (.panic "could not find var mapping")
    | some ii =>
      match tvm.lookup vj.i with
      | none => .error (.panic "could not find var mapping")
      | some jj => .ok (decide (ii < jj))
  | none => .ok (decide (vi.i < vj.i))

/-- `pt.sortedVars(m)`. -/
def PolyType.sortedVars (pt : PolyType) (m : Option TVarMap) :
    Result (List fbsemantic.Var) := do
  let nvars ← pt.NumVars
  let vars ← collect pt.Var (List.range nvars)
  sort.Slice (PolyType.lessVar m) vars

/-- `pt.SortedVars()`. -/
def PolyType.SortedVars (pt : PolyType) : Result (List fbsemantic.Var) :=
  pt.sortedVars none

/-- The loop of `getCanonicalMapping` over the quantified variables:
`v, err := pt.Var(i)` then `updateTVarMap(&counter, tvm, v.I())`. -/
def PolyType.quantifiedMapping (pt : PolyType) :
    List Nat → Nat × TVarMap → Result (Nat × TVarMap)
  | [], s => .ok s
  | i :: rest, s => do
      let v ← pt.Var (i : Int)
      PolyType.quantifiedMapping pt rest (updateTVarMap s v.i)

/-- `pt.getCanonicalMapping()`. -/
def PolyType.getCanonicalMapping (pt : PolyType) : Result TVarMap := do
  let mt ← pt.Expr
  let s ← mt.getCanonicalMapping (0, [])
  let nvars ← pt.NumVars
  let s1 ← pt.quantifiedMapping (List.range nvars) s
  pure s1.2

/-- The loop of `string` over the sorted variables; the state is
`(needComma, sb)`. -/
def PolyType.writeVars (syn : Style) (m : Option TVarMap) :
    List fbsemantic.Var → Bool × String → Bool × String
  | [], st => st
  | v :: rest, st =>
      let sb := if st.1 then st.2 ++ ", " else st.2
      PolyType.writeVars syn m rest (true, sb ++ (monoTypeFromVar v).string syn m)

/-- The loop of `string` over the sorted constraints from index `i` on; `n` is
`pt.NumConstraints()` and the state is `(needWhere, sb)`. -/
def PolyType.writeConstraints (syn : Style) (m : Option TVarMap) (n : Nat) :
    Nat → List fbsemantic.Constraint → Bool × String → Bool × String
  | _, [], st => st
  | i, cons :: rest, st =>
      let sb := if st.1 then st.2 ++ "where " else st.2
      let sb1 := sb ++ (monoTypeFromVar cons.tvar).string syn m ++ ": "
        ++ fbsemantic.EnumNamesKind cons.kind
      let sb2 := if (i : Int) < (n : Int) - 1 then sb1 ++ ", " else sb1 ++ " "
      PolyType.writeConstraints syn m n (i + 1) rest (false, sb2)

/-- `pt.string(m)`.  The strings builder is the accumulated text; the count
`pt.NumConstraints()` that the constraint loop re-reads at every turn is read
once, before the loop. -/
def PolyType.string (syn : Style) (pt : PolyType) (m : Option TVarMap) : Result String :=
  match pt.fb with
  | none => .ok "<polytype: nil>"
  | some _ =>
    orPlaceholder (pt.sortedVars m) fun svars =>
    let sb := (PolyType.writeVars syn m svars (false, "forall [")).2 ++ "] "
    orPlaceholder (pt.sortedConstraints m) fun cs =>
    match pt.NumConstraints with
    | .error e => .error e
    | .ok n =>
      let sb1 := (PolyType.writeConstraints syn m n 0 cs (true, sb)).2
      orPlaceholder pt.Expr fun mt =>
      .ok (sb1 ++ mt.string syn m)

/-- `pt.CanonicalString()`. -/
def PolyType.CanonicalString (syn : Style) (pt : PolyType) : Result String :=
  orPlaceholder pt.getCanonicalMapping fun m => pt.string syn (some m)

/-- `pt.String()`.  Declared last among the `PolyType` functions: inside that
namespace its name hides the string type. -/
def PolyType.String (syn : Style) (pt : PolyType) : Result String :=
  pt.string syn none

/-- A sample concrete text: variables as `t` and their number, functions as
`(label: type, ...) -> type`. -/
def sampleStyle : Style where
  var := fun o => match o with
    | some n => "t" ++ toString n
    | none => "t?"
  prim := fun p => match p with
    | .bool => "bool"
    | .int => "int"
    | .uint => "uint"
    | .float => "float"
    | .string => "string"
    | .time => "time"
    | .duration => "duration"
    | .regexp => "regexp"
    | .bytes => "bytes"
  arr := fun e => "[" ++ e ++ "]"
  dict := fun k v => "[" ++ k ++ ": " ++ v ++ "]"
  record := fun fs tl =>
    "\x7b" ++ ", ".intercalate (fs.map fun p => p.label ++ ": " ++ p.typ)
      ++ (match tl with
          | some t => " | " ++ t
          | none => "") ++ "\x7d"
  fn := fun ps r =>
    "(" ++ ", ".intercalate (ps.map fun p => p.label ++ ": " ++ p.typ) ++ ") -> " ++ r
  malformed := fun msg => "<" ++ msg ++ ">"

/-- The body `(a: Var(7), b: Var(3)) -> Var(7)`. -/
def sampleBody : MonoType :=
  .fn [⟨"a", .var 7, true, false⟩, ⟨"b", .var 3, true, false⟩] (.var 7)

/-- A scheme over `sampleBody` quantifying 3, 7 and the unreachable 9, with the
constraints `(7, Equatable)`, `(3, Addable)`, `(3, Comparable)` in that order. -/
def samplePoly : PolyType :=
  ⟨some { vars := [some ⟨3⟩, some ⟨7⟩, some ⟨9⟩],
          cons := [some ⟨⟨7⟩, .Equatable⟩, some ⟨⟨3⟩, .Addable⟩, some ⟨⟨3⟩, .Comparable⟩],
          expr := some sampleBody }⟩

/-- The order `sortedConstraints(nil)` sorts by: tvar number, then kind ordinal. -/
def constraintLe (c d : fbsemantic.Constraint) : Prop :=
  c.tvar.i < d.tvar.i ∨ (c.tvar.i = d.tvar.i ∧ c.kind.ordinal ≤ d.kind.ordinal)

instance : DecidableRel constraintLe := fun c d => by
  unfold constraintLe
  exact inferInstance

/-- A scheme with exactly one quantified variable and one constraint, both on
variable 5. -/
def singlePoly : PolyType :=
  ⟨some { vars := [some ⟨5⟩], cons := [some ⟨⟨5⟩, .Addable⟩], expr := some (.var 5) }⟩

/-- A scheme whose first constraint and first variable fail to decode. -/
def missingChildPoly : PolyType :=
  ⟨some { vars := [none, some ⟨5⟩], cons := [none, some ⟨⟨5⟩, .Addable⟩],
          expr := some (.var 5) }⟩

mutual
/-- The variable occurrences of a monotype, listed in the order the pre-order
traversal visits them: array element; dict key then value; record fields in
declared order then the tail; function parameters in declared order then the
return type. -/
def MonoType.vars : MonoType → List Nat
  | .var id => [id]
  | .prim _ => []
  | .arr e => e.vars
  | .dict k v => k.vars ++ v.vars
  | .record fs tl => MonoType.fieldsVars fs ++ tl.toList
  | .fn ps r => MonoType.paramsVars ps ++ r.vars
  | .malformed _ => []
/-- The variable occurrences in the fields of a record. -/
def MonoType.fieldsVars : List (Property MonoType) → List Nat
  | [] => []
  | p :: rest => p.typ.vars ++ MonoType.fieldsVars rest
/-- The variable occurrences in the parameters of a function. -/
def MonoType.paramsVars : List (Argument MonoType) → List Nat
  | [] => []
  | p :: rest => p.typ.vars ++ MonoType.paramsVars rest
end

/-- A state `(counter, tvm)` of the canonical numbering: the keys are pairwise
distinct and the values are `0, 1, ..., counter - 1` in order of insertion. -/
def Numbered (s : Nat × TVarMap) : Prop :=
  (s.2.map Prod.fst).Nodup ∧ s.2.map Prod.snd = List.range s.1

/-- The scheme `forall [4] (a: 4) -> 4`, without constraints. -/
def identityPoly : PolyType :=
  ⟨some { vars := [some ⟨4⟩], cons := [],
          expr := some (.fn [⟨"a", .var 4, true, false⟩] (.var 4)) }⟩

/-! ### Renaming of variable numbers -/

mutual
/-- The monotype with `f` applied at every variable occurrence. -/
def MonoType.rename (f : Nat → Nat) : MonoType → MonoType
  | .var id => .var (f id)
  | .prim tag => .prim tag
  | .arr e => .arr (e.rename f)
  | .dict k v => .dict (k.rename f) (v.rename f)
  | .record fs tl => .record (MonoType.renameFields f fs) (tl.map f)
  | .fn ps r => .fn (MonoType.renameParams f ps) (r.rename f)
  | .malformed msg => .malformed msg
/-- The fields of a record with `f` applied at every variable occurrence. -/
def MonoType.renameFields (f : Nat → Nat) :
    List (Property MonoType) → List (Property MonoType)
  | [] => []
  | p :: rest => ⟨p.label, p.typ.rename f⟩ :: MonoType.renameFields f rest
/-- The parameters of a function with `f` applied at every variable occurrence. -/
def MonoType.renameParams (f : Nat → Nat) :
    List (Argument MonoType) → List (Argument MonoType)
  | [] => []
  | p :: rest =>
      ⟨p.label, p.typ.rename f, p.required, p.pipe⟩ :: MonoType.renameParams f rest
end

/-- The variable with its number renamed. -/
def fbsemantic.Var.rename (f : Nat → Nat) (v : fbsemantic.Var) : fbsemantic.Var := ⟨f v.i⟩

/-- The constraint with its tvar renamed; the kind is kept. -/
def fbsemantic.Constraint.rename (f : Nat → Nat) (c : fbsemantic.Constraint) :
    fbsemantic.Constraint :=
  ⟨c.tvar.rename f, c.kind⟩

/-- The handle with `f` applied to every variable number: in the quantified
list, in every constraint's tvar and at every occurrence in the body; orders,
kinds, labels and decode failures are kept. -/
def fbsemantic.PolyType.rename (f : Nat → Nat) (fb : fbsemantic.PolyType) :
    fbsemantic.PolyType where
  vars := fb.vars.map (Option.map (fbsemantic.Var.rename f))
  cons := fb.cons.map (Option.map (fbsemantic.Constraint.rename f))
  expr := fb.expr.map (MonoType.rename f)

/-- The polytype over the renamed handle. -/
def PolyType.rename (f : Nat → Nat) (pt : PolyType) : PolyType :=
  ⟨pt.fb.map (fbsemantic.PolyType.rename f)⟩

/-- The mapping with its keys renamed. -/
def TVarMap.rename (f : Nat → Nat) (m : TVarMap) : TVarMap :=
  m.map fun e => (f e.1, e.2)

/-- The order `sortedConstraints(m)` sorts by under a mapping: canonical
number of the tvar, then kind ordinal (a missing entry reads as 0 here; the
closure itself aborts on it). -/
def constraintLeVia (m : TVarMap) (c d : fbsemantic.Constraint) : Prop :=
  (m.lookup c.tvar.i).getD 0 < (m.lookup d.tvar.i).getD 0 ∨
    ((m.lookup c.tvar.i).getD 0 = (m.lookup d.tvar.i).getD 0 ∧
      c.kind.ordinal ≤ d.kind.ordinal)

instance (m : TVarMap) : DecidableRel (constraintLeVia m) := fun c d => by
  unfold constraintLeVia
  exact inferInstance

/-- A scheme whose two constraints name variables 5 and 6, which are neither
quantified nor in the body. -/
def orphanPoly : PolyType :=
  ⟨some { vars := [], cons := [some ⟨⟨5⟩, .Addable⟩, some ⟨⟨6⟩, .Addable⟩],
          expr := some (.prim .int) }⟩

/-- The sample scheme with its constraints stored in another order. -/
def permutedPoly : PolyType :=
  ⟨some { vars := [some ⟨3⟩, some ⟨7⟩, some ⟨9⟩],
          cons := [some ⟨⟨3⟩, .Comparable⟩, some ⟨⟨7⟩, .Equatable⟩, some ⟨⟨3⟩, .Addable⟩],
          expr := some sampleBody }⟩

/-! ### The `date` package: `stdlib/date/date.go` -/

namespace time

/-- The Go constant `time.Nanosecond`, a `Duration` of one nanosecond. -/
def Nanosecond : Int := 1

/-- The Go constant `time.Microsecond`. -/
def Microsecond : Int := 1000 * Nanosecond

/-- The Go constant `time.Millisecond`. -/
def Millisecond : Int := 1000 * Microsecond

/-- What the Go library reports for an instant: `Month()`, from 1 (January) to
12, and `Nanosecond()`, the offset within the second, from 0 to 999999999. -/
structure Time where
  month : Nat
  nanosecond : Nat
  deriving DecidableEq, Repr

end time

/-- The conversion to `int64`: two's-complement wraparound to 64 bits. -/
def int64 (x : Int) : Int := (x + 2 ^ 63) % 2 ^ 64 - 2 ^ 63

namespace float64

/-- A finite non-negative `float64`, `mant * 2 ^ exp`. -/
structure Value where
  mant : Nat
  exp : Int
  deriving DecidableEq, Repr

/-- The search for the leading bit, at most `fuel` halvings. -/
def leadingBit : Nat → Nat → Nat
  | 0, _ => 0
  | fuel + 1, n => if n < 2 then 0 else leadingBit fuel (n / 2) + 1

/-- The position of the leading bit of `n`, for `0 < n < 2 ^ 64`: the integer
part of its binary logarithm. -/
def log2 (n : Nat) : Nat := leadingBit 64 n

/-- The `float64` quotient `float64(a) / float64(b)` of two naturals below
`2 ^ 53` (both exactly representable), `b` positive: the exact quotient
rounded to 53 significant bits, ties to even, as IEEE 754 prescribes.  The
quotient lies in the normal range, so no overflow or underflow occurs. -/
def divNat (a b : Nat) : Value :=
  if a = 0 then ⟨0, 0⟩ else
  let la := log2 a
  let lb := log2 b
  let e : Int := if a * 2 ^ lb < b * 2 ^ la then (la : Int) - lb - 1 else (la : Int) - lb
  let s : Int := 52 - e
  let num := if 0 ≤ s then a * 2 ^ s.toNat else a
  let den := if 0 ≤ s then b else b * 2 ^ (-s).toNat
  let q := num / den
  let r := num % den
  let mant := if 2 * r < den then q else if den < 2 * r then q + 1
    else if q % 2 = 0 then q else q + 1
  ⟨mant, -s⟩

/-- `math.Ceil` on a finite non-negative value: the least integer not below it. -/
def ceil (v : Value) : Int :=
  if 0 ≤ v.exp then (v.mant * 2 ^ v.exp.toNat : Nat)
  else ((v.mant + 2 ^ (-v.exp).toNat - 1) / 2 ^ (-v.exp).toNat : Nat)

end float64

namespace date

/-- Natures of values, `semantic.Nature`; only `Time` is tested by the package. -/
inductive Nature where
  | Time
  | Duration
  | Int
  | UInt
  | Float
  | String
  | Bool
  deriving DecidableEq, Repr

/-- A value handed to a function: its nature, and what `v.Time().Time()` is
when the nature is `Time`. -/
structure Value where
  nature : Nature
  time : time.Time
  deriving DecidableEq, Repr

/-- The errors the functions return: `missingArgument` is
`errors.New(codes.Invalid, "missing argument t")`, `cannotConvert n` is
`fmt.Errorf("cannot convert argument t of type %v to time", n)`. -/
inductive Failure where
  | missingArgument
  | cannotConvert (nature : Nature)
  deriving DecidableEq, Repr

/-- `SpecialFns["quarter"]`; `t` is what `args.Get("t")` finds. -/
def quarter (t : Option Value) : Except Failure Int :=
  match t with
  | none => .error .missingArgument
  | some v1 =>
    if v1.nature = Nature.Time then
      let month := v1.time.month
      .ok (int64 (float64.ceil (float64.divNat month 3)))
    else .error (.cannotConvert v1.nature)

/-- `SpecialFns["millisecond"]`. -/
def millisecond (t : Option Value) : Except Failure Int :=
  match t with
  | none => .error .missingArgument
  | some v1 =>
    if v1.nature = Nature.Time then
      .ok (int64 ((int64 (int64 time.Nanosecond * int64 v1.time.nanosecond)).tdiv
        (int64 time.Millisecond)))
    else .error (.cannotConvert v1.nature)

/-- `SpecialFns["microsecond"]`. -/
def microsecond (t : Option Value) : Except Failure Int :=
  match t with
  | none => .error .missingArgument
  | some v1 =>
    if v1.nature = Nature.Time then
      .ok (int64 ((int64 (int64 time.Nanosecond * int64 v1.time.nanosecond)).tdiv
        (int64 time.Microsecond)))
    else .error (.cannotConvert v1.nature)

/-- `SpecialFns["nanosecond"]`. -/
def nanosecond (t : Option Value) : Except Failure Int :=
  match t with
  | none => .error .missingArgument
  | some v1 =>
    if v1.nature = Nature.Time then .ok (int64 v1.time.nanosecond)
    else .error (.cannotConvert v1.nature)

end date

/-! ## The insertion sort behind `sort.Slice` -/

section SortLemmas

variable {α : Type}

theorem insertionStep_ok (less : α → α → Result Bool) (le : α → α → Prop) [DecidableRel le]
    (htot : ∀ a b, le a b ∨ le b a) (htrans : ∀ a b c, le a b → le b c → le a c)
    (x : α) : ∀ (before : List α),
    (∀ a ∈ x :: before, ∀ b ∈ x :: before, less a b = .ok (decide (¬ le b a))) →
    ∃ r, sort.insertionStep less x before = .ok r ∧ r.Perm (x :: before) ∧
      (before.Pairwise (fun a b => le b a) → r.Pairwise (fun a b => le b a))
  | [], _ => ⟨[x], rfl, List.Perm.refl _, fun _ => List.pairwise_singleton _ _⟩
  | y :: before, h => by
      have hxy : less x y = .ok (decide (¬ le y x)) :=
        h x (List.mem_cons_self _ _) y (List.mem_cons_of_mem _ (List.mem_cons_self _ _))
      have hrec : ∀ a ∈ x :: before, ∀ b ∈ x :: before, less a b = .ok (decide (¬ le b a)) := by
        intro a ha b hb
        refine h a ?_ b ?_
        · rcases List.mem_cons.1 ha with rfl | ha
          · exact List.mem_cons_self _ _
          · exact List.mem_cons_of_mem _ (List.mem_cons_of_mem _ ha)
        · rcases List.mem_cons.1 hb with rfl | hb
          · exact List.mem_cons_self _ _
          · exact List.mem_cons_of_mem _ (List.mem_cons_of_mem _ hb)
      obtain ⟨r, hr, hperm, hsorted⟩ := insertionStep_ok less le htot htrans x before hrec
      by_cases hle : le y x
      · refine ⟨x :: y :: before, ?_, List.Perm.refl _, ?_⟩
        · simp [sort.insertionStep, hxy, hle, bind, Except.bind, pure, Except.pure]
        · intro hp
          refine List.pairwise_cons.2 ⟨?_, hp⟩
          intro z hz
          rcases List.mem_cons.1 hz with rfl | hz
          · exact hle
          · exact htrans _ _ _ ((List.pairwise_cons.1 hp).1 z hz) hle
      · refine ⟨y :: r, ?_, ?_, ?_⟩
        · simp [sort.insertionStep, hxy, hle, hr, bind, Except.bind, pure, Except.pure]
        · exact (List.Perm.cons y hperm).trans (List.Perm.swap x y before)
        · intro hp
          have hp' := List.pairwise_cons.1 hp
          refine List.pairwise_cons.2 ⟨?_, hsorted hp'.2⟩
          intro z hz
          rcases List.mem_cons.1 (hperm.mem_iff.1 hz) with rfl | hz
          · exact (htot z y).resolve_right hle
          · exact hp'.1 z hz

theorem insertionSort_ok (less : α → α → Result Bool) (le : α → α → Prop) [DecidableRel le]
    (htot : ∀ a b, le a b ∨ le b a) (htrans : ∀ a b c, le a b → le b c → le a c) :
    ∀ (todo done : List α),
    (∀ a ∈ todo ++ done, ∀ b ∈ todo ++ done, less a b = .ok (decide (¬ le b a))) →
    done.Pairwise (fun a b => le b a) →
    ∃ out, sort.insertionSort less todo done = .ok out ∧ out.Perm (done.reverse ++ todo) ∧
      out.Pairwise le
  | [], done, _, hp => by
      refine ⟨done.reverse, rfl, by simp, ?_⟩
      exact List.pairwise_reverse.2 hp
  | x :: todo, done, h, hp => by
      have hstep : ∀ a ∈ x :: done, ∀ b ∈ x :: done, less a b = .ok (decide (¬ le b a)) := by
        intro a ha b hb
        refine h a ?_ b ?_
        · rcases List.mem_cons.1 ha with rfl | ha
          · simp
          · simp [ha]
        · rcases List.mem_cons.1 hb with rfl | hb
          · simp
          · simp [hb]
      obtain ⟨r, hr, hperm, hsorted⟩ := insertionStep_ok less le htot htrans x done hstep
      have hrest : ∀ a ∈ todo ++ r, ∀ b ∈ todo ++ r, less a b = .ok (decide (¬ le b a)) := by
        intro a ha b hb
        refine h a ?_ b ?_
        · rcases List.mem_append.1 ha with ha | ha
          · simp [ha]
          · rcases List.mem_cons.1 (hperm.mem_iff.1 ha) with rfl | ha
            · simp
            · simp [ha]
        · rcases List.mem_append.1 hb with hb | hb
          · simp [hb]
          · rcases List.mem_cons.1 (hperm.mem_iff.1 hb) with rfl | hb
            · simp
            · simp [hb]
      obtain ⟨out, hout, hperm2, hs2⟩ :=
        insertionSort_ok less le htot htrans todo r hrest (hsorted hp)
      refine ⟨out, ?_, ?_, hs2⟩
      · simp [sort.insertionSort, hr, hout, bind, Except.bind]
      · refine hperm2.trans ?_
        have h1 : r.reverse.Perm (done.reverse ++ [x]) := by
          refine (List.reverse_perm r).trans (hperm.trans ?_)
          refine (@List.perm_append_comm _ [x] done).trans ?_
          exact List.Perm.append_right _ (List.reverse_perm done).symm
        simpa using List.Perm.append_right todo h1

/-- On inputs where the closure returns the strict part of a total preorder,
`sort.Slice` returns a permutation of its input that is ordered by it. -/
theorem Slice_ok (less : α → α → Result Bool) (le : α → α → Prop) [DecidableRel le]
    (htot : ∀ a b, le a b ∨ le b a) (htrans : ∀ a b c, le a b → le b c → le a c)
    (xs : List α) (h : ∀ a ∈ xs, ∀ b ∈ xs, less a b = .ok (decide (¬ le b a))) :
    ∃ out, sort.Slice less xs = .ok out ∧ out.Perm xs ∧ out.Pairwise le := by
  obtain ⟨out, h1, h2, h3⟩ :=
    insertionSort_ok less le htot htrans xs [] (by simpa using h) List.Pairwise.nil
  exact ⟨out, h1, by simpa using h2, h3⟩

end SortLemmas

/-! ## Loading the variables and constraints of a handle -/

theorem collect_range' {α : Type} (get : Int → Result α) :
    ∀ (xs : List α) (s : Nat),
    (∀ j (hj : j < xs.length), get ((s + j : Nat) : Int) = .ok (xs.get ⟨j, hj⟩)) →
    collect get (List.range' s xs.length) = .ok xs
  | [], _, _ => rfl
  | x :: xs, s, h => by
      have h0 : get ((s : Nat) : Int) = .ok x := by
        simpa using h 0 (by simp)
      have hrec : collect get (List.range' (s + 1) xs.length) = .ok xs := by
        refine collect_range' get xs (s + 1) ?_
        intro j hj
        have := h (j + 1) (by simpa using hj)
        simpa [Nat.add_assoc, Nat.add_comm 1 j] using this
      simp [List.range', collect, h0, hrec, bind, Except.bind, pure, Except.pure]

theorem collect_range {α : Type} (get : Int → Result α) (xs : List α)
    (h : ∀ j (hj : j < xs.length), get ((j : Nat) : Int) = .ok (xs.get ⟨j, hj⟩)) :
    collect get (List.range xs.length) = .ok xs := by
  rw [List.range_eq_range']
  exact collect_range' get xs 0 (by simpa using h)

theorem Var_of_decoded (pt : PolyType) (fb : fbsemantic.PolyType) (vs : List fbsemantic.Var)
    (hfb : pt.fb = some fb) (hdec : fb.vars = vs.map some) (j : Nat) (hj : j < vs.length) :
    pt.Var (j : Int) = .ok (vs.get ⟨j, hj⟩) := by
  have hlt : j < fb.vars.length := by simp [hdec, hj]
  have hnot : ¬ ((j : Int) < 0 ∨ (fb.vars.length : Int) ≤ (j : Int)) := by omega
  simp [PolyType.Var, PolyType.NumVars, hfb, fbsemantic.PolyType.VarsLength,
    fbsemantic.PolyType.Vars, bind, Except.bind, hnot, hdec, List.getElem?_eq_getElem hj,
    pure, Except.pure, hj]

theorem Constraint_of_decoded (pt : PolyType) (fb : fbsemantic.PolyType)
    (cs : List fbsemantic.Constraint)
    (hfb : pt.fb = some fb) (hdec : fb.cons = cs.map some) (j : Nat) (hj : j < cs.length) :
    pt.Constraint (j : Int) = .ok (cs.get ⟨j, hj⟩) := by
  have hlt : j < fb.cons.length := by simp [hdec, hj]
  have hnot : ¬ ((j : Int) < 0 ∨ (fb.cons.length : Int) ≤ (j : Int)) := by omega
  simp [PolyType.Constraint, PolyType.NumConstraints, hfb, fbsemantic.PolyType.ConsLength,
    fbsemantic.PolyType.Cons, bind, Except.bind, hnot, hdec, List.getElem?_eq_getElem hj,
    pure, Except.pure, hj]

theorem sortedVars_of_decoded (pt : PolyType) (fb : fbsemantic.PolyType)
    (vs : List fbsemantic.Var) (m : Option TVarMap)
    (hfb : pt.fb = some fb) (hdec : fb.vars = vs.map some) :
    pt.sortedVars m = sort.Slice (PolyType.lessVar m) vs := by
  have hn : fb.vars.length = vs.length := by simp [hdec]
  have hc := collect_range pt.Var vs (fun j hj => Var_of_decoded pt fb vs hfb hdec j hj)
  simp [PolyType.sortedVars, PolyType.NumVars, hfb, fbsemantic.PolyType.VarsLength, hn, hc,
    bind, Except.bind]

theorem sortedConstraints_of_decoded (pt : PolyType) (fb : fbsemantic.PolyType)
    (cs : List fbsemantic.Constraint) (m : Option TVarMap)
    (hfb : pt.fb = some fb) (hdec : fb.cons = cs.map some) :
    pt.sortedConstraints m = sort.Slice (PolyType.lessConstraint m) cs := by
  have hn : fb.cons.length = cs.length := by simp [hdec]
  have hc := collect_range pt.Constraint cs
    (fun j hj => Constraint_of_decoded pt fb cs hfb hdec j hj)
  simp [PolyType.sortedConstraints, PolyType.NumConstraints, hfb,
    fbsemantic.PolyType.ConsLength, hn, hc, bind, Except.bind]

/-! ## Ordering of constraints and variables -/

/-- C1. For a polytype whose constraints all decode, `SortedConstraints`
returns a permutation of the stored constraints, of length `NumConstraints`,
in which every adjacent pair `c, d` has `c.tvar < d.tvar`, or
`c.tvar = d.tvar` and `c.kind <= d.kind`. -/
theorem SortedConstraints_sorted_perm (pt : PolyType) (fb : fbsemantic.PolyType)
    (cs : List fbsemantic.Constraint)
    (hfb : pt.fb = some fb) (hdec : fb.cons = cs.map some) :
    ∃ out, pt.SortedConstraints = .ok out ∧ out.Perm cs ∧
      pt.NumConstraints = .ok out.length ∧
      List.Chain' (fun c d => c.tvar.i < d.tvar.i ∨
        (c.tvar.i = d.tvar.i ∧ c.kind.ordinal ≤ d.kind.ordinal)) out := by
  have hless : ∀ a ∈ cs, ∀ b ∈ cs,
      PolyType.lessConstraint none a b = .ok (decide (¬ constraintLe b a)) := by
    intro a _ b _
    simp only [PolyType.lessConstraint, lessTvarKind, constraintLe]
    congr 1
    by_cases h : a.tvar.i = b.tvar.i
    · simp [h]
    · simp only [h, if_false, decide_eq_decide]
      omega
  obtain ⟨out, h1, h2, h3⟩ := Slice_ok (PolyType.lessConstraint none) constraintLe
    (by intro a b; unfold constraintLe; omega)
    (by intro a b c; unfold constraintLe; omega) cs hless
  refine ⟨out, ?_, h2, ?_, List.Pairwise.chain' h3⟩
  · rw [PolyType.SortedConstraints, sortedConstraints_of_decoded pt fb cs none hfb hdec]
    exact h1
  · simp [PolyType.NumConstraints, hfb, fbsemantic.PolyType.ConsLength, hdec, h2.length_eq]

/-- C1, at the scheme of the spec: `(v1, Equatable), (v0, Addable),
(v0, Comparable)` sorts to `(v0, Addable), (v0, Comparable), (v1, Equatable)`. -/
theorem SortedConstraints_sorted_perm_witness :
    (⟨some ⟨[], [some ⟨⟨1⟩, .Equatable⟩, some ⟨⟨0⟩, .Addable⟩, some ⟨⟨0⟩, .Comparable⟩],
        none⟩⟩ : PolyType).SortedConstraints
      = .ok [⟨⟨0⟩, .Addable⟩, ⟨⟨0⟩, .Comparable⟩, ⟨⟨1⟩, .Equatable⟩] ∧
    ∃ out, (⟨some ⟨[], [some ⟨⟨1⟩, .Equatable⟩, some ⟨⟨0⟩, .Addable⟩,
        some ⟨⟨0⟩, .Comparable⟩], none⟩⟩ : PolyType).SortedConstraints = .ok out ∧
      out.Perm [⟨⟨1⟩, .Equatable⟩, ⟨⟨0⟩, .Addable⟩, ⟨⟨0⟩, .Comparable⟩] ∧
      (⟨some ⟨[], [some ⟨⟨1⟩, .Equatable⟩, some ⟨⟨0⟩, .Addable⟩,
        some ⟨⟨0⟩, .Comparable⟩], none⟩⟩ : PolyType).NumConstraints = .ok out.length ∧
      List.Chain' (fun c d => c.tvar.i < d.tvar.i ∨
        (c.tvar.i = d.tvar.i ∧ c.kind.ordinal ≤ d.kind.ordinal)) out :=
  ⟨rfl, SortedConstraints_sorted_perm _ _ _ rfl rfl⟩

/-! ## Aborts inside the comparison closure -/

section SortAbort

variable {α : Type}

theorem insertionStep_good (less : α → α → Result Bool) (bad : α → Prop)
    (hgood : ∀ a b, ¬ bad a → ¬ bad b → ∃ r, less a b = .ok r) (x : α) (hx : ¬ bad x) :
    ∀ (before : List α), (∀ z ∈ before, ¬ bad z) →
    ∃ r, sort.insertionStep less x before = .ok r ∧ r ≠ [] ∧ ∀ z ∈ r, ¬ bad z
  | [], _ => ⟨[x], rfl, by simp, by simpa using hx⟩
  | y :: before, h => by
      have hy : ¬ bad y := h y (List.mem_cons_self _ _)
      have hb : ∀ z ∈ before, ¬ bad z := fun z hz => h z (List.mem_cons_of_mem _ hz)
      obtain ⟨b, hb1⟩ := hgood x y hx hy
      obtain ⟨r, hr, _, hr2⟩ := insertionStep_good less bad hgood x hx before hb
      cases b with
      | true =>
        refine ⟨y :: r, ?_, by simp, ?_⟩
        · simp [sort.insertionStep, hb1, hr, bind, Except.bind, pure, Except.pure]
        · intro z hz
          rcases List.mem_cons.1 hz with rfl | hz
          · exact hy
          · exact hr2 z hz
      | false =>
        refine ⟨x :: y :: before, ?_, by simp, ?_⟩
        · simp [sort.insertionStep, hb1, bind, Except.bind, pure, Except.pure]
        · intro z hz
          rcases List.mem_cons.1 hz with rfl | hz
          · exact hx
          · exact h z hz

theorem insertionSort_abort (less : α → α → Result Bool) (bad : α → Prop) (e : Failure)
    (hbad : ∀ a b, bad a ∨ bad b → less a b = .error e)
    (hgood : ∀ a b, ¬ bad a → ¬ bad b → ∃ r, less a b = .ok r) :
    ∀ (todo done : List α), done ≠ [] → (∀ z ∈ done, ¬ bad z) → (∃ x ∈ todo, bad x) →
    sort.insertionSort less todo done = .error e
  | [], _, _, _, hex => by
      obtain ⟨x, hx, _⟩ := hex
      cases hx
  | x :: todo, done, hne, hd, hex => by
      by_cases hx : bad x
      · cases done with
        | nil => exact absurd rfl hne
        | cons y before =>
          simp [sort.insertionSort, sort.insertionStep, hbad x y (Or.inl hx), bind, Except.bind]
      · obtain ⟨r, hr, hr1, hr2⟩ := insertionStep_good less bad hgood x hx done hd
        have hex' : ∃ z ∈ todo, bad z := by
          obtain ⟨z, hz, hzb⟩ := hex
          rcases List.mem_cons.1 hz with rfl | hz
          · exact absurd hzb hx
          · exact ⟨z, hz, hzb⟩
        have := insertionSort_abort less bad e hbad hgood todo r hr1 hr2 hex'
        simp [sort.insertionSort, hr, this, bind, Except.bind]

/-- With at least two elements, one of which makes the closure abort whenever it
is compared, `sort.Slice` aborts. -/
theorem Slice_abort (less : α → α → Result Bool) (bad : α → Prop) (e : Failure)
    (hbad : ∀ a b, bad a ∨ bad b → less a b = .error e)
    (hgood : ∀ a b, ¬ bad a → ¬ bad b → ∃ r, less a b = .ok r)
    (xs : List α) (hlen : 2 ≤ xs.length) (hex : ∃ x ∈ xs, bad x) :
    sort.Slice less xs = .error e := by
  match xs, hlen, hex with
  | x :: y :: rest, _, hex =>
    by_cases hx : bad x
    · simp [sort.Slice, sort.insertionSort, sort.insertionStep, hbad y x (Or.inr hx), bind,
        Except.bind]
    · have hex' : ∃ z ∈ y :: rest, bad z := by
        obtain ⟨z, hz, hzb⟩ := hex
        rcases List.mem_cons.1 hz with rfl | hz
        · exact absurd hzb hx
        · exact ⟨z, hz, hzb⟩
      have := insertionSort_abort less bad e hbad hgood (y :: rest) [x] (by simp)
        (by simpa using hx) hex'
      simpa [sort.Slice, sort.insertionSort, sort.insertionStep, bind, Except.bind] using this

end SortAbort

theorem lessVar_some (tvm : TVarMap) (a b : fbsemantic.Var) (x y : Nat)
    (ha : tvm.lookup a.i = some x) (hb : tvm.lookup b.i = some y) :
    PolyType.lessVar (some tvm) a b = .ok (decide (x < y)) := by
  simp [PolyType.lessVar, ha, hb]

theorem lessConstraint_some (tvm : TVarMap) (a b : fbsemantic.Constraint) (x y : Nat)
    (ha : tvm.lookup a.tvar.i = some x) (hb : tvm.lookup b.tvar.i = some y) :
    PolyType.lessConstraint (some tvm) a b = .ok (lessTvarKind x y a b) := by
  simp [PolyType.lessConstraint, ha, hb]

theorem lessVar_unmapped (tvm : TVarMap) (a b : fbsemantic.Var)
    (h : tvm.lookup a.i = none ∨ tvm.lookup b.i = none) :
    PolyType.lessVar (some tvm) a b = .error (.panic "could not find var mapping") := by
  unfold PolyType.lessVar
  rcases h with h | h
  · simp [h]
  · cases hx : tvm.lookup a.i <;> simp [h, hx]

theorem lessConstraint_unmapped (tvm : TVarMap) (a b : fbsemantic.Constraint)
    (h : tvm.lookup a.tvar.i = none ∨ tvm.lookup b.tvar.i = none) :
    PolyType.lessConstraint (some tvm) a b = .error (.panic "could not find var mapping") := by
  unfold PolyType.lessConstraint
  rcases h with h | h
  · simp [h]
  · cases hx : tvm.lookup a.tvar.i <;> simp [h, hx]

/-- C7. For a polytype whose variables all decode, `SortedVars` returns a
permutation of the stored quantified variables, of length `NumVars`, in
non-decreasing order of variable number; and `sortedVars(m)`, for a mapping
`m` that contains every quantified number, returns such a permutation in
non-decreasing order of `m[id]`. -/
theorem SortedVars_sorted_perm (pt : PolyType) (fb : fbsemantic.PolyType)
    (vs : List fbsemantic.Var) (hfb : pt.fb = some fb) (hdec : fb.vars = vs.map some) :
    (∃ out, pt.SortedVars = .ok out ∧ out.Perm vs ∧ pt.NumVars = .ok out.length ∧
      out.Pairwise (fun a b => a.i ≤ b.i)) ∧
    (∀ m : TVarMap, (∀ v ∈ vs, m.lookup v.i ≠ none) →
      ∃ out, pt.sortedVars (some m) = .ok out ∧ out.Perm vs ∧
        pt.NumVars = .ok out.length ∧
        out.Pairwise (fun a b => ∃ x y, m.lookup a.i = some x ∧ m.lookup b.i = some y ∧
          x ≤ y)) := by
  have hnum : ∀ out : List fbsemantic.Var, out.Perm vs → pt.NumVars = .ok out.length := by
    intro out hp
    simp [PolyType.NumVars, hfb, fbsemantic.PolyType.VarsLength, hdec, hp.length_eq]
  constructor
  · obtain ⟨out, h1, h2, h3⟩ := Slice_ok (PolyType.lessVar none)
      (fun a b : fbsemantic.Var => a.i ≤ b.i)
      (by intro a b; omega) (by intro a b c; omega) vs
      (by intro a _ b _; simp [PolyType.lessVar])
    refine ⟨out, ?_, h2, hnum out h2, h3⟩
    rw [PolyType.SortedVars, sortedVars_of_decoded pt fb vs none hfb hdec]
    exact h1
  · intro m hm
    obtain ⟨out, h1, h2, h3⟩ := Slice_ok (PolyType.lessVar (some m))
      (fun a b : fbsemantic.Var => (m.lookup a.i).getD 0 ≤ (m.lookup b.i).getD 0)
      (by intro a b; omega) (by intro a b c; omega) vs
      (by
        intro a ha b hb
        obtain ⟨x, hx⟩ := Option.ne_none_iff_exists'.1 (hm a ha)
        obtain ⟨y, hy⟩ := Option.ne_none_iff_exists'.1 (hm b hb)
        simp [lessVar_some m a b x y hx hy, hx, hy])
    refine ⟨out, ?_, h2, hnum out h2, ?_⟩
    · rw [sortedVars_of_decoded pt fb vs (some m) hfb hdec]
      exact h1
    · have hall : ∀ v ∈ out, ∃ n, m.lookup v.i = some n :=
        fun v hv => Option.ne_none_iff_exists'.1 (hm v (h2.mem_iff.1 hv))
      refine (List.pairwise_iff_forall_sublist.2 ?_)
      intro a b hab
      have hpair := List.pairwise_iff_forall_sublist.1 h3 hab
      have ha : a ∈ out := hab.subset (by simp)
      have hb : b ∈ out := hab.subset (by simp)
      obtain ⟨x, hx⟩ := hall a ha
      obtain ⟨y, hy⟩ := hall b hb
      exact ⟨x, y, hx, hy, by simpa [hx, hy] using hpair⟩

/-- C7, at the sample scheme and its canonical mapping. -/
theorem SortedVars_sorted_perm_witness :
    samplePoly.SortedVars = .ok [⟨3⟩, ⟨7⟩, ⟨9⟩] ∧
    samplePoly.sortedVars (some [(7, 0), (3, 1), (9, 2)]) = .ok [⟨7⟩, ⟨3⟩, ⟨9⟩] ∧
    (∃ out, samplePoly.SortedVars = .ok out ∧ out.Perm [⟨3⟩, ⟨7⟩, ⟨9⟩] ∧
      samplePoly.NumVars = .ok out.length ∧ out.Pairwise (fun a b => a.i ≤ b.i)) ∧
    (∃ out, samplePoly.sortedVars (some [(7, 0), (3, 1), (9, 2)]) = .ok out ∧
      out.Perm [⟨3⟩, ⟨7⟩, ⟨9⟩] ∧ samplePoly.NumVars = .ok out.length ∧
      out.Pairwise (fun a b => ∃ x y, TVarMap.lookup [(7, 0), (3, 1), (9, 2)] a.i = some x ∧
        TVarMap.lookup [(7, 0), (3, 1), (9, 2)] b.i = some y ∧ x ≤ y)) :=
  ⟨rfl, rfl, (SortedVars_sorted_perm samplePoly _ [⟨3⟩, ⟨7⟩, ⟨9⟩] rfl rfl).1,
    (SortedVars_sorted_perm samplePoly _ [⟨3⟩, ⟨7⟩, ⟨9⟩] rfl rfl).2 [(7, 0), (3, 1), (9, 2)]
      (by decide)⟩

/-- C10, as stated, fails: with exactly one constraint (one variable) whose
number is absent from the supplied mapping the comparison closure is never
called and the list is returned; and when a constraint fails to decode the
call returns that error instead of aborting. -/
theorem sorted_unmapped_single_returns :
    TVarMap.lookup [] 5 = none ∧
    singlePoly.sortedConstraints (some []) = .ok [⟨⟨5⟩, .Addable⟩] ∧
    singlePoly.sortedVars (some []) = .ok [⟨5⟩] ∧
    missingChildPoly.sortedConstraints (some [])
      = .error (.error codes.Code.Internal "missing constraint") ∧
    missingChildPoly.sortedVars (some [])
      = .error (.error codes.Code.Internal "missing var") :=
  ⟨rfl, rfl, rfl, rfl, rfl⟩

/-- C10 (amended). For a polytype with a non-nil handle and a supplied mapping
`m`: if the constraints all decode, there are at least two of them and some
constraint's tvar number is absent from `m`, then `sortedConstraints(m)`
aborts with "could not find var mapping" and returns no list; likewise
`sortedVars(m)` when the variables all decode, there are at least two and
some variable number is absent from `m`. -/
theorem sorted_abort_of_unmapped (pt : PolyType) (fb : fbsemantic.PolyType) (m : TVarMap)
    (hfb : pt.fb = some fb) :
    (∀ cs : List fbsemantic.Constraint, fb.cons = cs.map some → 2 ≤ cs.length →
      (∃ c ∈ cs, m.lookup c.tvar.i = none) →
      pt.sortedConstraints (some m) = .error (.panic "could not find var mapping")) ∧
    (∀ vs : List fbsemantic.Var, fb.vars = vs.map some → 2 ≤ vs.length →
      (∃ v ∈ vs, m.lookup v.i = none) →
      pt.sortedVars (some m) = .error (.panic "could not find var mapping")) := by
  constructor
  · intro cs hdec hlen hex
    rw [sortedConstraints_of_decoded pt fb cs (some m) hfb hdec]
    refine Slice_abort _ (fun c => m.lookup c.tvar.i = none) _ ?_ ?_ cs hlen hex
    · intro a b h
      exact lessConstraint_unmapped m a b h
    · intro a b ha hb
      obtain ⟨x, hx⟩ := Option.ne_none_iff_exists'.1 ha
      obtain ⟨y, hy⟩ := Option.ne_none_iff_exists'.1 hb
      exact ⟨_, lessConstraint_some m a b x y hx hy⟩
  · intro vs hdec hlen hex
    rw [sortedVars_of_decoded pt fb vs (some m) hfb hdec]
    refine Slice_abort _ (fun v => m.lookup v.i = none) _ ?_ ?_ vs hlen hex
    · intro a b h
      exact lessVar_unmapped m a b h
    · intro a b ha hb
      obtain ⟨x, hx⟩ := Option.ne_none_iff_exists'.1 ha
      obtain ⟨y, hy⟩ := Option.ne_none_iff_exists'.1 hb
      exact ⟨_, lessVar_some m a b x y hx hy⟩

/-- C10 (amended), at the sample scheme with a mapping that lacks 3 and 9. -/
theorem sorted_abort_of_unmapped_witness :
    samplePoly.sortedConstraints (some [(7, 0)])
      = .error (.panic "could not find var mapping") ∧
    samplePoly.sortedVars (some [(7, 0)]) = .error (.panic "could not find var mapping") :=
  ⟨(sorted_abort_of_unmapped samplePoly _ [(7, 0)] rfl).1
      [⟨⟨7⟩, .Equatable⟩, ⟨⟨3⟩, .Addable⟩, ⟨⟨3⟩, .Comparable⟩] rfl (by decide)
      ⟨⟨⟨3⟩, .Addable⟩, by decide, rfl⟩,
    (sorted_abort_of_unmapped samplePoly _ [(7, 0)] rfl).2
      [⟨3⟩, ⟨7⟩, ⟨9⟩] rfl (by decide) ⟨⟨3⟩, by decide, rfl⟩⟩

/-! ## Bounds checking -/

theorem missing_ne_outOfBoundsVar (i : Int) (n : Nat) :
    Failure.error codes.Code.Internal "missing var" ≠ outOfBoundsVar i n := by
  intro h
  have h1 := congrArg (fun e => (Failure.Error e).data.head?) h
  simp [outOfBoundsVar, Failure.Error, String.data_append] at h1

theorem missing_ne_outOfBoundsConstraint (i : Int) (n : Nat) :
    Failure.error codes.Code.Internal "missing constraint" ≠ outOfBoundsConstraint i n := by
  intro h
  have h1 := congrArg (fun e => (Failure.Error e).data.head?) h
  simp [outOfBoundsConstraint, Failure.Error, String.data_append] at h1

/-- C6, as stated, fails on the zero `PolyType`: with a nil handle, `Var(-1)`
and `Constraint(-1)` abort on reading the count instead of returning the
out-of-bounds error. -/
theorem Var_nil_handle_aborts :
    (⟨none⟩ : PolyType).Var (-1)
      = .error (.panic "runtime error: invalid memory address or nil pointer dereference") ∧
    (⟨none⟩ : PolyType).Constraint (-1)
      = .error (.panic "runtime error: invalid memory address or nil pointer dereference") :=
  ⟨rfl, rfl⟩

/-- C6 (amended). For a polytype with a non-nil handle and every integer `i`:
`Var(i)` returns the Internal out-of-bounds error (and no variable) exactly
when `i < 0` or `i >= NumVars()`, and `Constraint(i)` returns the Internal
out-of-bounds error (and no constraint) exactly when `i < 0` or
`i >= NumConstraints()`. -/
theorem Var_Constraint_out_of_bounds (pt : PolyType) (fb : fbsemantic.PolyType) (i : Int)
    (hfb : pt.fb = some fb) :
    (pt.NumVars = .ok fb.vars.length ∧
      (pt.Var i = .error (outOfBoundsVar i fb.vars.length) ↔
        (i < 0 ∨ i ≥ (fb.vars.length : Int)))) ∧
    (pt.NumConstraints = .ok fb.cons.length ∧
      (pt.Constraint i = .error (outOfBoundsConstraint i fb.cons.length) ↔
        (i < 0 ∨ i ≥ (fb.cons.length : Int)))) := by
  refine ⟨⟨by simp [PolyType.NumVars, hfb, fbsemantic.PolyType.VarsLength], ?_⟩,
    ⟨by simp [PolyType.NumConstraints, hfb, fbsemantic.PolyType.ConsLength], ?_⟩⟩
  · by_cases h : i < 0 ∨ i ≥ (fb.vars.length : Int)
    · simp [PolyType.Var, PolyType.NumVars, hfb, fbsemantic.PolyType.VarsLength, h, bind,
        Except.bind, throw, throwThe, MonadExceptOf.throw]
    · simp only [h, iff_false]
      have h' : ¬ (i < 0 ∨ (fb.vars.length : Int) ≤ i) := h
      cases hv : fb.Vars i.toNat with
      | none =>
        simp [PolyType.Var, PolyType.NumVars, hfb, fbsemantic.PolyType.VarsLength, h', hv, bind,
          Except.bind, throw, throwThe, MonadExceptOf.throw]
        exact missing_ne_outOfBoundsVar i fb.vars.length
      | some v =>
        simp [PolyType.Var, PolyType.NumVars, hfb, fbsemantic.PolyType.VarsLength, h', hv, bind,
          Except.bind, pure, Except.pure]
  · by_cases h : i < 0 ∨ i ≥ (fb.cons.length : Int)
    · simp [PolyType.Constraint, PolyType.NumConstraints, hfb, fbsemantic.PolyType.ConsLength,
        h, bind, Except.bind, throw, throwThe, MonadExceptOf.throw]
    · simp only [h, iff_false]
      have h' : ¬ (i < 0 ∨ (fb.cons.length : Int) ≤ i) := h
      cases hv : fb.Cons i.toNat with
      | none =>
        simp [PolyType.Constraint, PolyType.NumConstraints, hfb,
          fbsemantic.PolyType.ConsLength, h', hv, bind, Except.bind, throw, throwThe,
          MonadExceptOf.throw]
        exact missing_ne_outOfBoundsConstraint i fb.cons.length
      | some v =>
        simp [PolyType.Constraint, PolyType.NumConstraints, hfb,
          fbsemantic.PolyType.ConsLength, h', hv, bind, Except.bind, pure, Except.pure]

/-- C6 (amended), at the sample scheme: index 3 of 3 variables, index -1 of the
constraints. -/
theorem Var_Constraint_out_of_bounds_witness :
    samplePoly.Var 3
      = .error (.error codes.Code.Internal "request for polytype var out of bounds: 3 in 3") ∧
    (samplePoly.Constraint (-1) = .error (outOfBoundsConstraint (-1) 3) ↔
      ((-1 : Int) < 0 ∨ (-1 : Int) ≥ ((3 : Nat) : Int))) :=
  ⟨rfl, (Var_Constraint_out_of_bounds samplePoly _ (-1) rfl).2.2⟩

/-! ## The canonical numbering -/

theorem lookup_append_of_some : ∀ (m r : TVarMap) (a x : Nat),
    m.lookup a = some x → TVarMap.lookup (m ++ r) a = some x
  | [], _, _, _, h => by simp [TVarMap.lookup] at h
  | (k, v) :: m, r, a, x, h => by
      by_cases hk : a = k
      · simpa [TVarMap.lookup, hk] using h
      · simp only [TVarMap.lookup, hk, if_false, List.cons_append] at h ⊢
        exact lookup_append_of_some m r a x h

theorem lookup_append_of_none : ∀ (m r : TVarMap) (a : Nat),
    m.lookup a = none → TVarMap.lookup (m ++ r) a = TVarMap.lookup r a
  | [], _, _, _ => rfl
  | (k, v) :: m, r, a, h => by
      by_cases hk : a = k
      · simp [TVarMap.lookup, hk] at h
      · simp only [TVarMap.lookup, hk, if_false, List.cons_append] at h ⊢
        exact lookup_append_of_none m r a h

theorem lookup_eq_none_iff : ∀ (m : TVarMap) (a : Nat),
    m.lookup a = none ↔ a ∉ m.map Prod.fst
  | [], _ => by simp [TVarMap.lookup]
  | (k, v) :: m, a => by
      by_cases hk : a = k
      · simp [TVarMap.lookup, hk]
      · simp [TVarMap.lookup, hk, lookup_eq_none_iff m a]

theorem mem_of_lookup : ∀ (m : TVarMap) (a x : Nat), m.lookup a = some x → (a, x) ∈ m
  | [], _, _, h => by simp [TVarMap.lookup] at h
  | (k, v) :: m, a, x, h => by
      by_cases hk : a = k
      · simp only [TVarMap.lookup, hk, if_true, Option.some.injEq] at h
        simp [hk, h]
      · simp only [TVarMap.lookup, hk, if_false] at h
        exact List.mem_cons_of_mem _ (mem_of_lookup m a x h)

theorem lookup_of_mem : ∀ (m : TVarMap) (a x : Nat),
    (m.map Prod.fst).Nodup → (a, x) ∈ m → m.lookup a = some x
  | [], _, _, _, h => by cases h
  | (k, v) :: m, a, x, hnd, h => by
      simp only [List.map_cons, List.nodup_cons] at hnd
      rcases List.mem_cons.1 h with h1 | h1
      · cases h1
        simp [TVarMap.lookup]
      · have hk : a ≠ k := by
          intro hak
          exact hnd.1 (List.mem_map.2 ⟨(a, x), h1, hak⟩)
        simp only [TVarMap.lookup, hk, if_false]
        exact lookup_of_mem m a x hnd.2 h1

theorem updateTVarMap_of_some (s : Nat × TVarMap) (v x : Nat) (h : s.2.lookup v = some x) :
    updateTVarMap s v = s := by
  simp [updateTVarMap, h]

theorem updateTVarMap_of_none (s : Nat × TVarMap) (v : Nat) (h : s.2.lookup v = none) :
    updateTVarMap s v = (s.1 + 1, s.2 ++ [(v, s.1)]) := by
  simp [updateTVarMap, h]

theorem updateTVarMap_facts (s : Nat × TVarMap) (v : Nat) (hs : Numbered s) :
    Numbered (updateTVarMap s v) ∧
    (∀ a x, s.2.lookup a = some x → (updateTVarMap s v).2.lookup a = some x) ∧
    (∀ a, (updateTVarMap s v).2.lookup a ≠ none ↔ (s.2.lookup a ≠ none ∨ a = v)) ∧
    (∀ a x, s.2.lookup a = none → (updateTVarMap s v).2.lookup a = some x →
      a = v ∧ x = s.1) ∧
    (s.2.lookup v = none → (updateTVarMap s v).1 = s.1 + 1) ∧
    s.1 ≤ (updateTVarMap s v).1 := by
  cases hv : s.2.lookup v with
  | some x0 =>
    rw [updateTVarMap_of_some s v x0 hv]
    refine ⟨hs, fun _ _ h => h, ?_, ?_, by simp, le_rfl⟩
    · intro a
      constructor
      · exact fun h => Or.inl h
      · rintro (h | rfl)
        · exact h
        · simp [hv]
    · intro a x h1 h2
      simp [h1] at h2
  | none =>
    rw [updateTVarMap_of_none s v hv]
    refine ⟨?_, ?_, ?_, ?_, by simp, by simp⟩
    · refine ⟨?_, ?_⟩
      · simp only [List.map_append, List.map_cons, List.map_nil]
        refine List.Nodup.append hs.1 (List.nodup_singleton v) ?_
        intro a ha hb
        simp only [List.mem_singleton] at hb
        subst hb
        exact (lookup_eq_none_iff s.2 a).1 hv ha
      · simp [hs.2, List.range_succ]
    · intro a x h
      exact lookup_append_of_some s.2 _ a x h
    · intro a
      cases ha : s.2.lookup a with
      | some x => simp [lookup_append_of_some s.2 [(v, s.1)] a x ha]
      | none =>
        simp only [lookup_append_of_none s.2 [(v, s.1)] a ha, TVarMap.lookup]
        by_cases hav : a = v <;> simp [hav]
    · intro a x ha h
      simp only [lookup_append_of_none s.2 [(v, s.1)] a ha, TVarMap.lookup] at h
      by_cases hav : a = v
      · simp only [hav, if_true, Option.some.injEq] at h
        exact ⟨hav, h.symm⟩
      · simp [hav] at h

/-- What folding `updateTVarMap` over a list of visited numbers does to a
numbering state: earlier entries are kept, exactly the visited numbers are
added, new entries get numbers from the counter on, in order of first visit. -/
theorem foldl_updateTVarMap_spec : ∀ (l : List Nat) (s : Nat × TVarMap), Numbered s →
    Numbered (l.foldl updateTVarMap s) ∧
    (∀ a x, s.2.lookup a = some x → (l.foldl updateTVarMap s).2.lookup a = some x) ∧
    (∀ a, (l.foldl updateTVarMap s).2.lookup a ≠ none ↔ (s.2.lookup a ≠ none ∨ a ∈ l)) ∧
    (∀ a x, s.2.lookup a = none → (l.foldl updateTVarMap s).2.lookup a = some x →
      s.1 ≤ x) ∧
    (∀ a b x y, s.2.lookup a = none → s.2.lookup b = none →
      (l.foldl updateTVarMap s).2.lookup a = some x →
      (l.foldl updateTVarMap s).2.lookup b = some y →
      (x < y ↔ l.indexOf a < l.indexOf b))
  | [], s, hs => by
      refine ⟨hs, fun _ _ h => h, by simp, ?_, ?_⟩
      · intro a x h1 h2
        simp [h1] at h2
      · intro a b x y h1 _ h2
        simp [h1] at h2
  | v :: l, s, hs => by
      obtain ⟨u1, u2, u3, u4, u5, u6⟩ := updateTVarMap_facts s v hs
      obtain ⟨i1, i2, i3, i4, i5⟩ := foldl_updateTVarMap_spec l (updateTVarMap s v) u1
      simp only [List.foldl_cons]
      have hnone : ∀ a, s.2.lookup a = none → a ≠ v → (updateTVarMap s v).2.lookup a = none := by
        intro a ha hav
        by_contra hc
        rcases (u3 a).1 hc with h | h
        · exact h ha
        · exact hav h
      have hself : ∀ x, s.2.lookup v = none →
          (l.foldl updateTVarMap (updateTVarMap s v)).2.lookup v = some x → x = s.1 := by
        intro x hv hx
        obtain ⟨x', hx'⟩ := Option.ne_none_iff_exists'.1 ((u3 v).2 (Or.inr rfl))
        have := i2 v x' hx'
        rw [hx] at this
        cases this
        exact (u4 v x hv hx').2
      refine ⟨i1, fun a x h => i2 a x (u2 a x h), ?_, ?_, ?_⟩
      · intro a
        rw [i3 a, u3 a, List.mem_cons, or_assoc]
      · intro a x ha hx
        by_cases hav : a = v
        · subst hav
          exact le_of_eq (hself x ha hx).symm
        · exact le_trans u6 (i4 a x (hnone a ha hav) hx)
      · intro a b x y ha hb hx hy
        by_cases hav : a = v
        · subst hav
          have hxe := hself x ha hx
          by_cases hbv : b = a
          · subst hbv
            have hye := hself y ha hy
            simp [hxe, hye]
          · have hy1 := i4 b y (hnone b hb hbv) hy
            rw [u5 ha] at hy1
            rw [List.indexOf_cons_self, List.indexOf_cons_ne _ (Ne.symm hbv)]
            constructor
            · intro _; exact Nat.succ_pos _
            · intro _; omega
        · by_cases hbv : b = v
          · subst hbv
            have hye := hself y hb hy
            have hx1 := i4 a x (hnone a ha hav) hx
            rw [u5 hb] at hx1
            rw [List.indexOf_cons_self, List.indexOf_cons_ne _ (Ne.symm hav)]
            constructor
            · intro h; omega
            · intro h; exact absurd h (Nat.not_lt_zero _)
          · rw [List.indexOf_cons_ne _ (Ne.symm hav), List.indexOf_cons_ne _ (Ne.symm hbv)]
            rw [i5 a b x y (hnone a ha hav) (hnone b hb hbv) hx hy]
            exact (Nat.succ_lt_succ_iff).symm

theorem Numbered_init : Numbered (0, []) := by
  simp [Numbered]

mutual
theorem MonoType.getCanonicalMapping_eq_foldl : ∀ (t : MonoType) (s s' : Nat × TVarMap),
    t.getCanonicalMapping s = .ok s' → s' = t.vars.foldl updateTVarMap s
  | .var id, s, s', h => by
      simp only [MonoType.getCanonicalMapping, Except.ok.injEq] at h
      simp [MonoType.vars, h]
  | .prim _, s, s', h => by
      simp only [MonoType.getCanonicalMapping, Except.ok.injEq] at h
      simp [MonoType.vars, h]
  | .arr e, s, s', h => by
      simp only [MonoType.getCanonicalMapping] at h
      simpa [MonoType.vars] using MonoType.getCanonicalMapping_eq_foldl e s s' h
  | .dict k v, s, s', h => by
      simp only [MonoType.getCanonicalMapping, bind, Except.bind] at h
      split at h
      · cases h
      · rename_i s1 h1
        have e1 := MonoType.getCanonicalMapping_eq_foldl k s s1 h1
        have e2 := MonoType.getCanonicalMapping_eq_foldl v s1 s' h
        simp [MonoType.vars, List.foldl_append, ← e1, ← e2]
  | .record fs tl, s, s', h => by
      simp only [MonoType.getCanonicalMapping, bind, Except.bind] at h
      split at h
      · cases h
      · rename_i s1 h1
        have e1 := MonoType.getCanonicalMappingFields_eq_foldl fs s s1 h1
        cases tl with
        | none =>
          simp only [pure, Except.pure, Except.ok.injEq] at h
          simp [MonoType.vars, List.foldl_append, ← e1, h]
        | some v =>
          simp only [pure, Except.pure, Except.ok.injEq] at h
          simp [MonoType.vars, List.foldl_append, ← e1, h]
  | .fn ps r, s, s', h => by
      simp only [MonoType.getCanonicalMapping, bind, Except.bind] at h
      split at h
      · cases h
      · rename_i s1 h1
        have e1 := MonoType.getCanonicalMappingParams_eq_foldl ps s s1 h1
        have e2 := MonoType.getCanonicalMapping_eq_foldl r s1 s' h
        simp [MonoType.vars, List.foldl_append, ← e1, ← e2]
  | .malformed _, s, s', h => by
      simp [MonoType.getCanonicalMapping] at h
theorem MonoType.getCanonicalMappingFields_eq_foldl :
    ∀ (fs : List (Property MonoType)) (s s' : Nat × TVarMap),
    MonoType.getCanonicalMappingFields fs s = .ok s' →
    s' = (MonoType.fieldsVars fs).foldl updateTVarMap s
  | [], s, s', h => by
      simp only [MonoType.getCanonicalMappingFields, Except.ok.injEq] at h
      simp [MonoType.fieldsVars, h]
  | p :: rest, s, s', h => by
      simp only [MonoType.getCanonicalMappingFields, bind, Except.bind] at h
      split at h
      · cases h
      · rename_i s1 h1
        have e1 := MonoType.getCanonicalMapping_eq_foldl p.typ s s1 h1
        have e2 := MonoType.getCanonicalMappingFields_eq_foldl rest s1 s' h
        simp [MonoType.fieldsVars, List.foldl_append, ← e1, ← e2]
theorem MonoType.getCanonicalMappingParams_eq_foldl :
    ∀ (ps : List (Argument MonoType)) (s s' : Nat × TVarMap),
    MonoType.getCanonicalMappingParams ps s = .ok s' →
    s' = (MonoType.paramsVars ps).foldl updateTVarMap s
  | [], s, s', h => by
      simp only [MonoType.getCanonicalMappingParams, Except.ok.injEq] at h
      simp [MonoType.paramsVars, h]
  | p :: rest, s, s', h => by
      simp only [MonoType.getCanonicalMappingParams, bind, Except.bind] at h
      split at h
      · cases h
      · rename_i s1 h1
        have e1 := MonoType.getCanonicalMapping_eq_foldl p.typ s s1 h1
        have e2 := MonoType.getCanonicalMappingParams_eq_foldl rest s1 s' h
        simp [MonoType.paramsVars, List.foldl_append, ← e1, ← e2]
end

theorem quantifiedMapping_range' (pt : PolyType) :
    ∀ (vs : List fbsemantic.Var) (k : Nat) (s : Nat × TVarMap),
    (∀ j (hj : j < vs.length), pt.Var ((k + j : Nat) : Int) = .ok (vs.get ⟨j, hj⟩)) →
    pt.quantifiedMapping (List.range' k vs.length) s
      = .ok ((vs.map (fun v => v.i)).foldl updateTVarMap s)
  | [], _, _, _ => rfl
  | v :: vs, k, s, h => by
      have h0 : pt.Var ((k : Nat) : Int) = .ok v := by
        simpa using h 0 (by simp)
      have hrec := quantifiedMapping_range' pt vs (k + 1) (updateTVarMap s v.i) (by
        intro j hj
        have := h (j + 1) (by simpa using hj)
        simpa [Nat.add_assoc, Nat.add_comm 1 j] using this)
      simp [List.range', PolyType.quantifiedMapping, h0, hrec, bind, Except.bind]

theorem quantifiedMapping_ok_all (pt : PolyType) :
    ∀ (is : List Nat) (s s' : Nat × TVarMap), pt.quantifiedMapping is s = .ok s' →
    ∀ i ∈ is, ∃ v, pt.Var (i : Int) = .ok v
  | [], _, _, _, _, hi => by cases hi
  | j :: is, s, s', h, i, hi => by
      simp only [PolyType.quantifiedMapping, bind, Except.bind] at h
      split at h
      · cases h
      · rename_i v hv
        rcases List.mem_cons.1 hi with rfl | hi
        · exact ⟨v, hv⟩
        · exact quantifiedMapping_ok_all pt is _ s' h i hi

theorem Var_ok_get (pt : PolyType) (fb : fbsemantic.PolyType) (hfb : pt.fb = some fb)
    (i : Nat) (v : fbsemantic.Var) (h : pt.Var (i : Int) = .ok v) :
    fb.vars[i]? = some (some v) := by
  simp only [PolyType.Var, PolyType.NumVars, hfb, fbsemantic.PolyType.VarsLength, bind,
    Except.bind] at h
  split at h
  · simp [throw, throwThe, MonadExceptOf.throw] at h
  · simp only [fbsemantic.PolyType.Vars, Int.toNat_ofNat, List.get?_eq_getElem?] at h
    cases hg : fb.vars[i]? with
    | none => simp [hg, throw, throwThe, MonadExceptOf.throw] at h
    | some o =>
      cases o with
      | none => simp [hg, throw, throwThe, MonadExceptOf.throw] at h
      | some w =>
        simp [hg, pure, Except.pure] at h
        simp [h]

theorem all_some_eq_map {α : Type} : ∀ (l : List (Option α)), (∀ o ∈ l, o ≠ none) →
    l = (l.filterMap id).map some
  | [], _ => rfl
  | none :: _, h => absurd rfl (h none (List.mem_cons_self _ _))
  | some a :: l, h => by
      have := all_some_eq_map l (fun o ho => h o (List.mem_cons_of_mem _ ho))
      simp only [List.filterMap_cons, id, List.map_cons]
      rw [← this]

/-- With a decoded body whose traversal succeeds and variables that all decode,
`getCanonicalMapping` returns the numbering of the body's occurrences followed
by the quantified variables. -/
theorem getCanonicalMapping_of_decoded (pt : PolyType) (fb : fbsemantic.PolyType)
    (body : MonoType) (vs : List fbsemantic.Var) (s1 : Nat × TVarMap)
    (hfb : pt.fb = some fb) (hexpr : fb.expr = some body) (hdec : fb.vars = vs.map some)
    (hbody : body.getCanonicalMapping (0, []) = .ok s1) :
    pt.getCanonicalMapping
      = .ok ((body.vars ++ vs.map (fun v => v.i)).foldl updateTVarMap (0, [])).2 := by
  have hn : fb.vars.length = vs.length := by simp [hdec]
  have hq := quantifiedMapping_range' pt vs 0 s1 (by
    intro j hj
    simpa using Var_of_decoded pt fb vs hfb hdec j hj)
  rw [← List.range_eq_range'] at hq
  have hs1 := MonoType.getCanonicalMapping_eq_foldl body (0, []) s1 hbody
  simp [PolyType.getCanonicalMapping, PolyType.Expr, PolyType.NumVars, hfb, hexpr, hbody,
    fbsemantic.PolyType.VarsLength, hn, hq, bind, Except.bind, pure, Except.pure,
    List.foldl_append, ← hs1]

/-- A successful `getCanonicalMapping` has a decoded body whose traversal
succeeded and variables that all decoded. -/
theorem getCanonicalMapping_inv (pt : PolyType) (m : TVarMap)
    (h : pt.getCanonicalMapping = .ok m) :
    ∃ (fb : fbsemantic.PolyType) (body : MonoType) (vs : List fbsemantic.Var)
      (s1 : Nat × TVarMap), pt.fb = some fb ∧ fb.expr = some body ∧ fb.vars = vs.map some ∧
      body.getCanonicalMapping (0, []) = .ok s1 ∧
      m = ((body.vars ++ vs.map (fun v => v.i)).foldl updateTVarMap (0, [])).2 := by
  cases hfb : pt.fb with
  | none => simp [PolyType.getCanonicalMapping, PolyType.Expr, hfb, bind, Except.bind] at h
  | some fb =>
    cases hexpr : fb.expr with
    | none =>
      simp [PolyType.getCanonicalMapping, PolyType.Expr, hfb, hexpr, bind, Except.bind] at h
    | some body =>
      cases hbody : body.getCanonicalMapping (0, []) with
      | error e =>
        simp [PolyType.getCanonicalMapping, PolyType.Expr, hfb, hexpr, hbody, bind,
          Except.bind] at h
      | ok s1 =>
        cases hq : pt.quantifiedMapping (List.range fb.vars.length) s1 with
        | error e =>
          simp [PolyType.getCanonicalMapping, PolyType.Expr, PolyType.NumVars, hfb, hexpr,
            hbody, fbsemantic.PolyType.VarsLength, hq, bind, Except.bind] at h
        | ok s2 =>
          have hall : ∀ o ∈ fb.vars, o ≠ none := by
            intro o ho
            obtain ⟨i, hi, hio⟩ := List.getElem_of_mem ho
            obtain ⟨v, hv⟩ := quantifiedMapping_ok_all pt _ s1 s2 hq i (List.mem_range.2 hi)
            have := Var_ok_get pt fb hfb i v hv
            rw [List.getElem?_eq_getElem hi, hio] at this
            cases this
            simp
          have hdec := all_some_eq_map fb.vars hall
          have := getCanonicalMapping_of_decoded pt fb body (fb.vars.filterMap id) s1 hfb hexpr
            hdec hbody
          rw [h] at this
          exact ⟨fb, body, fb.vars.filterMap id, s1, rfl, hexpr, hdec, hbody,
            Except.ok.inj this⟩

/-- The numbering computed from a list of visited numbers, started empty. -/
theorem numbering_spec (l : List Nat) :
    Numbered (l.foldl updateTVarMap (0, [])) ∧
    (∀ a, (l.foldl updateTVarMap (0, [])).2.lookup a ≠ none ↔ a ∈ l) ∧
    (∀ a b x y, (l.foldl updateTVarMap (0, [])).2.lookup a = some x →
      (l.foldl updateTVarMap (0, [])).2.lookup b = some y →
      (x < y ↔ l.indexOf a < l.indexOf b)) := by
  obtain ⟨h1, _, h3, _, h5⟩ := foldl_updateTVarMap_spec l (0, []) Numbered_init
  refine ⟨h1, ?_, ?_⟩
  · intro a
    simpa [TVarMap.lookup] using h3 a
  · intro a b x y hx hy
    exact h5 a b x y rfl rfl hx hy

theorem Numbered_injective (s : Nat × TVarMap) (hs : Numbered s) (a b x : Nat)
    (ha : s.2.lookup a = some x) (hb : s.2.lookup b = some x) : a = b := by
  have hnd : (s.2.map Prod.snd).Nodup := by
    rw [hs.2]
    exact List.nodup_range s.1
  have := List.inj_on_of_nodup_map hnd (mem_of_lookup s.2 a x ha) (mem_of_lookup s.2 b x hb) rfl
  exact congrArg Prod.fst this

theorem Numbered_values (s : Nat × TVarMap) (hs : Numbered s) (x : Nat) :
    (∃ a, s.2.lookup a = some x) ↔ x < s.2.length := by
  have hlen : s.2.length = s.1 := by
    have := congrArg List.length hs.2
    simpa using this
  constructor
  · rintro ⟨a, ha⟩
    have hm : x ∈ s.2.map Prod.snd := List.mem_map.2 ⟨(a, x), mem_of_lookup s.2 a x ha, rfl⟩
    rw [hs.2, List.mem_range] at hm
    omega
  · intro hx
    have hm : x ∈ s.2.map Prod.snd := by
      rw [hs.2, List.mem_range]
      omega
    obtain ⟨⟨a, y⟩, hmem, hy⟩ := List.mem_map.1 hm
    simp only at hy
    subst hy
    exact ⟨a, lookup_of_mem s.2 a y hs.1 hmem⟩

/-- C2. When canonicalization succeeds, the mapping numbers the variables of
the body in the order of their first occurrence in the pre-order traversal:
for variables `a`, `b` of the body, `m[a] < m[b]` exactly when the first
occurrence of `a` is visited before the first occurrence of `b`; and the first
variable visited gets 0. -/
theorem canonical_first_occurrence_order (pt : PolyType) (fb : fbsemantic.PolyType)
    (body : MonoType) (m : TVarMap) (hfb : pt.fb = some fb) (hexpr : fb.expr = some body)
    (h : pt.getCanonicalMapping = .ok m) :
    (∀ a ∈ body.vars, ∀ b ∈ body.vars, ∃ x y, m.lookup a = some x ∧ m.lookup b = some y ∧
      (x < y ↔ body.vars.indexOf a < body.vars.indexOf b)) ∧
    (∀ a, body.vars.head? = some a → m.lookup a = some 0) := by
  obtain ⟨fb', body', vs, s1, hfb', hexpr', _, _, hm⟩ := getCanonicalMapping_inv pt m h
  rw [hfb] at hfb'
  cases hfb'
  rw [hexpr] at hexpr'
  cases hexpr'
  obtain ⟨_, hkeys, hord⟩ := numbering_spec (body.vars ++ vs.map (fun v => v.i))
  rw [← hm] at hkeys hord
  constructor
  · intro a ha b hb
    obtain ⟨x, hx⟩ := Option.ne_none_iff_exists'.1
      ((hkeys a).2 (List.mem_append_left _ ha))
    obtain ⟨y, hy⟩ := Option.ne_none_iff_exists'.1
      ((hkeys b).2 (List.mem_append_left _ hb))
    refine ⟨x, y, hx, hy, ?_⟩
    rw [hord a b x y hx hy, List.indexOf_append_of_mem ha, List.indexOf_append_of_mem hb]
  · intro a ha
    cases hl : body.vars with
    | nil => simp [hl] at ha
    | cons v l =>
      simp only [hl, List.head?_cons, Option.some.injEq] at ha
      subst ha
      have hstep : updateTVarMap (0, []) v = (1, [(v, 0)]) := rfl
      have hnum : Numbered (1, [(v, 0)]) := by
        rw [← hstep]
        exact (updateTVarMap_facts (0, []) v Numbered_init).1
      have := (foldl_updateTVarMap_spec (l ++ vs.map (fun w => w.i)) (1, [(v, 0)]) hnum).2.1
        v 0 (by simp [TVarMap.lookup])
      rw [hm, hl]
      simpa [List.foldl_cons, hstep] using this

/-- C2, at the body `(a: Var(7), b: Var(3)) -> Var(7)`: 7 gets 0 and 3 gets 1. -/
theorem canonical_first_occurrence_order_witness :
    samplePoly.getCanonicalMapping = .ok [(7, 0), (3, 1), (9, 2)] ∧
    TVarMap.lookup [(7, 0), (3, 1), (9, 2)] 7 = some 0 ∧
    TVarMap.lookup [(7, 0), (3, 1), (9, 2)] 3 = some 1 ∧
    ((∀ a ∈ sampleBody.vars, ∀ b ∈ sampleBody.vars, ∃ x y,
        TVarMap.lookup [(7, 0), (3, 1), (9, 2)] a = some x ∧
        TVarMap.lookup [(7, 0), (3, 1), (9, 2)] b = some y ∧
        (x < y ↔ sampleBody.vars.indexOf a < sampleBody.vars.indexOf b)) ∧
      (∀ a, sampleBody.vars.head? = some a →
        TVarMap.lookup [(7, 0), (3, 1), (9, 2)] a = some 0)) :=
  ⟨rfl, rfl, rfl,
    canonical_first_occurrence_order samplePoly _ sampleBody [(7, 0), (3, 1), (9, 2)]
      rfl rfl rfl⟩

/-- C4. When `getCanonicalMapping` succeeds, the returned mapping is injective,
its keys are exactly the variable numbers that occur in the body or in the
quantified list, and its values are exactly `0, 1, ..., n - 1` for `n` the
number of keys. -/
theorem canonical_mapping_dense (pt : PolyType) (fb : fbsemantic.PolyType)
    (body : MonoType) (m : TVarMap) (hfb : pt.fb = some fb) (hexpr : fb.expr = some body)
    (h : pt.getCanonicalMapping = .ok m) :
    (∀ a b x, m.lookup a = some x → m.lookup b = some x → a = b) ∧
    (m.map Prod.fst).Nodup ∧
    (∀ a, m.lookup a ≠ none ↔ (a ∈ body.vars ∨ some ⟨a⟩ ∈ fb.vars)) ∧
    (∀ x, (∃ a, m.lookup a = some x) ↔ x < m.length) := by
  obtain ⟨fb', body', vs, s1, hfb', hexpr', hdec, _, hm⟩ := getCanonicalMapping_inv pt m h
  rw [hfb] at hfb'
  cases hfb'
  rw [hexpr] at hexpr'
  cases hexpr'
  obtain ⟨hnum, hkeys, _⟩ := numbering_spec (body.vars ++ vs.map (fun v => v.i))
  rw [← hm] at hkeys
  refine ⟨?_, ?_, ?_, ?_⟩
  · intro a b x ha hb
    rw [hm] at ha hb
    exact Numbered_injective _ hnum a b x ha hb
  · rw [hm]
    exact hnum.1
  · intro a
    rw [hkeys a, List.mem_append, hdec]
    have : a ∈ vs.map (fun v => v.i) ↔ some (⟨a⟩ : fbsemantic.Var) ∈ vs.map some := by
      simp only [List.mem_map, Option.some.injEq]
      constructor
      · rintro ⟨v, hv, rfl⟩
        exact ⟨v, hv, rfl⟩
      · rintro ⟨v, hv, rfl⟩
        exact ⟨_, hv, rfl⟩
    rw [this]
  · intro x
    rw [hm]
    exact Numbered_values _ hnum x

/-- C4, at the sample scheme. -/
theorem canonical_mapping_dense_witness :
    samplePoly.getCanonicalMapping = .ok [(7, 0), (3, 1), (9, 2)] ∧
    (∀ a b x, TVarMap.lookup [(7, 0), (3, 1), (9, 2)] a = some x →
      TVarMap.lookup [(7, 0), (3, 1), (9, 2)] b = some x → a = b) ∧
    (∀ x, (∃ a, TVarMap.lookup [(7, 0), (3, 1), (9, 2)] a = some x) ↔ x < 3) :=
  ⟨rfl,
    (canonical_mapping_dense samplePoly _ sampleBody [(7, 0), (3, 1), (9, 2)]
      rfl rfl rfl).1,
    (canonical_mapping_dense samplePoly _ sampleBody [(7, 0), (3, 1), (9, 2)]
      rfl rfl rfl).2.2.2⟩

/-- C5. When the body traversal and the `Var` accessors succeed,
`getCanonicalMapping` succeeds; every quantified variable that does not occur
in the body gets a canonical number greater than that of every variable of the
body; among such variables the numbers follow the first position in the
quantified list; and the numbers given by the body traversal are kept. -/
theorem canonical_unreachable_quantified (pt : PolyType) (fb : fbsemantic.PolyType)
    (body : MonoType) (vs : List fbsemantic.Var) (s1 : Nat × TVarMap)
    (hfb : pt.fb = some fb) (hexpr : fb.expr = some body) (hdec : fb.vars = vs.map some)
    (hbody : body.getCanonicalMapping (0, []) = .ok s1) :
    ∃ m, pt.getCanonicalMapping = .ok m ∧
      (∀ u ∈ vs, u.i ∉ body.vars → ∀ b ∈ body.vars,
        ∃ x y, m.lookup u.i = some x ∧ m.lookup b = some y ∧ y < x) ∧
      (∀ u ∈ vs, ∀ w ∈ vs, u.i ∉ body.vars → w.i ∉ body.vars →
        ∃ x y, m.lookup u.i = some x ∧ m.lookup w.i = some y ∧
          (x < y ↔ (vs.map (fun v => v.i)).indexOf u.i < (vs.map (fun v => v.i)).indexOf w.i)) ∧
      (∀ a x, s1.2.lookup a = some x → m.lookup a = some x) := by
  refine ⟨_, getCanonicalMapping_of_decoded pt fb body vs s1 hfb hexpr hdec hbody, ?_, ?_, ?_⟩
  · intro u hu hnot b hb
    obtain ⟨_, hkeys, hord⟩ := numbering_spec (body.vars ++ vs.map (fun v => v.i))
    have hmem : u.i ∈ vs.map (fun v => v.i) := List.mem_map.2 ⟨u, hu, rfl⟩
    obtain ⟨x, hx⟩ := Option.ne_none_iff_exists'.1
      ((hkeys u.i).2 (List.mem_append_right _ hmem))
    obtain ⟨y, hy⟩ := Option.ne_none_iff_exists'.1
      ((hkeys b).2 (List.mem_append_left _ hb))
    refine ⟨x, y, hx, hy, ?_⟩
    rw [hord b u.i y x hy hx, List.indexOf_append_of_mem hb,
      List.indexOf_append_of_not_mem hnot]
    have := List.indexOf_lt_length.2 hb
    omega
  · intro u hu w hw hnu hnw
    obtain ⟨_, hkeys, hord⟩ := numbering_spec (body.vars ++ vs.map (fun v => v.i))
    have hmu : u.i ∈ vs.map (fun v => v.i) := List.mem_map.2 ⟨u, hu, rfl⟩
    have hmw : w.i ∈ vs.map (fun v => v.i) := List.mem_map.2 ⟨w, hw, rfl⟩
    obtain ⟨x, hx⟩ := Option.ne_none_iff_exists'.1
      ((hkeys u.i).2 (List.mem_append_right _ hmu))
    obtain ⟨y, hy⟩ := Option.ne_none_iff_exists'.1
      ((hkeys w.i).2 (List.mem_append_right _ hmw))
    refine ⟨x, y, hx, hy, ?_⟩
    rw [hord u.i w.i x y hx hy, List.indexOf_append_of_not_mem hnu,
      List.indexOf_append_of_not_mem hnw]
    omega
  · intro a x ha
    have hs1 := MonoType.getCanonicalMapping_eq_foldl body (0, []) s1 hbody
    have hnum : Numbered s1 := by
      rw [hs1]
      exact (numbering_spec body.vars).1
    have := (foldl_updateTVarMap_spec (vs.map (fun v => v.i)) s1 hnum).2.1 a x ha
    rw [List.foldl_append, ← hs1]
    exact this

/-- C5, at the sample scheme: the unreachable 9 is numbered after 7 and 3. -/
theorem canonical_unreachable_quantified_witness :
    samplePoly.getCanonicalMapping = .ok [(7, 0), (3, 1), (9, 2)] ∧
    ∃ m, samplePoly.getCanonicalMapping = .ok m ∧
      (∀ u ∈ [(⟨3⟩ : fbsemantic.Var), ⟨7⟩, ⟨9⟩], u.i ∉ sampleBody.vars →
        ∀ b ∈ sampleBody.vars,
        ∃ x y, m.lookup u.i = some x ∧ m.lookup b = some y ∧ y < x) ∧
      (∀ u ∈ [(⟨3⟩ : fbsemantic.Var), ⟨7⟩, ⟨9⟩], ∀ w ∈ [(⟨3⟩ : fbsemantic.Var), ⟨7⟩, ⟨9⟩],
        u.i ∉ sampleBody.vars → w.i ∉ sampleBody.vars →
        ∃ x y, m.lookup u.i = some x ∧ m.lookup w.i = some y ∧
          (x < y ↔ ([(⟨3⟩ : fbsemantic.Var), ⟨7⟩, ⟨9⟩].map (fun v => v.i)).indexOf u.i
            < ([(⟨3⟩ : fbsemantic.Var), ⟨7⟩, ⟨9⟩].map (fun v => v.i)).indexOf w.i)) ∧
      (∀ a x, TVarMap.lookup [(7, 0), (3, 1)] a = some x → m.lookup a = some x) :=
  ⟨rfl, canonical_unreachable_quantified samplePoly _ sampleBody [⟨3⟩, ⟨7⟩, ⟨9⟩]
    (2, [(7, 0), (3, 1)]) rfl rfl rfl rfl⟩

/-! ## Rendering of a scheme -/

theorem intercalate_go_append (p s : String) : ∀ (l : List String) (acc : String),
    String.intercalate.go (p ++ acc) s l = p ++ String.intercalate.go acc s l
  | [], _ => rfl
  | a :: l, acc => by
      simp only [String.intercalate.go]
      rw [String.append_assoc p acc s, String.append_assoc p (acc ++ s) a]
      exact intercalate_go_append p s l (acc ++ s ++ a)

theorem intercalate_cons_cons (s a b : String) (l : List String) :
    s.intercalate (a :: b :: l) = a ++ s ++ s.intercalate (b :: l) := by
  simp only [String.intercalate, String.intercalate.go]
  exact intercalate_go_append (a ++ s) s l b

theorem writeVars_true (syn : Style) (m : Option TVarMap) :
    ∀ (vs : List fbsemantic.Var) (sb : String),
    (PolyType.writeVars syn m vs (true, sb)).2
      = String.intercalate.go sb ", " (vs.map fun v => (monoTypeFromVar v).string syn m)
  | [], _ => rfl
  | v :: vs, sb => by
      simp only [PolyType.writeVars, if_true, List.map_cons, String.intercalate.go]
      exact writeVars_true syn m vs _

/-- The loop over the sorted variables writes them separated by `", "`. -/
theorem writeVars_eq (syn : Style) (m : Option TVarMap) (vs : List fbsemantic.Var)
    (sb : String) :
    (PolyType.writeVars syn m vs (false, sb)).2
      = sb ++ ", ".intercalate (vs.map fun v => (monoTypeFromVar v).string syn m) := by
  cases vs with
  | nil => simp [PolyType.writeVars, String.intercalate]
  | cons v vs =>
    simp only [PolyType.writeVars, Bool.false_eq_true, if_false, List.map_cons,
      String.intercalate]
    rw [writeVars_true]
    exact intercalate_go_append sb ", " _ _

theorem writeConstraints_false (syn : Style) (m : Option TVarMap) (n : Nat) :
    ∀ (cs : List fbsemantic.Constraint) (i : Nat) (sb : String), i + cs.length = n →
    cs ≠ [] →
    (PolyType.writeConstraints syn m n i cs (false, sb)).2
      = sb ++ ", ".intercalate (cs.map fun c =>
          (monoTypeFromVar c.tvar).string syn m ++ ": " ++ fbsemantic.EnumNamesKind c.kind)
        ++ " "
  | [], _, _, _, h => absurd rfl h
  | [c], i, sb, hn, _ => by
      have hlt : ¬ ((i : Int) < (n : Int) - 1) := by
        simp only [List.length_singleton] at hn
        omega
      simp only [PolyType.writeConstraints, Bool.false_eq_true, if_false, hlt, List.map_cons,
        List.map_nil, String.intercalate, String.intercalate.go, String.append_assoc]
  | c :: d :: cs, i, sb, hn, _ => by
      have hlt : (i : Int) < (n : Int) - 1 := by
        simp only [List.length_cons] at hn
        omega
      have ih := writeConstraints_false syn m n (d :: cs) (i + 1)
        (sb ++ (monoTypeFromVar c.tvar).string syn m ++ ": "
          ++ fbsemantic.EnumNamesKind c.kind ++ ", ")
        (by simp only [List.length_cons] at hn ⊢; omega) (by simp)
      simp only [List.map_cons] at ih ⊢
      rw [intercalate_cons_cons, PolyType.writeConstraints]
      simp only [Bool.false_eq_true, if_false, hlt, if_true]
      rw [ih]
      simp only [String.append_assoc]

/-- The loop over the sorted constraints writes `where `, the constraints
separated by `", "`, and one space; nothing when there is no constraint. -/
theorem writeConstraints_eq (syn : Style) (m : Option TVarMap)
    (cs : List fbsemantic.Constraint) (sb : String) :
    (PolyType.writeConstraints syn m cs.length 0 cs (true, sb)).2
      = if cs = [] then sb
        else sb ++ "where " ++ ", ".intercalate (cs.map fun c =>
          (monoTypeFromVar c.tvar).string syn m ++ ": " ++ fbsemantic.EnumNamesKind c.kind)
          ++ " " := by
  cases cs with
  | nil => simp [PolyType.writeConstraints]
  | cons c cs =>
    cases cs with
    | nil =>
      simp only [PolyType.writeConstraints, if_true, List.length_singleton, List.map_cons,
        List.map_nil, String.intercalate, String.intercalate.go, String.append_assoc]
      simp
    | cons d cs =>
      have ih := writeConstraints_false syn m (c :: d :: cs).length (d :: cs) 1
        (sb ++ "where " ++ (monoTypeFromVar c.tvar).string syn m ++ ": "
          ++ fbsemantic.EnumNamesKind c.kind ++ ", ")
        (by simp only [List.length_cons]; omega) (by simp)
      have hlt : ((0 : Nat) : Int) < (((c :: d :: cs).length : Nat) : Int) - 1 := by
        simp only [List.length_cons]
        omega
      simp only [List.map_cons] at ih ⊢
      rw [PolyType.writeConstraints]
      simp only [if_true, hlt, Nat.zero_add]
      rw [ih, intercalate_cons_cons ", " ((monoTypeFromVar c.tvar).string syn m ++ ": "
        ++ fbsemantic.EnumNamesKind c.kind)]
      simp [String.append_assoc]

theorem insertionStep_perm {α : Type} (less : α → α → Result Bool) (x : α) :
    ∀ (before r : List α), sort.insertionStep less x before = .ok r → r.Perm (x :: before)
  | [], r, h => by
      simp only [sort.insertionStep, Except.ok.injEq] at h
      subst h
      exact List.Perm.refl _
  | y :: before, r, h => by
      simp only [sort.insertionStep, bind, Except.bind] at h
      split at h
      · cases h
      · rename_i b _
        cases b with
        | false =>
          simp only [Bool.false_eq_true, if_false, pure, Except.pure, Except.ok.injEq] at h
          subst h
          exact List.Perm.refl _
        | true =>
          simp only [if_true] at h
          split at h
          · cases h
          · rename_i moved hm
            simp only [pure, Except.pure, Except.ok.injEq] at h
            subst h
            exact (List.Perm.cons y (insertionStep_perm less x before moved hm)).trans
              (List.Perm.swap x y before)

theorem insertionSort_perm {α : Type} (less : α → α → Result Bool) :
    ∀ (todo done out : List α), sort.insertionSort less todo done = .ok out →
    out.Perm (done.reverse ++ todo)
  | [], done, out, h => by
      simp only [sort.insertionSort, Except.ok.injEq] at h
      subst h
      simp
  | x :: todo, done, out, h => by
      simp only [sort.insertionSort, bind, Except.bind] at h
      split at h
      · cases h
      · rename_i r hr
        have hperm := insertionStep_perm less x done r hr
        refine (insertionSort_perm less todo r out h).trans ?_
        have h1 : r.reverse.Perm (done.reverse ++ [x]) := by
          refine (List.reverse_perm r).trans (hperm.trans ?_)
          refine (@List.perm_append_comm _ [x] done).trans ?_
          exact List.Perm.append_right _ (List.reverse_perm done).symm
        simpa using List.Perm.append_right todo h1

/-- Whenever `sort.Slice` returns, its result is a permutation of its input. -/
theorem Slice_perm {α : Type} (less : α → α → Result Bool) (xs out : List α)
    (h : sort.Slice less xs = .ok out) : out.Perm xs := by
  simpa using insertionSort_perm less xs [] out h

theorem collect_length {α : Type} (get : Int → Result α) :
    ∀ (is : List Nat) (xs : List α), collect get is = .ok xs → xs.length = is.length
  | [], xs, h => by
      simp only [collect, Except.ok.injEq] at h
      subst h
      rfl
  | i :: is, xs, h => by
      simp only [collect, bind, Except.bind] at h
      split at h
      · cases h
      · split at h
        · cases h
        · rename_i ys hy
          simp only [pure, Except.pure, Except.ok.injEq] at h
          subst h
          simp [collect_length get is ys hy]

theorem sortedConstraints_length (pt : PolyType) (m : Option TVarMap)
    (cs : List fbsemantic.Constraint) (h : pt.sortedConstraints m = .ok cs) :
    pt.NumConstraints = .ok cs.length := by
  simp only [PolyType.sortedConstraints, bind, Except.bind] at h
  split at h
  · cases h
  · rename_i n hn
    split at h
    · cases h
    · rename_i cs0 h0
      have h1 := collect_length _ _ _ h0
      have h2 := (Slice_perm _ cs0 cs h).length_eq
      rw [hn, h2, h1, List.length_range]

/-- The text `string(m)` returns once both sorts and `Expr` have returned. -/
theorem string_of_sorted (syn : Style) (pt : PolyType) (m : Option TVarMap)
    (vs : List fbsemantic.Var) (cs : List fbsemantic.Constraint) (body : MonoType)
    (hv : pt.sortedVars m = .ok vs) (hc : pt.sortedConstraints m = .ok cs)
    (he : pt.Expr = .ok body) :
    pt.string syn m = .ok
      ((if cs = [] then
          "forall [" ++ ", ".intercalate (vs.map fun v => (monoTypeFromVar v).string syn m)
            ++ "] "
        else
          "forall [" ++ ", ".intercalate (vs.map fun v => (monoTypeFromVar v).string syn m)
            ++ "] " ++ "where "
            ++ ", ".intercalate (cs.map fun c =>
                (monoTypeFromVar c.tvar).string syn m ++ ": "
                  ++ fbsemantic.EnumNamesKind c.kind)
            ++ " ")
        ++ body.string syn m) := by
  have hn := sortedConstraints_length pt m cs hc
  cases hfb : pt.fb with
  | none => simp [PolyType.Expr, hfb] at he
  | some fb =>
    simp only [PolyType.string, hfb, orPlaceholder, hv, hc, hn, he]
    rw [writeConstraints_eq, writeVars_eq]

/-- C8. With sorted variables `vs` and sorted constraints `cs`, at least one,
and body `body`, `String()` is `"forall [" ++ join(", ", vars) ++ "] " ++
"where " ++ join(", ", [tvar ++ ": " ++ KindName]) ++ " " ++ body`; and the
same holds for `CanonicalString()` with every variable rendered through the
canonical mapping. -/
theorem string_with_constraints (syn : Style) (pt : PolyType) (body : MonoType)
    (he : pt.Expr = .ok body) :
    (∀ vs cs, pt.SortedVars = .ok vs → pt.SortedConstraints = .ok cs → cs ≠ [] →
      PolyType.String syn pt = .ok
        ("forall [" ++ ", ".intercalate (vs.map fun v => (monoTypeFromVar v).string syn none)
          ++ "] " ++ "where "
          ++ ", ".intercalate (cs.map fun c =>
              (monoTypeFromVar c.tvar).string syn none ++ ": "
                ++ fbsemantic.EnumNamesKind c.kind)
          ++ " " ++ body.string syn none)) ∧
    (∀ m vs cs, pt.getCanonicalMapping = .ok m → pt.sortedVars (some m) = .ok vs →
      pt.sortedConstraints (some m) = .ok cs → cs ≠ [] →
      PolyType.CanonicalString syn pt = .ok
        ("forall ["
          ++ ", ".intercalate (vs.map fun v => (monoTypeFromVar v).string syn (some m))
          ++ "] " ++ "where "
          ++ ", ".intercalate (cs.map fun c =>
              (monoTypeFromVar c.tvar).string syn (some m) ++ ": "
                ++ fbsemantic.EnumNamesKind c.kind)
          ++ " " ++ body.string syn (some m))) := by
  constructor
  · intro vs cs hv hc hne
    rw [PolyType.String, string_of_sorted syn pt none vs cs body hv hc he]
    simp [hne]
  · intro m vs cs hm hv hc hne
    rw [PolyType.CanonicalString, hm]
    simp only [orPlaceholder]
    rw [string_of_sorted syn pt (some m) vs cs body hv hc he]
    simp [hne]

/-- C8, at the sample scheme in the sample text. -/
theorem string_with_constraints_witness :
    PolyType.String sampleStyle samplePoly = .ok
      "forall [t3, t7, t9] where t3: Addable, t3: Comparable, t7: Equatable (a: t7, b: t3) -> t7" ∧
    PolyType.CanonicalString sampleStyle samplePoly = .ok
      "forall [t0, t1, t2] where t0: Equatable, t1: Addable, t1: Comparable (a: t0, b: t1) -> t0" ∧
    PolyType.String sampleStyle samplePoly = .ok
      ("forall ["
        ++ ", ".intercalate (([⟨3⟩, ⟨7⟩, ⟨9⟩] : List fbsemantic.Var).map fun v =>
            (monoTypeFromVar v).string sampleStyle none)
        ++ "] " ++ "where "
        ++ ", ".intercalate (([⟨⟨3⟩, .Addable⟩, ⟨⟨3⟩, .Comparable⟩, ⟨⟨7⟩, .Equatable⟩] :
              List fbsemantic.Constraint).map fun c =>
            (monoTypeFromVar c.tvar).string sampleStyle none ++ ": "
              ++ fbsemantic.EnumNamesKind c.kind)
        ++ " " ++ sampleBody.string sampleStyle none) ∧
    PolyType.CanonicalString sampleStyle samplePoly = .ok
      ("forall ["
        ++ ", ".intercalate (([⟨7⟩, ⟨3⟩, ⟨9⟩] : List fbsemantic.Var).map fun v =>
            (monoTypeFromVar v).string sampleStyle (some [(7, 0), (3, 1), (9, 2)]))
        ++ "] " ++ "where "
        ++ ", ".intercalate (([⟨⟨7⟩, .Equatable⟩, ⟨⟨3⟩, .Addable⟩, ⟨⟨3⟩, .Comparable⟩] :
              List fbsemantic.Constraint).map fun c =>
            (monoTypeFromVar c.tvar).string sampleStyle (some [(7, 0), (3, 1), (9, 2)])
              ++ ": " ++ fbsemantic.EnumNamesKind c.kind)
        ++ " " ++ sampleBody.string sampleStyle (some [(7, 0), (3, 1), (9, 2)])) :=
  ⟨by decide, by decide,
    (string_with_constraints sampleStyle samplePoly sampleBody rfl).1 _ _ rfl rfl (by simp),
    (string_with_constraints sampleStyle samplePoly sampleBody rfl).2 _ _ _ rfl rfl rfl
      (by simp)⟩

/-- C9. With no constraint, sorted variables `vs` and body `body`, `String()`
and `CanonicalString()` are `"forall [" ++ join(", ", vars) ++ "] " ++ body`:
nothing stands between `"] "` and the body, and no `where` is written. -/
theorem string_without_constraints (syn : Style) (pt : PolyType) (body : MonoType)
    (he : pt.Expr = .ok body) (hz : pt.NumConstraints = .ok 0) :
    (∀ vs, pt.SortedVars = .ok vs →
      PolyType.String syn pt = .ok
        ("forall [" ++ ", ".intercalate (vs.map fun v => (monoTypeFromVar v).string syn none)
          ++ "] " ++ body.string syn none)) ∧
    (∀ m vs, pt.getCanonicalMapping = .ok m → pt.sortedVars (some m) = .ok vs →
      PolyType.CanonicalString syn pt = .ok
        ("forall ["
          ++ ", ".intercalate (vs.map fun v => (monoTypeFromVar v).string syn (some m))
          ++ "] " ++ body.string syn (some m))) := by
  have hc : ∀ m, pt.sortedConstraints m = .ok [] := by
    intro m
    simp [PolyType.sortedConstraints, hz, bind, Except.bind, collect, sort.Slice,
      sort.insertionSort]
  constructor
  · intro vs hv
    rw [PolyType.String, string_of_sorted syn pt none vs [] body hv (hc none) he]
    simp
  · intro m vs hm hv
    rw [PolyType.CanonicalString, hm]
    simp only [orPlaceholder]
    rw [string_of_sorted syn pt (some m) vs [] body hv (hc (some m)) he]
    simp

/-- C9, at a scheme `forall [t0] (a: t0) -> t0` without constraints. -/
theorem string_without_constraints_witness :
    PolyType.String sampleStyle identityPoly = .ok "forall [t4] (a: t4) -> t4" ∧
    PolyType.CanonicalString sampleStyle identityPoly = .ok "forall [t0] (a: t0) -> t0" ∧
    PolyType.CanonicalString sampleStyle identityPoly = .ok
      ("forall ["
        ++ ", ".intercalate (([⟨4⟩] : List fbsemantic.Var).map fun v =>
            (monoTypeFromVar v).string sampleStyle (some [(4, 0)]))
        ++ "] "
        ++ (MonoType.fn [⟨"a", .var 4, true, false⟩] (.var 4)).string sampleStyle
            (some [(4, 0)])) :=
  ⟨by decide, by decide,
    (string_without_constraints sampleStyle identityPoly
      (.fn [⟨"a", .var 4, true, false⟩] (.var 4)) rfl rfl).2 _ _ rfl rfl⟩

/-! ## Renaming invariance of the canonical string -/

theorem lookup_rename (f : Nat → Nat) (hf : Function.Injective f) :
    ∀ (m : TVarMap) (k : Nat), (TVarMap.rename f m).lookup (f k) = m.lookup k
  | [], _ => rfl
  | (a, v) :: m, k => by
      have ih := lookup_rename f hf m k
      simp only [TVarMap.rename, List.map_cons] at ih ⊢
      by_cases hk : k = a
      · simp [TVarMap.lookup, hk]
      · have hfk : f k ≠ f a := fun h => hk (hf h)
        simp only [TVarMap.lookup, hk, hfk, if_false]
        exact ih

theorem updateTVarMap_rename (f : Nat → Nat) (hf : Function.Injective f)
    (s : Nat × TVarMap) (v : Nat) :
    updateTVarMap (s.1, TVarMap.rename f s.2) (f v)
      = ((updateTVarMap s v).1, TVarMap.rename f (updateTVarMap s v).2) := by
  cases hv : s.2.lookup v with
  | some x =>
    have : (TVarMap.rename f s.2).lookup (f v) = some x := by rw [lookup_rename f hf, hv]
    simp [updateTVarMap, hv, this]
  | none =>
    have : (TVarMap.rename f s.2).lookup (f v) = none := by rw [lookup_rename f hf, hv]
    simp only [updateTVarMap, hv, this]
    simp [TVarMap.rename]

mutual
theorem MonoType.getCanonicalMapping_rename (f : Nat → Nat) (hf : Function.Injective f) :
    ∀ (t : MonoType) (s : Nat × TVarMap),
    (t.rename f).getCanonicalMapping (s.1, TVarMap.rename f s.2)
      = (t.getCanonicalMapping s).map (fun r => (r.1, TVarMap.rename f r.2))
  | .var id, s => by
      simp only [MonoType.rename, MonoType.getCanonicalMapping, Except.map]
      rw [updateTVarMap_rename f hf]
  | .prim _, s => rfl
  | .arr e, s => by
      simp only [MonoType.rename, MonoType.getCanonicalMapping]
      exact MonoType.getCanonicalMapping_rename f hf e s
  | .dict k v, s => by
      simp only [MonoType.rename, MonoType.getCanonicalMapping, bind, Except.bind]
      rw [MonoType.getCanonicalMapping_rename f hf k s]
      cases hk : k.getCanonicalMapping s with
      | error e => rfl
      | ok s1 =>
        simp only [Except.map]
        exact MonoType.getCanonicalMapping_rename f hf v s1
  | .record fs tl, s => by
      simp only [MonoType.rename, MonoType.getCanonicalMapping, bind, Except.bind]
      rw [MonoType.getCanonicalMappingFields_rename f hf fs s]
      cases hk : MonoType.getCanonicalMappingFields fs s with
      | error e => rfl
      | ok s1 =>
        cases tl with
        | none => rfl
        | some v =>
          simp only [Except.map, Option.map, pure, Except.pure]
          rw [updateTVarMap_rename f hf]
  | .fn ps r, s => by
      simp only [MonoType.rename, MonoType.getCanonicalMapping, bind, Except.bind]
      rw [MonoType.getCanonicalMappingParams_rename f hf ps s]
      cases hk : MonoType.getCanonicalMappingParams ps s with
      | error e => rfl
      | ok s1 =>
        simp only [Except.map]
        exact MonoType.getCanonicalMapping_rename f hf r s1
  | .malformed _, s => rfl
theorem MonoType.getCanonicalMappingFields_rename (f : Nat → Nat)
    (hf : Function.Injective f) :
    ∀ (fs : List (Property MonoType)) (s : Nat × TVarMap),
    MonoType.getCanonicalMappingFields (MonoType.renameFields f fs)
        (s.1, TVarMap.rename f s.2)
      = (MonoType.getCanonicalMappingFields fs s).map (fun r => (r.1, TVarMap.rename f r.2))
  | [], s => rfl
  | p :: rest, s => by
      simp only [MonoType.renameFields, MonoType.getCanonicalMappingFields, bind, Except.bind]
      rw [MonoType.getCanonicalMapping_rename f hf p.typ s]
      cases hk : p.typ.getCanonicalMapping s with
      | error e => rfl
      | ok s1 =>
        simp only [Except.map]
        exact MonoType.getCanonicalMappingFields_rename f hf rest s1
theorem MonoType.getCanonicalMappingParams_rename (f : Nat → Nat)
    (hf : Function.Injective f) :
    ∀ (ps : List (Argument MonoType)) (s : Nat × TVarMap),
    MonoType.getCanonicalMappingParams (MonoType.renameParams f ps)
        (s.1, TVarMap.rename f s.2)
      = (MonoType.getCanonicalMappingParams ps s).map (fun r => (r.1, TVarMap.rename f r.2))
  | [], s => rfl
  | p :: rest, s => by
      simp only [MonoType.renameParams, MonoType.getCanonicalMappingParams, bind, Except.bind]
      rw [MonoType.getCanonicalMapping_rename f hf p.typ s]
      cases hk : p.typ.getCanonicalMapping s with
      | error e => rfl
      | ok s1 =>
        simp only [Except.map]
        exact MonoType.getCanonicalMappingParams_rename f hf rest s1
end

mutual
theorem MonoType.string_rename (syn : Style) (f : Nat → Nat) (hf : Function.Injective f)
    (m : TVarMap) : ∀ (t : MonoType),
    (t.rename f).string syn (some (TVarMap.rename f m)) = t.string syn (some m)
  | .var id => by
      simp only [MonoType.rename, MonoType.string, shownId]
      rw [lookup_rename f hf]
  | .prim _ => rfl
  | .arr e => by
      simp only [MonoType.rename, MonoType.string]
      rw [MonoType.string_rename syn f hf m e]
  | .dict k v => by
      simp only [MonoType.rename, MonoType.string]
      rw [MonoType.string_rename syn f hf m k, MonoType.string_rename syn f hf m v]
  | .record fs tl => by
      simp only [MonoType.rename, MonoType.string]
      rw [MonoType.stringFields_rename syn f hf m fs]
      cases tl with
      | none => rfl
      | some v =>
        simp only [Option.map, shownId]
        rw [lookup_rename f hf]
  | .fn ps r => by
      simp only [MonoType.rename, MonoType.string]
      rw [MonoType.stringParams_rename syn f hf m ps, MonoType.string_rename syn f hf m r]
  | .malformed _ => rfl
theorem MonoType.stringFields_rename (syn : Style) (f : Nat → Nat)
    (hf : Function.Injective f) (m : TVarMap) : ∀ (fs : List (Property MonoType)),
    MonoType.stringFields syn (some (TVarMap.rename f m)) (MonoType.renameFields f fs)
      = MonoType.stringFields syn (some m) fs
  | [] => rfl
  | p :: rest => by
      simp only [MonoType.renameFields, MonoType.stringFields]
      rw [MonoType.string_rename syn f hf m p.typ,
        MonoType.stringFields_rename syn f hf m rest]
theorem MonoType.stringParams_rename (syn : Style) (f : Nat → Nat)
    (hf : Function.Injective f) (m : TVarMap) : ∀ (ps : List (Argument MonoType)),
    MonoType.stringParams syn (some (TVarMap.rename f m)) (MonoType.renameParams f ps)
      = MonoType.stringParams syn (some m) ps
  | [] => rfl
  | p :: rest => by
      simp only [MonoType.renameParams, MonoType.stringParams]
      rw [MonoType.string_rename syn f hf m p.typ,
        MonoType.stringParams_rename syn f hf m rest]
end

theorem collect_map {α β : Type} (get : Int → Result α) (get' : Int → Result β) (g : α → β)
    (h : ∀ i, get' i = (get i).map g) :
    ∀ (is : List Nat), collect get' is = (collect get is).map (List.map g)
  | [] => rfl
  | i :: is => by
      simp only [collect, bind, Except.bind]
      rw [h, collect_map get get' g h is]
      cases get (i : Int) with
      | error e => rfl
      | ok x =>
        cases collect get is with
        | error e => rfl
        | ok xs => rfl

theorem insertionStep_map {α β : Type} (less : α → α → Result Bool)
    (less' : β → β → Result Bool) (g : α → β)
    (h : ∀ a b, less' (g a) (g b) = less a b) (x : α) :
    ∀ (before : List α),
    sort.insertionStep less' (g x) (before.map g)
      = (sort.insertionStep less x before).map (List.map g)
  | [] => rfl
  | y :: before => by
      simp only [sort.insertionStep, List.map_cons, bind, Except.bind]
      rw [h, insertionStep_map less less' g h x before]
      cases less x y with
      | error e => rfl
      | ok b =>
        cases b with
        | false => rfl
        | true =>
          simp only [if_true]
          cases sort.insertionStep less x before with
          | error e => rfl
          | ok moved => rfl

theorem insertionSort_map {α β : Type} (less : α → α → Result Bool)
    (less' : β → β → Result Bool) (g : α → β)
    (h : ∀ a b, less' (g a) (g b) = less a b) :
    ∀ (todo done : List α),
    sort.insertionSort less' (todo.map g) (done.map g)
      = (sort.insertionSort less todo done).map (List.map g)
  | [], done => by
      simp [sort.insertionSort, Except.map]
  | x :: todo, done => by
      simp only [sort.insertionSort, List.map_cons, bind, Except.bind]
      rw [insertionStep_map less less' g h x done]
      cases sort.insertionStep less x done with
      | error e => rfl
      | ok r =>
        simp only [Except.map]
        exact insertionSort_map less less' g h todo r

/-- Sorting the images under `g` with a closure that agrees through `g` gives
the images of the sorted list, or the same failure. -/
theorem Slice_map {α β : Type} (less : α → α → Result Bool)
    (less' : β → β → Result Bool) (g : α → β)
    (h : ∀ a b, less' (g a) (g b) = less a b) (xs : List α) :
    sort.Slice less' (xs.map g) = (sort.Slice less xs).map (List.map g) := by
  simpa [sort.Slice] using insertionSort_map less less' g h xs []

theorem NumVars_rename (f : Nat → Nat) (pt : PolyType) :
    (pt.rename f).NumVars = pt.NumVars := by
  cases hfb : pt.fb with
  | none => simp [PolyType.rename, PolyType.NumVars, hfb]
  | some fb =>
    simp [PolyType.rename, PolyType.NumVars, hfb, fbsemantic.PolyType.rename,
      fbsemantic.PolyType.VarsLength]

theorem NumConstraints_rename (f : Nat → Nat) (pt : PolyType) :
    (pt.rename f).NumConstraints = pt.NumConstraints := by
  cases hfb : pt.fb with
  | none => simp [PolyType.rename, PolyType.NumConstraints, hfb]
  | some fb =>
    simp [PolyType.rename, PolyType.NumConstraints, hfb, fbsemantic.PolyType.rename,
      fbsemantic.PolyType.ConsLength]

theorem Var_rename (f : Nat → Nat) (pt : PolyType) (i : Int) :
    (pt.rename f).Var i = (pt.Var i).map (fbsemantic.Var.rename f) := by
  cases hfb : pt.fb with
  | none => simp [PolyType.rename, PolyType.Var, PolyType.NumVars, hfb, bind, Except.bind,
      Except.map]
  | some fb =>
    simp only [PolyType.rename, PolyType.Var, PolyType.NumVars, hfb, Option.map,
      fbsemantic.PolyType.rename, fbsemantic.PolyType.VarsLength, List.length_map, bind,
      Except.bind, fbsemantic.PolyType.Vars]
    split
    · rfl
    · simp only [List.get?_eq_getElem?, List.getElem?_map]
      cases fb.vars[i.toNat]? with
      | none => rfl
      | some o =>
        cases o with
        | none => rfl
        | some v => rfl

theorem Constraint_rename (f : Nat → Nat) (pt : PolyType) (i : Int) :
    (pt.rename f).Constraint i = (pt.Constraint i).map (fbsemantic.Constraint.rename f) := by
  cases hfb : pt.fb with
  | none => simp [PolyType.rename, PolyType.Constraint, PolyType.NumConstraints, hfb, bind,
      Except.bind, Except.map]
  | some fb =>
    simp only [PolyType.rename, PolyType.Constraint, PolyType.NumConstraints, hfb, Option.map,
      fbsemantic.PolyType.rename, fbsemantic.PolyType.ConsLength, List.length_map, bind,
      Except.bind, fbsemantic.PolyType.Cons]
    split
    · rfl
    · simp only [List.get?_eq_getElem?, List.getElem?_map]
      cases fb.cons[i.toNat]? with
      | none => rfl
      | some o =>
        cases o with
        | none => rfl
        | some v => rfl

theorem Expr_rename (f : Nat → Nat) (pt : PolyType) :
    (pt.rename f).Expr = pt.Expr.map (MonoType.rename f) := by
  cases hfb : pt.fb with
  | none => simp [PolyType.rename, PolyType.Expr, hfb, Except.map]
  | some fb =>
    simp only [PolyType.rename, PolyType.Expr, hfb, Option.map, fbsemantic.PolyType.rename]
    cases fb.expr with
    | none => rfl
    | some body => rfl

theorem lessVar_rename (f : Nat → Nat) (hf : Function.Injective f) (m : TVarMap)
    (a b : fbsemantic.Var) :
    PolyType.lessVar (some (TVarMap.rename f m)) (a.rename f) (b.rename f)
      = PolyType.lessVar (some m) a b := by
  simp only [PolyType.lessVar, fbsemantic.Var.rename, lookup_rename f hf]

theorem lessConstraint_rename (f : Nat → Nat) (hf : Function.Injective f) (m : TVarMap)
    (a b : fbsemantic.Constraint) :
    PolyType.lessConstraint (some (TVarMap.rename f m)) (a.rename f) (b.rename f)
      = PolyType.lessConstraint (some m) a b := by
  simp only [PolyType.lessConstraint, fbsemantic.Constraint.rename, fbsemantic.Var.rename,
    lookup_rename f hf, lessTvarKind]

theorem sortedVars_rename (f : Nat → Nat) (hf : Function.Injective f) (pt : PolyType)
    (m : TVarMap) :
    (pt.rename f).sortedVars (some (TVarMap.rename f m))
      = (pt.sortedVars (some m)).map (List.map (fbsemantic.Var.rename f)) := by
  simp only [PolyType.sortedVars, NumVars_rename, bind, Except.bind]
  cases pt.NumVars with
  | error e => rfl
  | ok n =>
    simp only []
    rw [collect_map pt.Var (pt.rename f).Var (fbsemantic.Var.rename f) (Var_rename f pt)]
    cases collect pt.Var (List.range n) with
    | error e => rfl
    | ok vs =>
      simp only [Except.map]
      exact Slice_map _ _ _ (lessVar_rename f hf m) vs

theorem sortedConstraints_rename (f : Nat → Nat) (hf : Function.Injective f)
    (pt : PolyType) (m : TVarMap) :
    (pt.rename f).sortedConstraints (some (TVarMap.rename f m))
      = (pt.sortedConstraints (some m)).map (List.map (fbsemantic.Constraint.rename f)) := by
  simp only [PolyType.sortedConstraints, NumConstraints_rename, bind, Except.bind]
  cases pt.NumConstraints with
  | error e => rfl
  | ok n =>
    simp only []
    rw [collect_map pt.Constraint (pt.rename f).Constraint (fbsemantic.Constraint.rename f)
      (Constraint_rename f pt)]
    cases collect pt.Constraint (List.range n) with
    | error e => rfl
    | ok cs =>
      simp only [Except.map]
      exact Slice_map _ _ _ (lessConstraint_rename f hf m) cs

theorem quantifiedMapping_rename (f : Nat → Nat) (hf : Function.Injective f)
    (pt : PolyType) : ∀ (is : List Nat) (s : Nat × TVarMap),
    (pt.rename f).quantifiedMapping is (s.1, TVarMap.rename f s.2)
      = (pt.quantifiedMapping is s).map (fun r => (r.1, TVarMap.rename f r.2))
  | [], s => rfl
  | i :: is, s => by
      simp only [PolyType.quantifiedMapping, bind, Except.bind, Var_rename]
      cases pt.Var (i : Int) with
      | error e => rfl
      | ok v =>
        simp only [Except.map, fbsemantic.Var.rename]
        rw [updateTVarMap_rename f hf]
        exact quantifiedMapping_rename f hf pt is (updateTVarMap s v.i)

/-- The canonical mapping of the renamed polytype is the canonical mapping
with its keys renamed, or the same failure. -/
theorem scheme_getCanonicalMapping_rename (f : Nat → Nat) (hf : Function.Injective f)
    (pt : PolyType) :
    (pt.rename f).getCanonicalMapping = pt.getCanonicalMapping.map (TVarMap.rename f) := by
  simp only [PolyType.getCanonicalMapping, Expr_rename, NumVars_rename, bind, Except.bind]
  cases pt.Expr with
  | error e => rfl
  | ok body =>
    simp only [Except.map]
    have h0 := MonoType.getCanonicalMapping_rename f hf body (0, [])
    simp only [TVarMap.rename, List.map_nil] at h0
    rw [h0]
    cases body.getCanonicalMapping (0, []) with
    | error e => rfl
    | ok s1 =>
      simp only [Except.map]
      cases pt.NumVars with
      | error e => rfl
      | ok n =>
        simp only []
        have h1 := quantifiedMapping_rename f hf pt (List.range n) s1
        simp only [TVarMap.rename] at h1
        rw [h1]
        cases pt.quantifiedMapping (List.range n) s1 with
        | error e => rfl
        | ok s2 => rfl

theorem writeVars_rename (syn : Style) (f : Nat → Nat) (hf : Function.Injective f)
    (m : TVarMap) : ∀ (vs : List fbsemantic.Var) (st : Bool × String),
    PolyType.writeVars syn (some (TVarMap.rename f m)) (vs.map (fbsemantic.Var.rename f)) st
      = PolyType.writeVars syn (some m) vs st
  | [], _ => rfl
  | v :: vs, st => by
      simp only [List.map_cons, PolyType.writeVars]
      have hv : (monoTypeFromVar (v.rename f)).string syn (some (TVarMap.rename f m))
          = (monoTypeFromVar v).string syn (some m) :=
        MonoType.string_rename syn f hf m (monoTypeFromVar v)
      rw [hv]
      exact writeVars_rename syn f hf m vs _

theorem writeConstraints_rename (syn : Style) (f : Nat → Nat) (hf : Function.Injective f)
    (m : TVarMap) (n : Nat) :
    ∀ (cs : List fbsemantic.Constraint) (i : Nat) (st : Bool × String),
    PolyType.writeConstraints syn (some (TVarMap.rename f m)) n i
        (cs.map (fbsemantic.Constraint.rename f)) st
      = PolyType.writeConstraints syn (some m) n i cs st
  | [], _, _ => rfl
  | c :: cs, i, st => by
      simp only [List.map_cons, PolyType.writeConstraints]
      have hc : (monoTypeFromVar (c.rename f).tvar).string syn (some (TVarMap.rename f m))
          = (monoTypeFromVar c.tvar).string syn (some m) :=
        MonoType.string_rename syn f hf m (monoTypeFromVar c.tvar)
      have hk : (c.rename f).kind = c.kind := rfl
      rw [hc, hk]
      exact writeConstraints_rename syn f hf m n cs (i + 1) _

theorem scheme_string_rename (syn : Style) (f : Nat → Nat) (hf : Function.Injective f)
    (pt : PolyType) (m : TVarMap) :
    (pt.rename f).string syn (some (TVarMap.rename f m)) = pt.string syn (some m) := by
  cases hfb : pt.fb with
  | none => simp [PolyType.string, PolyType.rename, hfb]
  | some fb =>
    have hfb' : (pt.rename f).fb = some (fb.rename f) := by simp [PolyType.rename, hfb]
    simp only [PolyType.string, hfb, hfb', sortedVars_rename f hf, sortedConstraints_rename f hf,
      NumConstraints_rename, Expr_rename]
    cases pt.sortedVars (some m) with
    | error e => cases e <;> rfl
    | ok vs =>
      simp only [Except.map, orPlaceholder, writeVars_rename syn f hf]
      cases pt.sortedConstraints (some m) with
      | error e => cases e <;> rfl
      | ok cs =>
        simp only []
        cases pt.NumConstraints with
        | error e => rfl
        | ok n =>
          simp only [writeConstraints_rename syn f hf]
          cases pt.Expr with
          | error e => cases e <;> rfl
          | ok body =>
            simp only [MonoType.string_rename syn f hf]

/-- C3. Renaming invariance: for every polytype and every injective renaming
`f` of variable numbers, the polytype with `f` applied to every number of the
quantified list, of the constraints and of the body has the same
`CanonicalString()` (the same text, or the same abort). -/
theorem CanonicalString_rename (syn : Style) (f : Nat → Nat) (hf : Function.Injective f)
    (pt : PolyType) :
    PolyType.CanonicalString syn (pt.rename f) = PolyType.CanonicalString syn pt := by
  simp only [PolyType.CanonicalString, scheme_getCanonicalMapping_rename f hf]
  cases pt.getCanonicalMapping with
  | error e => cases e <;> rfl
  | ok m =>
    simp only [Except.map, orPlaceholder]
    exact scheme_string_rename syn f hf pt m

/-- C3, at the sample scheme renamed by `n ↦ n + 100`. -/
theorem CanonicalString_rename_witness :
    PolyType.CanonicalString sampleStyle (samplePoly.rename (fun n => n + 100))
      = PolyType.CanonicalString sampleStyle samplePoly ∧
    PolyType.CanonicalString sampleStyle (samplePoly.rename (fun n => n + 100)) = .ok
      "forall [t0, t1, t2] where t0: Equatable, t1: Addable, t1: Comparable (a: t0, b: t1) -> t0" :=
  ⟨CanonicalString_rename sampleStyle (fun n => n + 100)
      (fun a b h => Nat.add_right_cancel h) samplePoly,
    by decide⟩

/-! ## Construction and the nil handle -/

/-- C13. `NewPolyType` fails exactly for the nil handle: then it returns the
zero `PolyType` with the Internal error "got nil fbsemantic.polytype"; for a
non-nil handle it returns no error and the wrapper of that handle, whose
`NumVars` and `NumConstraints` are the handle's counts. -/
theorem NewPolyType_spec (fb : Option fbsemantic.PolyType) :
    ((NewPolyType fb).2 ≠ none ↔ fb = none) ∧
    NewPolyType none
      = (⟨none⟩, some (.error codes.Code.Internal "got nil fbsemantic.polytype")) ∧
    (∀ h : fbsemantic.PolyType,
      NewPolyType (some h) = (⟨some h⟩, none) ∧
      (NewPolyType (some h)).1.fb = some h ∧
      (NewPolyType (some h)).1.NumVars = .ok h.VarsLength ∧
      (NewPolyType (some h)).1.NumConstraints = .ok h.ConsLength) := by
  refine ⟨?_, rfl, fun h => ⟨rfl, rfl, rfl, rfl⟩⟩
  cases fb with
  | none => simp [NewPolyType]
  | some h => simp [NewPolyType]

/-- C15, `String()` part and the failing part: on the zero `PolyType`,
`String()` returns the placeholder `<polytype: nil>`, while `CanonicalString()`
reads the body through the nil handle in `getCanonicalMapping` and aborts
before it reaches the nil test of `string`. -/
theorem CanonicalString_nil_handle_aborts (syn : Style) :
    PolyType.String syn ⟨none⟩ = .ok "<polytype: nil>" ∧
    PolyType.string syn ⟨none⟩ none = .ok "<polytype: nil>" ∧
    (⟨none⟩ : PolyType).getCanonicalMapping = .error nilDereference ∧
    PolyType.CanonicalString syn ⟨none⟩
      = .error (.panic "runtime error: invalid memory address or nil pointer dereference") ∧
    PolyType.CanonicalString syn (NewPolyType none).1
      ≠ .ok "<polytype: nil>" := by
  refine ⟨rfl, rfl, rfl, rfl, ?_⟩
  intro h
  cases h

/-! ## Failure of the canonical numbering -/

mutual
theorem MonoType.getCanonicalMapping_error : ∀ (t : MonoType) (s : Nat × TVarMap)
    (e : Failure), t.getCanonicalMapping s = .error e →
    ∃ msg, e = .error codes.Code.Internal msg
  | .var _, s, e, h => by simp [MonoType.getCanonicalMapping] at h
  | .prim _, s, e, h => by simp [MonoType.getCanonicalMapping] at h
  | .arr t, s, e, h => by
      simp only [MonoType.getCanonicalMapping] at h
      exact MonoType.getCanonicalMapping_error t s e h
  | .dict k v, s, e, h => by
      simp only [MonoType.getCanonicalMapping, bind, Except.bind] at h
      split at h
      · rename_i e1 h1
        cases h
        exact MonoType.getCanonicalMapping_error k s _ h1
      · rename_i s1 _
        exact MonoType.getCanonicalMapping_error v s1 e h
  | .record fs tl, s, e, h => by
      simp only [MonoType.getCanonicalMapping, bind, Except.bind] at h
      split at h
      · rename_i e1 h1
        cases h
        exact MonoType.getCanonicalMappingFields_error fs s _ h1
      · cases tl <;> simp [pure, Except.pure] at h
  | .fn ps r, s, e, h => by
      simp only [MonoType.getCanonicalMapping, bind, Except.bind] at h
      split at h
      · rename_i e1 h1
        cases h
        exact MonoType.getCanonicalMappingParams_error ps s _ h1
      · rename_i s1 _
        exact MonoType.getCanonicalMapping_error r s1 e h
  | .malformed msg, s, e, h => by
      simp only [MonoType.getCanonicalMapping, Except.error.injEq] at h
      exact ⟨msg, h.symm⟩
theorem MonoType.getCanonicalMappingFields_error :
    ∀ (fs : List (Property MonoType)) (s : Nat × TVarMap) (e : Failure),
    MonoType.getCanonicalMappingFields fs s = .error e →
    ∃ msg, e = .error codes.Code.Internal msg
  | [], s, e, h => by simp [MonoType.getCanonicalMappingFields] at h
  | p :: rest, s, e, h => by
      simp only [MonoType.getCanonicalMappingFields, bind, Except.bind] at h
      split at h
      · rename_i e1 h1
        cases h
        exact MonoType.getCanonicalMapping_error p.typ s _ h1
      · rename_i s1 _
        exact MonoType.getCanonicalMappingFields_error rest s1 e h
theorem MonoType.getCanonicalMappingParams_error :
    ∀ (ps : List (Argument MonoType)) (s : Nat × TVarMap) (e : Failure),
    MonoType.getCanonicalMappingParams ps s = .error e →
    ∃ msg, e = .error codes.Code.Internal msg
  | [], s, e, h => by simp [MonoType.getCanonicalMappingParams] at h
  | p :: rest, s, e, h => by
      simp only [MonoType.getCanonicalMappingParams, bind, Except.bind] at h
      split at h
      · rename_i e1 h1
        cases h
        exact MonoType.getCanonicalMapping_error p.typ s _ h1
      · rename_i s1 _
        exact MonoType.getCanonicalMappingParams_error rest s1 e h
end

/-- With a non-nil handle `Var` never aborts: it returns a variable or an
Internal error. -/
theorem Var_error_internal (pt : PolyType) (fb : fbsemantic.PolyType) (hfb : pt.fb = some fb)
    (i : Int) (e : Failure) (h : pt.Var i = .error e) :
    ∃ msg, e = .error codes.Code.Internal msg := by
  simp only [PolyType.Var, PolyType.NumVars, hfb, bind, Except.bind] at h
  split at h
  · simp only [throw, throwThe, MonadExceptOf.throw, Except.error.injEq] at h
    exact ⟨_, h.symm⟩
  · split at h
    · simp only [throw, throwThe, MonadExceptOf.throw, Except.error.injEq] at h
      exact ⟨_, h.symm⟩
    · simp [pure, Except.pure] at h

/-- With a non-nil handle `Constraint` never aborts. -/
theorem Constraint_error_internal (pt : PolyType) (fb : fbsemantic.PolyType)
    (hfb : pt.fb = some fb) (i : Int) (e : Failure) (h : pt.Constraint i = .error e) :
    ∃ msg, e = .error codes.Code.Internal msg := by
  simp only [PolyType.Constraint, PolyType.NumConstraints, hfb, bind, Except.bind] at h
  split at h
  · simp only [throw, throwThe, MonadExceptOf.throw, Except.error.injEq] at h
    exact ⟨_, h.symm⟩
  · split at h
    · simp only [throw, throwThe, MonadExceptOf.throw, Except.error.injEq] at h
      exact ⟨_, h.symm⟩
    · simp [pure, Except.pure] at h

theorem quantifiedMapping_error (pt : PolyType) (fb : fbsemantic.PolyType)
    (hfb : pt.fb = some fb) : ∀ (is : List Nat) (s : Nat × TVarMap) (e : Failure),
    pt.quantifiedMapping is s = .error e → ∃ msg, e = .error codes.Code.Internal msg
  | [], s, e, h => by simp [PolyType.quantifiedMapping] at h
  | i :: is, s, e, h => by
      simp only [PolyType.quantifiedMapping, bind, Except.bind] at h
      split at h
      · rename_i e1 h1
        cases h
        exact Var_error_internal pt fb hfb _ _ h1
      · exact quantifiedMapping_error pt fb hfb is _ e h

/-- With a non-nil handle `getCanonicalMapping` never aborts: when it fails, it
returns an Internal error. -/
theorem scheme_getCanonicalMapping_error (pt : PolyType) (fb : fbsemantic.PolyType)
    (hfb : pt.fb = some fb) (e : Failure) (h : pt.getCanonicalMapping = .error e) :
    ∃ msg, e = .error codes.Code.Internal msg := by
  simp only [PolyType.getCanonicalMapping, PolyType.Expr, PolyType.NumVars, hfb, bind,
    Except.bind] at h
  cases hexpr : fb.expr with
  | none =>
    simp only [hexpr, Except.error.injEq] at h
    exact ⟨_, h.symm⟩
  | some body =>
    simp only [hexpr] at h
    cases hb : body.getCanonicalMapping (0, []) with
    | error e1 =>
      simp only [hb, Except.error.injEq] at h
      subst h
      exact MonoType.getCanonicalMapping_error body _ _ hb
    | ok s1 =>
      simp only [hb] at h
      cases hq : pt.quantifiedMapping (List.range fb.VarsLength) s1 with
      | error e1 =>
        simp only [hq, Except.error.injEq] at h
        subst h
        exact quantifiedMapping_error pt fb hfb _ _ _ hq
      | ok s2 => simp [hq, pure, Except.pure] at h

theorem quantifiedMapping_fails (pt : PolyType) (E : Failure) :
    ∀ (is : List Nat) (s : Nat × TVarMap),
    (∀ i ∈ is, ∀ e, pt.Var (i : Int) = .error e → e = E) →
    (∃ i ∈ is, pt.Var (i : Int) = .error E) →
    pt.quantifiedMapping is s = .error E
  | [], _, _, hex => by
      obtain ⟨i, hi, _⟩ := hex
      cases hi
  | j :: is, s, hall, hex => by
      simp only [PolyType.quantifiedMapping, bind, Except.bind]
      cases hj : pt.Var (j : Int) with
      | error e =>
        rw [hall j (List.mem_cons_self _ _) e hj]
      | ok v =>
        simp only []
        refine quantifiedMapping_fails pt E is _
          (fun i hi => hall i (List.mem_cons_of_mem _ hi)) ?_
        obtain ⟨i, hi, hie⟩ := hex
        rcases List.mem_cons.1 hi with rfl | hi
        · rw [hj] at hie
          cases hie
        · exact ⟨i, hi, hie⟩

/-- With a non-nil handle, `Var(j)` at an in-range index is the stored entry,
and the only error there is "missing var". -/
theorem Var_in_range (pt : PolyType) (fb : fbsemantic.PolyType) (hfb : pt.fb = some fb)
    (j : Nat) (hj : j < fb.vars.length) :
    pt.Var (j : Int) = match fb.vars.get ⟨j, hj⟩ with
      | some v => .ok v
      | none => .error (.error codes.Code.Internal "missing var") := by
  have hnot : ¬ ((j : Int) < 0 ∨ (fb.vars.length : Int) ≤ (j : Int)) := by omega
  simp only [PolyType.Var, PolyType.NumVars, hfb, fbsemantic.PolyType.VarsLength,
    fbsemantic.PolyType.Vars, bind, Except.bind, ge_iff_le, hnot, if_false, Int.toNat_ofNat,
    List.get?_eq_getElem?, List.getElem?_eq_getElem hj, Option.join, List.get_eq_getElem]
  cases fb.vars[j] with
  | none => rfl
  | some v => rfl

/-- With a non-nil handle, `Constraint(j)` at an in-range index is the stored
entry, and the only error there is "missing constraint". -/
theorem Constraint_in_range (pt : PolyType) (fb : fbsemantic.PolyType)
    (hfb : pt.fb = some fb) (j : Nat) (hj : j < fb.cons.length) :
    pt.Constraint (j : Int) = match fb.cons.get ⟨j, hj⟩ with
      | some c => .ok c
      | none => .error (.error codes.Code.Internal "missing constraint") := by
  have hnot : ¬ ((j : Int) < 0 ∨ (fb.cons.length : Int) ≤ (j : Int)) := by omega
  simp only [PolyType.Constraint, PolyType.NumConstraints, hfb, fbsemantic.PolyType.ConsLength,
    fbsemantic.PolyType.Cons, bind, Except.bind, ge_iff_le, hnot, if_false, Int.toNat_ofNat,
    List.get?_eq_getElem?, List.getElem?_eq_getElem hj, Option.join, List.get_eq_getElem]
  cases fb.cons[j] with
  | none => rfl
  | some v => rfl

/-- C11. For a polytype with a non-nil handle, a failing `getCanonicalMapping`
returns an Internal error `e`, and `CanonicalString()` then returns exactly
`"<" ++ message(e) ++ ">"`, which begins with `<`: `<missing a polytype expr>`
for a missing body, the traversal's message when the body traversal fails,
`<missing var>` when a quantified variable fails to decode. -/
theorem CanonicalString_placeholder (syn : Style) (pt : PolyType) (fb : fbsemantic.PolyType)
    (hfb : pt.fb = some fb) :
    (∀ e, pt.getCanonicalMapping = .error e →
      ∃ msg, e = .error codes.Code.Internal msg ∧
        PolyType.CanonicalString syn pt = .ok ("<" ++ msg ++ ">") ∧
        ("<" ++ msg ++ ">").data.head? = some '<') ∧
    (fb.expr = none → PolyType.CanonicalString syn pt = .ok "<missing a polytype expr>") ∧
    (∀ body msg, fb.expr = some body →
      body.getCanonicalMapping (0, []) = .error (.error codes.Code.Internal msg) →
      PolyType.CanonicalString syn pt = .ok ("<" ++ msg ++ ">")) ∧
    (∀ body s1, fb.expr = some body → body.getCanonicalMapping (0, []) = .ok s1 →
      none ∈ fb.vars → PolyType.CanonicalString syn pt = .ok "<missing var>") := by
  refine ⟨?_, ?_, ?_, ?_⟩
  · intro e he
    obtain ⟨msg, rfl⟩ := scheme_getCanonicalMapping_error pt fb hfb e he
    refine ⟨msg, rfl, ?_, ?_⟩
    · simp [PolyType.CanonicalString, he, orPlaceholder]
    · simp [String.data_append]
  · intro hexpr
    simp [PolyType.CanonicalString, PolyType.getCanonicalMapping, PolyType.Expr, hfb, hexpr,
      bind, Except.bind, orPlaceholder]
  · intro body msg hexpr hb
    simp [PolyType.CanonicalString, PolyType.getCanonicalMapping, PolyType.Expr, hfb, hexpr, hb,
      bind, Except.bind, orPlaceholder]
  · intro body s1 hexpr hb hnone
    obtain ⟨i, hi, hio⟩ := List.getElem_of_mem hnone
    have hq := quantifiedMapping_fails pt (.error codes.Code.Internal "missing var")
      (List.range fb.vars.length) s1
      (by
        intro j hj e hje
        have hjl := List.mem_range.1 hj
        rw [Var_in_range pt fb hfb j hjl] at hje
        split at hje
        · cases hje
        · cases hje
          rfl)
      ⟨i, List.mem_range.2 hi, by
        rw [Var_in_range pt fb hfb i hi]
        simp [hio]⟩
    simp [PolyType.CanonicalString, PolyType.getCanonicalMapping, PolyType.Expr,
      PolyType.NumVars, fbsemantic.PolyType.VarsLength, hfb, hexpr, hb, hq, bind, Except.bind,
      orPlaceholder]

/-- C11, at schemes with a missing body, a malformed body and a variable that
fails to decode. -/
theorem CanonicalString_placeholder_witness :
    PolyType.CanonicalString sampleStyle ⟨some ⟨[some ⟨1⟩], [], none⟩⟩
      = .ok "<missing a polytype expr>" ∧
    PolyType.CanonicalString sampleStyle
        ⟨some ⟨[some ⟨1⟩], [], some (.arr (.malformed "missing elem type"))⟩⟩
      = .ok ("<" ++ "missing elem type" ++ ">") ∧
    PolyType.CanonicalString sampleStyle missingChildPoly = .ok "<missing var>" ∧
    ∃ msg, Failure.error codes.Code.Internal "missing a polytype expr"
        = .error codes.Code.Internal msg ∧
      PolyType.CanonicalString sampleStyle ⟨some ⟨[some ⟨1⟩], [], none⟩⟩
        = .ok ("<" ++ msg ++ ">") ∧
      ("<" ++ msg ++ ">").data.head? = some '<' :=
  ⟨(CanonicalString_placeholder sampleStyle _ ⟨[some ⟨1⟩], [], none⟩ rfl).2.1 rfl,
    (CanonicalString_placeholder sampleStyle _
      ⟨[some ⟨1⟩], [], some (.arr (.malformed "missing elem type"))⟩ rfl).2.2.1 _ _ rfl rfl,
    (CanonicalString_placeholder sampleStyle missingChildPoly _ rfl).2.2.2 _ _ rfl rfl
      (by decide),
    (CanonicalString_placeholder sampleStyle _ ⟨[some ⟨1⟩], [], none⟩ rfl).1 _ rfl⟩

/-! ## Propagation of accessor errors -/

theorem collect_range'_cases {α : Type} (get : Int → Result α) :
    ∀ (k s : Nat),
    (∃ xs, collect get (List.range' s k) = .ok xs ∧
      ∀ j, s ≤ j → j < s + k → ∃ x, get (j : Int) = .ok x) ∨
    (∃ i e, s ≤ i ∧ i < s + k ∧ (∀ j, s ≤ j → j < i → ∃ x, get (j : Int) = .ok x) ∧
      get (i : Int) = .error e ∧ collect get (List.range' s k) = .error e)
  | 0, s => Or.inl ⟨[], rfl, fun j h1 h2 => by omega⟩
  | k + 1, s => by
      cases hs : get (s : Int) with
      | error e =>
        refine Or.inr ⟨s, e, le_rfl, by omega, fun j h1 h2 => by omega, hs, ?_⟩
        simp [List.range', collect, hs, bind, Except.bind]
      | ok x =>
        rcases collect_range'_cases get k (s + 1) with ⟨xs, hxs, hall⟩ | ⟨i, e, h1, h2, h3, h4, h5⟩
        · refine Or.inl ⟨x :: xs, ?_, ?_⟩
          · simp [List.range', collect, hs, hxs, bind, Except.bind, pure, Except.pure]
          · intro j hj1 hj2
            by_cases hjs : j = s
            · subst hjs
              exact ⟨x, hs⟩
            · exact hall j (by omega) (by omega)
        · refine Or.inr ⟨i, e, by omega, by omega, ?_, h4, ?_⟩
          · intro j hj1 hj2
            by_cases hjs : j = s
            · subst hjs
              exact ⟨x, hs⟩
            · exact h3 j (by omega) hj2
          · simp [List.range', collect, hs, h5, bind, Except.bind]

/-- The loading loop over `0 .. n-1` either returns, every `get(j)` having
returned, or fails with the error of the smallest failing index. -/
theorem collect_range_cases {α : Type} (get : Int → Result α) (n : Nat) :
    (∃ xs, collect get (List.range n) = .ok xs ∧ ∀ j, j < n → ∃ x, get (j : Int) = .ok x) ∨
    (∃ i e, i < n ∧ (∀ j, j < i → ∃ x, get (j : Int) = .ok x) ∧
      get (i : Int) = .error e ∧ collect get (List.range n) = .error e) := by
  rw [List.range_eq_range']
  rcases collect_range'_cases get n 0 with ⟨xs, hxs, hall⟩ | ⟨i, e, _, h2, h3, h4, h5⟩
  · exact Or.inl ⟨xs, hxs, fun j hj => hall j (Nat.zero_le _) (by omega)⟩
  · exact Or.inr ⟨i, e, by omega, fun j hj => h3 j (Nat.zero_le _) hj, h4, h5⟩

/-- The raw comparison closure of `sortedConstraints(nil)` is the strict part
of the order by tvar number, then kind ordinal. -/
theorem lessConstraint_none (a b : fbsemantic.Constraint) :
    PolyType.lessConstraint none a b = .ok (decide (¬ constraintLe b a)) := by
  simp only [PolyType.lessConstraint, lessTvarKind, constraintLe]
  congr 1
  by_cases h : a.tvar.i = b.tvar.i
  · simp [h]
  · simp only [h, if_false, decide_eq_decide]
    omega

theorem Slice_lessConstraint_none (cs : List fbsemantic.Constraint) :
    ∃ out, sort.Slice (PolyType.lessConstraint none) cs = .ok out ∧ out.Perm cs ∧
      out.Pairwise constraintLe :=
  Slice_ok (PolyType.lessConstraint none) constraintLe
    (by intro a b; unfold constraintLe; omega)
    (by intro a b c; unfold constraintLe; omega) cs
    (fun a _ b _ => lessConstraint_none a b)

theorem Slice_lessVar_none (vs : List fbsemantic.Var) :
    ∃ out, sort.Slice (PolyType.lessVar none) vs = .ok out ∧ out.Perm vs ∧
      out.Pairwise (fun a b => a.i ≤ b.i) :=
  Slice_ok (PolyType.lessVar none) (fun a b : fbsemantic.Var => a.i ≤ b.i)
    (by intro a b; omega) (by intro a b c; omega) vs
    (by intro a _ b _; simp [PolyType.lessVar])

/-- `SortedConstraints` fails exactly when the loading loop fails, with its error. -/
theorem SortedConstraints_error_iff (pt : PolyType) (fb : fbsemantic.PolyType)
    (hfb : pt.fb = some fb) (e : Failure) :
    pt.SortedConstraints = .error e
      ↔ collect pt.Constraint (List.range fb.cons.length) = .error e := by
  simp only [PolyType.SortedConstraints, PolyType.sortedConstraints, PolyType.NumConstraints,
    hfb, fbsemantic.PolyType.ConsLength, bind, Except.bind]
  cases collect pt.Constraint (List.range fb.cons.length) with
  | error e1 => simp
  | ok cs =>
    obtain ⟨out, hout, _, _⟩ := Slice_lessConstraint_none cs
    simp [hout]

/-- `SortedVars` fails exactly when the loading loop fails, with its error. -/
theorem SortedVars_error_iff (pt : PolyType) (fb : fbsemantic.PolyType)
    (hfb : pt.fb = some fb) (e : Failure) :
    pt.SortedVars = .error e ↔ collect pt.Var (List.range fb.vars.length) = .error e := by
  simp only [PolyType.SortedVars, PolyType.sortedVars, PolyType.NumVars,
    hfb, fbsemantic.PolyType.VarsLength, bind, Except.bind]
  cases collect pt.Var (List.range fb.vars.length) with
  | error e1 => simp
  | ok vs =>
    obtain ⟨out, hout, _, _⟩ := Slice_lessVar_none vs
    simp [hout]

theorem collect_error_iff {α : Type} (get : Int → Result α) (n : Nat) (e : Failure) :
    collect get (List.range n) = .error e
      ↔ ∃ i, i < n ∧ get (i : Int) = .error e ∧ ∀ j, j < i → ∃ x, get (j : Int) = .ok x := by
  constructor
  · intro h
    rcases collect_range_cases get n with ⟨xs, hxs, _⟩ | ⟨i, e1, h1, h2, h3, h4⟩
    · rw [hxs] at h
      cases h
    · rw [h4] at h
      cases h
      exact ⟨i, h1, h3, h2⟩
  · rintro ⟨i, hi, hie, hbefore⟩
    rcases collect_range_cases get n with ⟨xs, _, hall⟩ | ⟨i1, e1, h1, h2, h3, h4⟩
    · obtain ⟨x, hx⟩ := hall i hi
      rw [hx] at hie
      cases hie
    · have hii : i1 = i := by
        rcases Nat.lt_trichotomy i1 i with hlt | heq | hgt
        · obtain ⟨x, hx⟩ := hbefore i1 hlt
          rw [hx] at h3
          cases h3
        · exact heq
        · obtain ⟨x, hx⟩ := h2 i hgt
          rw [hx] at hie
          cases hie
      subst hii
      rw [h3] at hie
      cases hie
      exact h4

/-- When some stored variable fails to decode, the loading loop of
`sortedVars` fails with "missing var". -/
theorem collect_Var_missing (pt : PolyType) (fb : fbsemantic.PolyType)
    (hfb : pt.fb = some fb) (hnone : none ∈ fb.vars) :
    collect pt.Var (List.range fb.vars.length)
      = .error (.error codes.Code.Internal "missing var") := by
  rcases collect_range_cases pt.Var fb.vars.length with ⟨xs, _, hall⟩ | ⟨i, e, h1, _, h3, h4⟩
  · obtain ⟨i, hi, hio⟩ := List.getElem_of_mem hnone
    obtain ⟨x, hx⟩ := hall i hi
    rw [Var_in_range pt fb hfb i hi] at hx
    simp [hio] at hx
  · rw [Var_in_range pt fb hfb i h1] at h3
    split at h3
    · cases h3
    · cases h3
      exact h4

/-- When some stored constraint fails to decode, the loading loop of
`sortedConstraints` fails with "missing constraint". -/
theorem collect_Constraint_missing (pt : PolyType) (fb : fbsemantic.PolyType)
    (hfb : pt.fb = some fb) (hnone : none ∈ fb.cons) :
    collect pt.Constraint (List.range fb.cons.length)
      = .error (.error codes.Code.Internal "missing constraint") := by
  rcases collect_range_cases pt.Constraint fb.cons.length with
    ⟨xs, _, hall⟩ | ⟨i, e, h1, _, h3, h4⟩
  · obtain ⟨i, hi, hio⟩ := List.getElem_of_mem hnone
    obtain ⟨x, hx⟩ := hall i hi
    rw [Constraint_in_range pt fb hfb i hi] at hx
    simp [hio] at hx
  · rw [Constraint_in_range pt fb hfb i h1] at h3
    split at h3
    · cases h3
    · cases h3
      exact h4

/-- When every stored entry decodes, the handle's list is the list of its
decoded entries. -/
theorem decoded_of_no_none {α : Type} (l : List (Option α)) (h : none ∉ l) :
    l = (l.filterMap id).map some :=
  all_some_eq_map l (fun _ ho hn => h (hn ▸ ho))

/-- C16. For a polytype with a non-nil handle: `SortedConstraints` returns an
error exactly when `Constraint(i)` fails for some `i` below `NumConstraints`,
and the error is that of the smallest failing `i`; `SortedVars` likewise with
`Var(i)`.  An entry that fails to decode makes `Var(i)` / `Constraint(i)`
return "missing var" / "missing constraint", and `String()` then returns only
`<missing var>` / `<missing constraint>`. -/
theorem accessor_errors_propagate (syn : Style) (pt : PolyType) (fb : fbsemantic.PolyType)
    (hfb : pt.fb = some fb) :
    (∀ e, pt.SortedConstraints = .error e ↔
      ∃ i, i < fb.cons.length ∧ pt.Constraint (i : Int) = .error e ∧
        ∀ j, j < i → ∃ c, pt.Constraint (j : Int) = .ok c) ∧
    ((∃ e, pt.SortedConstraints = .error e) ↔
      ∃ i, i < fb.cons.length ∧ ∃ e, pt.Constraint (i : Int) = .error e) ∧
    (∀ e, pt.SortedVars = .error e ↔
      ∃ i, i < fb.vars.length ∧ pt.Var (i : Int) = .error e ∧
        ∀ j, j < i → ∃ v, pt.Var (j : Int) = .ok v) ∧
    ((∃ e, pt.SortedVars = .error e) ↔
      ∃ i, i < fb.vars.length ∧ ∃ e, pt.Var (i : Int) = .error e) ∧
    (∀ i (hi : i < fb.vars.length), fb.vars.get ⟨i, hi⟩ = none →
      pt.Var (i : Int) = .error (.error codes.Code.Internal "missing var")) ∧
    (∀ i (hi : i < fb.cons.length), fb.cons.get ⟨i, hi⟩ = none →
      pt.Constraint (i : Int) = .error (.error codes.Code.Internal "missing constraint")) ∧
    (none ∈ fb.vars → PolyType.String syn pt = .ok "<missing var>") ∧
    (none ∉ fb.vars → none ∈ fb.cons → PolyType.String syn pt = .ok "<missing constraint>") := by
  have hC : ∀ e, pt.SortedConstraints = .error e ↔
      ∃ i, i < fb.cons.length ∧ pt.Constraint (i : Int) = .error e ∧
        ∀ j, j < i → ∃ c, pt.Constraint (j : Int) = .ok c := fun e =>
    (SortedConstraints_error_iff pt fb hfb e).trans (collect_error_iff _ _ e)
  have hV : ∀ e, pt.SortedVars = .error e ↔
      ∃ i, i < fb.vars.length ∧ pt.Var (i : Int) = .error e ∧
        ∀ j, j < i → ∃ v, pt.Var (j : Int) = .ok v := fun e =>
    (SortedVars_error_iff pt fb hfb e).trans (collect_error_iff _ _ e)
  refine ⟨hC, ?_, hV, ?_, ?_, ?_, ?_, ?_⟩
  · constructor
    · rintro ⟨e, he⟩
      obtain ⟨i, hi, hie, _⟩ := (hC e).1 he
      exact ⟨i, hi, e, hie⟩
    · rintro ⟨i, hi, e, hie⟩
      rcases collect_range_cases pt.Constraint fb.cons.length with
        ⟨xs, _, hall⟩ | ⟨i1, e1, _, _, _, h4⟩
      · obtain ⟨x, hx⟩ := hall i hi
        rw [hx] at hie
        cases hie
      · exact ⟨e1, (SortedConstraints_error_iff pt fb hfb e1).2 h4⟩
  · constructor
    · rintro ⟨e, he⟩
      obtain ⟨i, hi, hie, _⟩ := (hV e).1 he
      exact ⟨i, hi, e, hie⟩
    · rintro ⟨i, hi, e, hie⟩
      rcases collect_range_cases pt.Var fb.vars.length with
        ⟨xs, _, hall⟩ | ⟨i1, e1, _, _, _, h4⟩
      · obtain ⟨x, hx⟩ := hall i hi
        rw [hx] at hie
        cases hie
      · exact ⟨e1, (SortedVars_error_iff pt fb hfb e1).2 h4⟩
  · intro i hi hnone
    rw [Var_in_range pt fb hfb i hi, hnone]
  · intro i hi hnone
    rw [Constraint_in_range pt fb hfb i hi, hnone]
  · intro hnone
    have hs : pt.sortedVars none = .error (.error codes.Code.Internal "missing var") :=
      (SortedVars_error_iff pt fb hfb _).2 (collect_Var_missing pt fb hfb hnone)
    simp [PolyType.String, PolyType.string, hfb, hs, orPlaceholder]
  · intro hv hnone
    have hdec := decoded_of_no_none fb.vars hv
    obtain ⟨out, hout, _, _⟩ := Slice_lessVar_none (fb.vars.filterMap id)
    have hs : pt.sortedVars none = .ok out := by
      rw [sortedVars_of_decoded pt fb _ none hfb hdec]
      exact hout
    have hc : pt.sortedConstraints none
        = .error (.error codes.Code.Internal "missing constraint") :=
      (SortedConstraints_error_iff pt fb hfb _).2 (collect_Constraint_missing pt fb hfb hnone)
    simp [PolyType.String, PolyType.string, hfb, hs, hc, orPlaceholder]

/-- C16, at a scheme whose first variable and first constraint fail to decode,
and at one where only a constraint fails. -/
theorem accessor_errors_propagate_witness :
    missingChildPoly.SortedVars = .error (.error codes.Code.Internal "missing var") ∧
    missingChildPoly.SortedConstraints
      = .error (.error codes.Code.Internal "missing constraint") ∧
    PolyType.String sampleStyle missingChildPoly = .ok "<missing var>" ∧
    PolyType.String sampleStyle
        ⟨some ⟨[some ⟨5⟩], [some ⟨⟨5⟩, .Addable⟩, none], some (.var 5)⟩⟩
      = .ok "<missing constraint>" :=
  ⟨rfl, rfl,
    (accessor_errors_propagate sampleStyle missingChildPoly _ rfl).2.2.2.2.2.2.1 (by decide),
    (accessor_errors_propagate sampleStyle _
      ⟨[some ⟨5⟩], [some ⟨⟨5⟩, .Addable⟩, none], some (.var 5)⟩ rfl).2.2.2.2.2.2.2
      (by decide) (by decide)⟩

/-! ## Reachability of the abort -/

/-- The keys of a returned canonical mapping: the variables of the body and
the quantified variables. -/
theorem getCanonicalMapping_keys (pt : PolyType) (fb : fbsemantic.PolyType) (body : MonoType)
    (m : TVarMap) (hfb : pt.fb = some fb) (hexpr : fb.expr = some body)
    (h : pt.getCanonicalMapping = .ok m) (a : Nat) :
    m.lookup a ≠ none ↔ (a ∈ body.vars ∨ some ⟨a⟩ ∈ fb.vars) := by
  obtain ⟨fb', body', vs, s1, hfb', hexpr', hdec, _, hm⟩ := getCanonicalMapping_inv pt m h
  rw [hfb] at hfb'
  cases hfb'
  rw [hexpr] at hexpr'
  cases hexpr'
  obtain ⟨_, hkeys, _⟩ := numbering_spec (body.vars ++ vs.map (fun v => v.i))
  rw [← hm] at hkeys
  rw [hkeys a, List.mem_append, hdec]
  have : a ∈ vs.map (fun v => v.i) ↔ some (⟨a⟩ : fbsemantic.Var) ∈ vs.map some := by
    simp only [List.mem_map, Option.some.injEq]
    constructor
    · rintro ⟨v, hv, rfl⟩
      exact ⟨v, hv, rfl⟩
    · rintro ⟨v, hv, rfl⟩
      exact ⟨_, hv, rfl⟩
  rw [this]

/-- A returned canonical mapping is injective. -/
theorem getCanonicalMapping_injective (pt : PolyType) (m : TVarMap)
    (h : pt.getCanonicalMapping = .ok m) (a b x : Nat)
    (ha : m.lookup a = some x) (hb : m.lookup b = some x) : a = b := by
  obtain ⟨_, body, vs, _, _, _, _, _, hm⟩ := getCanonicalMapping_inv pt m h
  obtain ⟨hnum, _, _⟩ := numbering_spec (body.vars ++ vs.map (fun v => v.i))
  rw [hm] at ha hb
  exact Numbered_injective _ hnum a b x ha hb

/-- Under a mapping that contains both tvars, the closure of
`sortedConstraints(m)` is the strict part of the order by canonical number,
then kind ordinal. -/
theorem lessConstraint_via (m : TVarMap) (a b : fbsemantic.Constraint)
    (ha : m.lookup a.tvar.i ≠ none) (hb : m.lookup b.tvar.i ≠ none) :
    PolyType.lessConstraint (some m) a b = .ok (decide (¬ constraintLeVia m b a)) := by
  obtain ⟨x, hx⟩ := Option.ne_none_iff_exists'.1 ha
  obtain ⟨y, hy⟩ := Option.ne_none_iff_exists'.1 hb
  rw [lessConstraint_some m a b x y hx hy]
  simp only [lessTvarKind, constraintLeVia, hx, hy, Option.getD_some]
  congr 1
  by_cases h : x = y
  · simp [h]
  · simp only [h, if_false, decide_eq_decide]
    omega

/-- With every tvar in the mapping, `sort.Slice` under the closure of
`sortedConstraints(m)` returns an ordered permutation. -/
theorem Slice_lessConstraint_via (m : TVarMap) (cs : List fbsemantic.Constraint)
    (hm : ∀ c ∈ cs, m.lookup c.tvar.i ≠ none) :
    ∃ out, sort.Slice (PolyType.lessConstraint (some m)) cs = .ok out ∧ out.Perm cs ∧
      out.Pairwise (constraintLeVia m) :=
  Slice_ok (PolyType.lessConstraint (some m)) (constraintLeVia m)
    (by intro a b; unfold constraintLeVia; omega)
    (by intro a b c; unfold constraintLeVia; omega) cs
    (fun a ha b hb => lessConstraint_via m a b (hm a ha) (hm b hb))

/-- With every quantified number in the mapping, `sort.Slice` under the
closure of `sortedVars(m)` returns a permutation. -/
theorem Slice_lessVar_via (m : TVarMap) (vs : List fbsemantic.Var)
    (hm : ∀ v ∈ vs, m.lookup v.i ≠ none) :
    ∃ out, sort.Slice (PolyType.lessVar (some m)) vs = .ok out ∧ out.Perm vs :=
  let ⟨out, h1, h2, _⟩ := Slice_ok (PolyType.lessVar (some m))
    (fun a b : fbsemantic.Var => (m.lookup a.i).getD 0 ≤ (m.lookup b.i).getD 0)
    (by intro a b; omega) (by intro a b c; omega) vs
    (by
      intro a ha b hb
      obtain ⟨x, hx⟩ := Option.ne_none_iff_exists'.1 (hm a ha)
      obtain ⟨y, hy⟩ := Option.ne_none_iff_exists'.1 (hm b hb)
      simp [lessVar_some m a b x y hx hy, hx, hy])
  ⟨out, h1, h2⟩

/-- After a successful `getCanonicalMapping`, `sortedVars(m)` returns. -/
theorem sortedVars_canonical_ok (pt : PolyType) (fb : fbsemantic.PolyType) (m : TVarMap)
    (hfb : pt.fb = some fb) (h : pt.getCanonicalMapping = .ok m) :
    (∀ v, some v ∈ fb.vars → m.lookup v.i ≠ none) ∧
    ∃ out, pt.sortedVars (some m) = .ok out := by
  obtain ⟨fb', body, vs, s1, hfb', hexpr, hdec, _, _⟩ := getCanonicalMapping_inv pt m h
  rw [hfb] at hfb'
  cases hfb'
  have hkeys : ∀ v, some v ∈ fb.vars → m.lookup v.i ≠ none := by
    intro v hv
    exact (getCanonicalMapping_keys pt fb body m hfb hexpr h v.i).2 (Or.inr hv)
  refine ⟨hkeys, ?_⟩
  obtain ⟨out, hout, _⟩ := Slice_lessVar_via m vs (by
    intro v hv
    exact hkeys v (by rw [hdec]; exact List.mem_map.2 ⟨v, hv, rfl⟩))
  exact ⟨out, by rw [sortedVars_of_decoded pt fb vs (some m) hfb hdec]; exact hout⟩

/-- With a non-nil handle, `sortedConstraints(m)` returns when every stored
constraint decodes to a tvar of the mapping, and returns the error "missing
constraint" when a stored constraint fails to decode. -/
theorem sortedConstraints_covered (pt : PolyType) (fb : fbsemantic.PolyType) (m : TVarMap)
    (hfb : pt.fb = some fb) (hm : ∀ c, some c ∈ fb.cons → m.lookup c.tvar.i ≠ none) :
    (∃ out, pt.sortedConstraints (some m) = .ok out) ∨
    pt.sortedConstraints (some m)
      = .error (.error codes.Code.Internal "missing constraint") := by
  by_cases hnone : none ∈ fb.cons
  · right
    simp [PolyType.sortedConstraints, PolyType.NumConstraints, hfb,
      fbsemantic.PolyType.ConsLength, collect_Constraint_missing pt fb hfb hnone, bind,
      Except.bind]
  · left
    have hdec := decoded_of_no_none fb.cons hnone
    obtain ⟨out, hout, _, _⟩ := Slice_lessConstraint_via m (fb.cons.filterMap id) (by
      intro c hc
      exact hm c (by rw [hdec]; exact List.mem_map.2 ⟨c, hc, rfl⟩))
    exact ⟨out, by rw [sortedConstraints_of_decoded pt fb _ (some m) hfb hdec]; exact hout⟩

/-- With a non-nil handle in which every decoded constraint names a quantified
variable or a variable of the body, `CanonicalString()` returns a string. -/
theorem CanonicalString_returns (syn : Style) (pt : PolyType) (fb : fbsemantic.PolyType)
    (hfb : pt.fb = some fb)
    (hcov : ∀ c, some c ∈ fb.cons →
      some c.tvar ∈ fb.vars ∨ ∃ body, fb.expr = some body ∧ c.tvar.i ∈ body.vars) :
    ∃ s, PolyType.CanonicalString syn pt = .ok s := by
  cases hm : pt.getCanonicalMapping with
  | error e =>
    obtain ⟨msg, rfl⟩ := scheme_getCanonicalMapping_error pt fb hfb e hm
    exact ⟨"<" ++ msg ++ ">", by simp [PolyType.CanonicalString, hm, orPlaceholder]⟩
  | ok m =>
    obtain ⟨fb', body, vs, s1, hfb', hexpr, _, _, _⟩ := getCanonicalMapping_inv pt m hm
    rw [hfb] at hfb'
    cases hfb'
    obtain ⟨_, outv, hv⟩ := sortedVars_canonical_ok pt fb m hfb hm
    have hmapped : ∀ c, some c ∈ fb.cons → m.lookup c.tvar.i ≠ none := by
      intro c hc
      refine (getCanonicalMapping_keys pt fb body m hfb hexpr hm c.tvar.i).2 ?_
      rcases hcov c hc with h | ⟨body', hb', hmem⟩
      · exact Or.inr h
      · rw [hexpr] at hb'
        cases hb'
        exact Or.inl hmem
    have he : pt.Expr = .ok body := by simp [PolyType.Expr, hfb, hexpr]
    rcases sortedConstraints_covered pt fb m hfb hmapped with ⟨outc, hc⟩ | hc
    · exact ⟨_, by
        simp only [PolyType.CanonicalString, hm, orPlaceholder]
        exact string_of_sorted syn pt (some m) outv outc body hv hc he⟩
    · exact ⟨"<missing constraint>", by
        simp [PolyType.CanonicalString, hm, orPlaceholder, PolyType.string, hfb, hv, hc]⟩

/-- C17. For a polytype with a non-nil handle, the mapping `m` returned by
`getCanonicalMapping` contains the number of every quantified variable and
`sortedVars(m)` returns; if moreover every constraint's tvar is quantified or
occurs in the body, `sortedConstraints(m)` does not abort with "could not find
var mapping", and `CanonicalString()` returns a string. -/
theorem abort_unreachable_when_covered (syn : Style) (pt : PolyType)
    (fb : fbsemantic.PolyType) (hfb : pt.fb = some fb) :
    (∀ m, pt.getCanonicalMapping = .ok m →
      (∀ v, some v ∈ fb.vars → m.lookup v.i ≠ none) ∧
      (∃ out, pt.sortedVars (some m) = .ok out) ∧
      ((∀ c, some c ∈ fb.cons →
          some c.tvar ∈ fb.vars ∨ ∃ body, fb.expr = some body ∧ c.tvar.i ∈ body.vars) →
        pt.sortedConstraints (some m) ≠ .error (.panic "could not find var mapping"))) ∧
    ((∀ c, some c ∈ fb.cons →
        some c.tvar ∈ fb.vars ∨ ∃ body, fb.expr = some body ∧ c.tvar.i ∈ body.vars) →
      ∃ s, PolyType.CanonicalString syn pt = .ok s) := by
  refine ⟨?_, CanonicalString_returns syn pt fb hfb⟩
  intro m hm
  obtain ⟨h1, h2⟩ := sortedVars_canonical_ok pt fb m hfb hm
  refine ⟨h1, h2, ?_⟩
  intro hcov
  obtain ⟨fb', body, vs, s1, hfb', hexpr, _, _, _⟩ := getCanonicalMapping_inv pt m hm
  rw [hfb] at hfb'
  cases hfb'
  have hmapped : ∀ c, some c ∈ fb.cons → m.lookup c.tvar.i ≠ none := by
    intro c hc
    refine (getCanonicalMapping_keys pt fb body m hfb hexpr hm c.tvar.i).2 ?_
    rcases hcov c hc with h | ⟨body', hb', hmem⟩
    · exact Or.inr h
    · rw [hexpr] at hb'
      cases hb'
      exact Or.inl hmem
  rcases sortedConstraints_covered pt fb m hfb hmapped with ⟨outc, hc⟩ | hc
  · rw [hc]
    intro h
    cases h
  · rw [hc]
    intro h
    cases h

/-- Every constraint of the sample scheme names a quantified variable. -/
theorem samplePoly_covered (fb : fbsemantic.PolyType) (hfb : samplePoly.fb = some fb) :
    ∀ c, some c ∈ fb.cons →
      some c.tvar ∈ fb.vars ∨ ∃ body, fb.expr = some body ∧ c.tvar.i ∈ body.vars := by
  cases hfb
  intro c hc
  left
  simp only [List.mem_cons, Option.some.injEq, List.mem_singleton, List.not_mem_nil,
    or_false] at hc
  rcases hc with rfl | rfl | rfl <;> decide

/-- C17, at the sample scheme, whose constraints name the variables 7 and 3
of the body. -/
theorem abort_unreachable_when_covered_witness :
    (∃ out, samplePoly.sortedVars (some [(7, 0), (3, 1), (9, 2)]) = .ok out) ∧
    samplePoly.sortedConstraints (some [(7, 0), (3, 1), (9, 2)])
      ≠ .error (.panic "could not find var mapping") ∧
    ∃ s, PolyType.CanonicalString sampleStyle samplePoly = .ok s :=
  ⟨((abort_unreachable_when_covered sampleStyle samplePoly _ rfl).1
      [(7, 0), (3, 1), (9, 2)] rfl).2.1,
    ((abort_unreachable_when_covered sampleStyle samplePoly _ rfl).1
      [(7, 0), (3, 1), (9, 2)] rfl).2.2 (samplePoly_covered _ rfl),
    (abort_unreachable_when_covered sampleStyle samplePoly _ rfl).2
      (samplePoly_covered _ rfl)⟩

/-- C14, as stated, fails: for a scheme whose two constraints name variables
that are neither quantified nor in the body, the canonical mapping has no
entry for them and `CanonicalString()` aborts with "could not find var
mapping". -/
theorem CanonicalString_orphan_aborts :
    orphanPoly.getCanonicalMapping = .ok [] ∧
    TVarMap.lookup [] 5 = none ∧
    TVarMap.lookup [] 6 = none ∧
    PolyType.CanonicalString sampleStyle orphanPoly
      = .error (.panic "could not find var mapping") :=
  ⟨rfl, rfl, rfl, rfl⟩

/-- C14 (amended). For a polytype with a non-nil handle in which every
constraint's tvar is in the quantified list or occurs in the body: a mapping
returned by `getCanonicalMapping` contains a canonical number for every
constraint's tvar, and `CanonicalString()` returns a string. -/
theorem CanonicalString_completes_when_covered (syn : Style) (pt : PolyType)
    (fb : fbsemantic.PolyType) (hfb : pt.fb = some fb)
    (hcov : ∀ c, some c ∈ fb.cons →
      some c.tvar ∈ fb.vars ∨ ∃ body, fb.expr = some body ∧ c.tvar.i ∈ body.vars) :
    (∀ m, pt.getCanonicalMapping = .ok m →
      ∀ c, some c ∈ fb.cons → ∃ n, m.lookup c.tvar.i = some n) ∧
    ∃ s, PolyType.CanonicalString syn pt = .ok s := by
  refine ⟨?_, CanonicalString_returns syn pt fb hfb hcov⟩
  intro m hm c hc
  obtain ⟨fb', body, vs, s1, hfb', hexpr, _, _, _⟩ := getCanonicalMapping_inv pt m hm
  rw [hfb] at hfb'
  cases hfb'
  refine Option.ne_none_iff_exists'.1
    ((getCanonicalMapping_keys pt fb body m hfb hexpr hm c.tvar.i).2 ?_)
  rcases hcov c hc with h | ⟨body', hb', hmem⟩
  · exact Or.inr h
  · rw [hexpr] at hb'
    cases hb'
    exact Or.inl hmem

/-- C14 (amended), at the sample scheme. -/
theorem CanonicalString_completes_when_covered_witness :
    (∀ c, some c ∈ [some (⟨⟨7⟩, .Equatable⟩ : fbsemantic.Constraint), some ⟨⟨3⟩, .Addable⟩,
        some ⟨⟨3⟩, .Comparable⟩] →
      ∃ n, TVarMap.lookup [(7, 0), (3, 1), (9, 2)] c.tvar.i = some n) ∧
    ∃ s, PolyType.CanonicalString sampleStyle samplePoly = .ok s :=
  ⟨(CanonicalString_completes_when_covered sampleStyle samplePoly _ rfl
      (samplePoly_covered _ rfl)).1 [(7, 0), (3, 1), (9, 2)] rfl,
    (CanonicalString_completes_when_covered sampleStyle samplePoly _ rfl
      (samplePoly_covered _ rfl)).2⟩

/-! ## The order on constraints -/

theorem Kind_ordinal_injective (k l : fbsemantic.Kind) (h : k.ordinal = l.ordinal) : k = l := by
  cases k <;> cases l <;> simp [fbsemantic.Kind.ordinal] at h <;> rfl

/-- A verdict of the closure of `sortedConstraints(m)` under a mapping comes
from two entries of the mapping. -/
theorem lessConstraint_some_inv (m : TVarMap) (a b : fbsemantic.Constraint) (r : Bool)
    (h : PolyType.lessConstraint (some m) a b = .ok r) :
    ∃ x y, m.lookup a.tvar.i = some x ∧ m.lookup b.tvar.i = some y ∧
      r = lessTvarKind x y a b := by
  simp only [PolyType.lessConstraint] at h
  cases hx : m.lookup a.tvar.i with
  | none => simp [hx] at h
  | some x =>
    cases hy : m.lookup b.tvar.i with
    | none => simp [hx, hy] at h
    | some y =>
      simp only [hx, hy, Except.ok.injEq] at h
      exact ⟨x, y, rfl, rfl, h.symm⟩

theorem lessTvarKind_true (x y : Nat) (a b : fbsemantic.Constraint) :
    lessTvarKind x y a b = true ↔
      (x < y ∨ (x = y ∧ a.kind.ordinal < b.kind.ordinal)) := by
  unfold lessTvarKind
  by_cases h : x = y
  · simp [h]
  · simp only [h, if_false, decide_eq_true_eq, false_and, or_false]

theorem lessTvarKind_false (x y : Nat) (a b : fbsemantic.Constraint) :
    lessTvarKind x y a b = false ↔
      (y < x ∨ (x = y ∧ b.kind.ordinal ≤ a.kind.ordinal)) := by
  unfold lessTvarKind
  by_cases h : x = y
  · simp [h]
  · simp only [h, if_false, decide_eq_false_iff_not, false_and, or_false]
    omega

theorem lessConstraint_none_eq (a b : fbsemantic.Constraint) :
    PolyType.lessConstraint none a b = .ok (lessTvarKind a.tvar.i b.tvar.i a b) := rfl

/-- C12. The relation "sorts before" of `sortedConstraints` (the closure
returns `true`) is irreflexive and transitive, and two constraints neither of
which sorts before the other (the closure returns `false` both ways) have the
same tvar number and the same kind: in raw mode, and in canonical mode under
the mapping returned by `getCanonicalMapping`. -/
theorem constraint_order_strict_total (pt : PolyType) :
    ((∀ a, PolyType.lessConstraint none a a = .ok false) ∧
      (∀ a b c, PolyType.lessConstraint none a b = .ok true →
        PolyType.lessConstraint none b c = .ok true →
        PolyType.lessConstraint none a c = .ok true) ∧
      (∀ a b, PolyType.lessConstraint none a b ≠ .ok true →
        PolyType.lessConstraint none b a ≠ .ok true →
        a.tvar.i = b.tvar.i ∧ a.kind = b.kind)) ∧
    (∀ m, pt.getCanonicalMapping = .ok m →
      (∀ a, PolyType.lessConstraint (some m) a a ≠ .ok true) ∧
      (∀ a b c, PolyType.lessConstraint (some m) a b = .ok true →
        PolyType.lessConstraint (some m) b c = .ok true →
        PolyType.lessConstraint (some m) a c = .ok true) ∧
      (∀ a b, PolyType.lessConstraint (some m) a b = .ok false →
        PolyType.lessConstraint (some m) b a = .ok false →
        a.tvar.i = b.tvar.i ∧ a.kind = b.kind) ∧
      (∀ a b, m.lookup a.tvar.i ≠ none → m.lookup b.tvar.i ≠ none →
        PolyType.lessConstraint (some m) a b ≠ .ok true →
        PolyType.lessConstraint (some m) b a ≠ .ok true →
        a.tvar.i = b.tvar.i ∧ a.kind = b.kind)) := by
  refine ⟨⟨?_, ?_, ?_⟩, ?_⟩
  · intro a
    rw [lessConstraint_none_eq, Except.ok.injEq, lessTvarKind_false]
    omega
  · intro a b c hab hbc
    rw [lessConstraint_none_eq, Except.ok.injEq, lessTvarKind_true] at hab hbc ⊢
    omega
  · intro a b hab hba
    rw [lessConstraint_none_eq, ne_eq, Except.ok.injEq, Bool.not_eq_true,
      lessTvarKind_false] at hab hba
    exact ⟨by omega, Kind_ordinal_injective _ _ (by omega)⟩
  · intro m hm
    have hinj := getCanonicalMapping_injective pt m hm
    have key : ∀ a b, PolyType.lessConstraint (some m) a b = .ok false →
        PolyType.lessConstraint (some m) b a = .ok false →
        a.tvar.i = b.tvar.i ∧ a.kind = b.kind := by
      intro a b hab hba
      obtain ⟨x, y, hx, hy, r1⟩ := lessConstraint_some_inv m a b false hab
      obtain ⟨y', x', hy', hx', r2⟩ := lessConstraint_some_inv m b a false hba
      rw [hx] at hx'
      rw [hy] at hy'
      cases hx'
      cases hy'
      have r1' := (lessTvarKind_false x y a b).1 r1.symm
      have r2' := (lessTvarKind_false y x b a).1 r2.symm
      have hxy : x = y := by omega
      subst hxy
      exact ⟨hinj _ _ x hx hy, Kind_ordinal_injective _ _ (by omega)⟩
    refine ⟨?_, ?_, key, ?_⟩
    · intro a h
      obtain ⟨x, y, hx, hy, r⟩ := lessConstraint_some_inv m a a true h
      rw [hx] at hy
      cases hy
      have := (lessTvarKind_true x x a a).1 r.symm
      omega
    · intro a b c hab hbc
      obtain ⟨x, y, hx, hy, r1⟩ := lessConstraint_some_inv m a b true hab
      obtain ⟨y', z, hy', hz, r2⟩ := lessConstraint_some_inv m b c true hbc
      rw [hy] at hy'
      cases hy'
      rw [lessConstraint_some m a c x z hx hz, Except.ok.injEq, lessTvarKind_true]
      have r1' := (lessTvarKind_true x y a b).1 r1.symm
      have r2' := (lessTvarKind_true y z b c).1 r2.symm
      omega
    · intro a b ha hb hab hba
      obtain ⟨x, hx⟩ := Option.ne_none_iff_exists'.1 ha
      obtain ⟨y, hy⟩ := Option.ne_none_iff_exists'.1 hb
      refine key a b ?_ ?_
      · rw [lessConstraint_some m a b x y hx hy] at hab ⊢
        cases hl : lessTvarKind x y a b with
        | false => rfl
        | true => simp [hl] at hab
      · rw [lessConstraint_some m b a y x hy hx] at hba ⊢
        cases hl : lessTvarKind y x b a with
        | false => rfl
        | true => simp [hl] at hba

/-- C12, at the sample scheme and its canonical mapping: `(3, Addable)` and
`(3, Comparable)` are ordered by kind, `(7, Equatable)` sorts before both. -/
theorem constraint_order_strict_total_witness :
    PolyType.lessConstraint (some [(7, 0), (3, 1), (9, 2)]) ⟨⟨7⟩, .Equatable⟩ ⟨⟨3⟩, .Addable⟩
      = .ok true ∧
    PolyType.lessConstraint (some [(7, 0), (3, 1), (9, 2)]) ⟨⟨3⟩, .Addable⟩
      ⟨⟨3⟩, .Comparable⟩ = .ok true ∧
    PolyType.lessConstraint (some [(7, 0), (3, 1), (9, 2)]) ⟨⟨7⟩, .Equatable⟩
      ⟨⟨3⟩, .Comparable⟩ = .ok true :=
  ⟨rfl, rfl,
    ((constraint_order_strict_total samplePoly).2 [(7, 0), (3, 1), (9, 2)] rfl).2.1
      ⟨⟨7⟩, .Equatable⟩ ⟨⟨3⟩, .Addable⟩ ⟨⟨3⟩, .Comparable⟩ rfl rfl⟩

/-! ## Independence of the storage order of constraints -/

theorem constraint_ext (a b : fbsemantic.Constraint) (h1 : a.tvar.i = b.tvar.i)
    (h2 : a.kind = b.kind) : a = b := by
  cases a with
  | mk ta ka =>
    cases b with
    | mk tb kb =>
      cases ta
      cases tb
      simp only at h1 h2
      subst h1
      subst h2
      rfl

/-- In raw mode the sorted list depends only on the multiset of constraints. -/
theorem Slice_lessConstraint_none_perm (cs1 cs2 : List fbsemantic.Constraint)
    (hp : cs1.Perm cs2) :
    sort.Slice (PolyType.lessConstraint none) cs1
      = sort.Slice (PolyType.lessConstraint none) cs2 := by
  obtain ⟨o1, h1, p1, s1⟩ := Slice_lessConstraint_none cs1
  obtain ⟨o2, h2, p2, s2⟩ := Slice_lessConstraint_none cs2
  rw [h1, h2]
  congr 1
  refine List.Perm.eq_of_sorted ?_ s1 s2 (p1.trans (hp.trans p2.symm))
  intro a b _ _ hab hba
  unfold constraintLe at hab hba
  exact constraint_ext a b (by omega) (Kind_ordinal_injective _ _ (by omega))

/-- Under an injective mapping the outcome of the sort depends only on the
multiset of constraints: the same ordered list, or the same abort. -/
theorem Slice_lessConstraint_some_perm (m : TVarMap)
    (hinj : ∀ a b x, m.lookup a = some x → m.lookup b = some x → a = b)
    (cs1 cs2 : List fbsemantic.Constraint) (hp : cs1.Perm cs2) :
    sort.Slice (PolyType.lessConstraint (some m)) cs1
      = sort.Slice (PolyType.lessConstraint (some m)) cs2 := by
  by_cases hall : ∀ c ∈ cs1, m.lookup c.tvar.i ≠ none
  · have hall2 : ∀ c ∈ cs2, m.lookup c.tvar.i ≠ none :=
      fun c hc => hall c (hp.mem_iff.2 hc)
    obtain ⟨o1, h1, p1, s1⟩ := Slice_lessConstraint_via m cs1 hall
    obtain ⟨o2, h2, p2, s2⟩ := Slice_lessConstraint_via m cs2 hall2
    rw [h1, h2]
    congr 1
    refine List.Perm.eq_of_sorted ?_ s1 s2 (p1.trans (hp.trans p2.symm))
    intro a b ha hb hab hba
    obtain ⟨x, hx⟩ := Option.ne_none_iff_exists'.1 (hall a (p1.mem_iff.1 ha))
    obtain ⟨y, hy⟩ := Option.ne_none_iff_exists'.1 (hall2 b (p2.mem_iff.1 hb))
    simp only [constraintLeVia, hx, hy, Option.getD_some] at hab hba
    have hxy : x = y := by omega
    subst hxy
    exact constraint_ext a b (hinj _ _ x hx hy) (Kind_ordinal_injective _ _ (by omega))
  · have hex : ∃ c ∈ cs1, m.lookup c.tvar.i = none := by
      by_contra hno
      refine hall (fun c hc hn => hno ⟨c, hc, hn⟩)
    have hex2 : ∃ c ∈ cs2, m.lookup c.tvar.i = none := by
      obtain ⟨c, hc, hn⟩ := hex
      exact ⟨c, hp.mem_iff.1 hc, hn⟩
    by_cases hlen : 2 ≤ cs1.length
    · have hbad : ∀ a b : fbsemantic.Constraint,
          m.lookup a.tvar.i = none ∨ m.lookup b.tvar.i = none →
          PolyType.lessConstraint (some m) a b
            = .error (.panic "could not find var mapping") :=
        fun a b h => lessConstraint_unmapped m a b h
      have hgood : ∀ a b : fbsemantic.Constraint,
          ¬ m.lookup a.tvar.i = none → ¬ m.lookup b.tvar.i = none →
          ∃ r, PolyType.lessConstraint (some m) a b = .ok r := by
        intro a b ha hb
        obtain ⟨x, hx⟩ := Option.ne_none_iff_exists'.1 ha
        obtain ⟨y, hy⟩ := Option.ne_none_iff_exists'.1 hb
        exact ⟨_, lessConstraint_some m a b x y hx hy⟩
      rw [Slice_abort _ (fun c => m.lookup c.tvar.i = none) _ hbad hgood cs1 hlen hex,
        Slice_abort _ (fun c => m.lookup c.tvar.i = none) _ hbad hgood cs2
          (by rw [← hp.length_eq]; exact hlen) hex2]
    · have : cs1 = cs2 := by
        match cs1, cs2, hp, hlen with
        | [], cs2, hp, _ => exact (List.Perm.nil_eq hp)
        | [c], cs2, hp, _ => exact List.singleton_perm.1 hp
        | _ :: _ :: _, _, _, hlen => exact absurd (by simp) hlen
      rw [this]

theorem Var_congr (pt1 pt2 : PolyType) (fb1 fb2 : fbsemantic.PolyType)
    (h1 : pt1.fb = some fb1) (h2 : pt2.fb = some fb2) (hv : fb1.vars = fb2.vars) :
    pt1.Var = pt2.Var := by
  funext i
  simp [PolyType.Var, PolyType.NumVars, h1, h2, hv, fbsemantic.PolyType.VarsLength,
    fbsemantic.PolyType.Vars]

theorem quantifiedMapping_congr (pt1 pt2 : PolyType) (h : pt1.Var = pt2.Var) :
    ∀ (is : List Nat) (s : Nat × TVarMap),
    pt1.quantifiedMapping is s = pt2.quantifiedMapping is s
  | [], _ => rfl
  | i :: is, s => by
      simp only [PolyType.quantifiedMapping, h, bind, Except.bind]
      cases pt2.Var (i : Int) with
      | error e => rfl
      | ok v => exact quantifiedMapping_congr pt1 pt2 h is _

/-- The outcome of `sortedConstraints(m)` for a non-nil handle, from the
stored list alone. -/
theorem sortedConstraints_eq (pt : PolyType) (fb : fbsemantic.PolyType) (m : Option TVarMap)
    (hfb : pt.fb = some fb) :
    pt.sortedConstraints m =
      if none ∈ fb.cons then .error (.error codes.Code.Internal "missing constraint")
      else sort.Slice (PolyType.lessConstraint m) (fb.cons.filterMap id) := by
  by_cases hnone : none ∈ fb.cons
  · simp [hnone, PolyType.sortedConstraints, PolyType.NumConstraints, hfb,
      fbsemantic.PolyType.ConsLength, collect_Constraint_missing pt fb hfb hnone, bind,
      Except.bind]
  · simp only [hnone, if_false]
    exact sortedConstraints_of_decoded pt fb _ m hfb (decoded_of_no_none fb.cons hnone)

/-- C18. Two polytypes with the same quantified variable list and the same
body whose constraint lists are permutations of each other have the same
`String()` and the same `CanonicalString()`. -/
theorem rendering_independent_of_constraint_order (syn : Style) (pt1 pt2 : PolyType)
    (fb1 fb2 : fbsemantic.PolyType) (h1 : pt1.fb = some fb1) (h2 : pt2.fb = some fb2)
    (hv : fb1.vars = fb2.vars) (he : fb1.expr = fb2.expr) (hp : fb1.cons.Perm fb2.cons) :
    PolyType.String syn pt1 = PolyType.String syn pt2 ∧
    PolyType.CanonicalString syn pt1 = PolyType.CanonicalString syn pt2 := by
  have hVar := Var_congr pt1 pt2 fb1 fb2 h1 h2 hv
  have hNumVars : pt1.NumVars = pt2.NumVars := by
    simp [PolyType.NumVars, h1, h2, hv, fbsemantic.PolyType.VarsLength]
  have hNumCons : pt1.NumConstraints = pt2.NumConstraints := by
    simp [PolyType.NumConstraints, h1, h2, fbsemantic.PolyType.ConsLength, hp.length_eq]
  have hExpr : pt1.Expr = pt2.Expr := by
    simp [PolyType.Expr, h1, h2, he]
  have hsv : ∀ m, pt1.sortedVars m = pt2.sortedVars m := by
    intro m
    simp only [PolyType.sortedVars, hNumVars, hVar]
  have hmap : pt1.getCanonicalMapping = pt2.getCanonicalMapping := by
    simp only [PolyType.getCanonicalMapping, hExpr, hNumVars, bind, Except.bind]
    cases pt2.Expr with
    | error e => rfl
    | ok body =>
      simp only []
      cases body.getCanonicalMapping (0, []) with
      | error e => rfl
      | ok s1 =>
        simp only []
        cases pt2.NumVars with
        | error e => rfl
        | ok n =>
          simp only []
          rw [quantifiedMapping_congr pt1 pt2 hVar]
  have hnone : none ∈ fb1.cons ↔ none ∈ fb2.cons := hp.mem_iff
  have hfm : (fb1.cons.filterMap id).Perm (fb2.cons.filterMap id) := hp.filterMap id
  have hstring : ∀ m, pt1.sortedConstraints m = pt2.sortedConstraints m →
      pt1.string syn m = pt2.string syn m := by
    intro m hsc
    simp only [PolyType.string, h1, h2, hsv m, hsc, hNumCons, hExpr]
  have hraw : pt1.sortedConstraints none = pt2.sortedConstraints none := by
    rw [sortedConstraints_eq pt1 fb1 none h1, sortedConstraints_eq pt2 fb2 none h2]
    by_cases hn : none ∈ fb1.cons
    · simp [hn, hnone.1 hn]
    · have hn2 : none ∉ fb2.cons := fun h => hn (hnone.2 h)
      simp only [hn, hn2, if_false]
      exact Slice_lessConstraint_none_perm _ _ hfm
  refine ⟨hstring none hraw, ?_⟩
  simp only [PolyType.CanonicalString, hmap]
  cases hm : pt2.getCanonicalMapping with
  | error e => cases e <;> rfl
  | ok m =>
    simp only [orPlaceholder]
    refine hstring (some m) ?_
    rw [sortedConstraints_eq pt1 fb1 (some m) h1, sortedConstraints_eq pt2 fb2 (some m) h2]
    by_cases hn : none ∈ fb1.cons
    · simp [hn, hnone.1 hn]
    · have hn2 : none ∉ fb2.cons := fun h => hn (hnone.2 h)
      simp only [hn, hn2, if_false]
      exact Slice_lessConstraint_some_perm m (getCanonicalMapping_injective pt2 m hm) _ _ hfm

/-- C18, at the sample scheme and the scheme with its constraints stored in
another order. -/
theorem rendering_independent_of_constraint_order_witness :
    PolyType.String sampleStyle samplePoly = PolyType.String sampleStyle permutedPoly ∧
    PolyType.CanonicalString sampleStyle samplePoly
      = PolyType.CanonicalString sampleStyle permutedPoly :=
  rendering_independent_of_constraint_order sampleStyle samplePoly permutedPoly _ _ rfl rfl
    rfl rfl (by decide)

/-! ## The `date` package -/

/-- In the range of `int64` the conversion changes nothing. -/
theorem int64_of_range (x : Int) (h1 : -(2 ^ 63) ≤ x) (h2 : x < 2 ^ 63) : int64 x = x := by
  unfold int64
  omega

/-- For months 1 to 12 the modelled quotient `float64(m) / 3.0` has a 53-bit
mantissa and lies within half a unit in the last place of `m / 3`. -/
theorem divNat_three_rounded (m : Nat) (h1 : 1 ≤ m) (h2 : m ≤ 12) :
    2 ^ 52 ≤ (float64.divNat m 3).mant ∧ (float64.divNat m 3).mant < 2 ^ 53 ∧
    (float64.divNat m 3).exp < 0 ∧
    2 * (((float64.divNat m 3).mant * 3 : Int)
        - (m * 2 ^ (-(float64.divNat m 3).exp).toNat : Nat)).natAbs ≤ 3 := by
  interval_cases m <;> decide

theorem quarter_value (m : Nat) (h1 : 1 ≤ m) (h2 : m ≤ 12) :
    int64 (float64.ceil (float64.divNat m 3)) = (((m + 2) / 3 : Nat) : Int) := by
  interval_cases m <;> decide

theorem ceil_third (m : Nat) (h1 : 1 ≤ m) (h2 : m ≤ 12) :
    ⌈(m : ℚ) / 3⌉ = (((m + 2) / 3 : Nat) : Int) := by
  interval_cases m <;> norm_num [Int.ceil_eq_iff]

/-- C19. For an argument of nature Time whose month is `m`, `1 <= m <= 12`,
`date.quarter` returns the integer `ceil(m / 3)`, which is `(m + 2) div 3` and
lies between 1 and 4: months 1-3 give 1, 4-6 give 2, 7-9 give 3, 10-12 give 4. -/
theorem quarter_spec (v : date.Value) (hn : v.nature = date.Nature.Time)
    (h1 : 1 ≤ v.time.month) (h2 : v.time.month ≤ 12) :
    date.quarter (some v) = .ok ⌈(v.time.month : ℚ) / 3⌉ ∧
    date.quarter (some v) = .ok (((v.time.month + 2) / 3 : Nat) : Int) ∧
    1 ≤ (v.time.month + 2) / 3 ∧ (v.time.month + 2) / 3 ≤ 4 ∧
    (v.time.month ≤ 3 → date.quarter (some v) = .ok 1) ∧
    (4 ≤ v.time.month → v.time.month ≤ 6 → date.quarter (some v) = .ok 2) ∧
    (7 ≤ v.time.month → v.time.month ≤ 9 → date.quarter (some v) = .ok 3) ∧
    (10 ≤ v.time.month → date.quarter (some v) = .ok 4) := by
  have hq : date.quarter (some v) = .ok (((v.time.month + 2) / 3 : Nat) : Int) := by
    simp only [date.quarter, hn, if_true]
    rw [quarter_value v.time.month h1 h2]
  refine ⟨?_, hq, by omega, by omega, ?_, ?_, ?_, ?_⟩
  · rw [hq, ceil_third v.time.month h1 h2]
  · intro h
    rw [hq]
    have : (v.time.month + 2) / 3 = 1 := by omega
    rw [this]
    rfl
  · intro h3 h4
    rw [hq]
    have : (v.time.month + 2) / 3 = 2 := by omega
    rw [this]
    rfl
  · intro h3 h4
    rw [hq]
    have : (v.time.month + 2) / 3 = 3 := by omega
    rw [this]
    rfl
  · intro h3
    rw [hq]
    have : (v.time.month + 2) / 3 = 4 := by omega
    rw [this]
    rfl

/-- C19, at an instant in November. -/
theorem quarter_spec_witness :
    date.quarter (some ⟨.Time, ⟨11, 0⟩⟩) = .ok 4 ∧
    date.quarter (some ⟨.Time, ⟨11, 0⟩⟩) = .ok ⌈((11 : Nat) : ℚ) / 3⌉ :=
  ⟨(quarter_spec ⟨.Time, ⟨11, 0⟩⟩ rfl (by decide) (by decide)).2.2.2.2.2.2.2 (by decide),
    (quarter_spec ⟨.Time, ⟨11, 0⟩⟩ rfl (by decide) (by decide)).1⟩

theorem subsecond_value (ns : Nat) (h : ns ≤ 999999999) (d : Int) (hd1 : 0 < d)
    (hd2 : d ≤ 1000000) :
    int64 ((int64 (int64 time.Nanosecond * int64 ns)).tdiv (int64 d)) = (ns : Int) / d := by
  have e1 : int64 time.Nanosecond = 1 := by decide
  have e2 : int64 (ns : Int) = ns := int64_of_range _ (by omega) (by omega)
  have e3 : int64 d = d := int64_of_range _ (by omega) (by omega)
  rw [e1, e2, e3, one_mul, e2, Int.tdiv_eq_ediv (by omega) (by omega)]
  have hle : (ns : Int) / d ≤ ns := Int.ediv_le_self _ (by omega)
  have hge : 0 ≤ (ns : Int) / d := Int.ediv_nonneg (by omega) (by omega)
  exact int64_of_range _ (by omega) (by omega)

/-- C20. For an argument of nature Time whose nanosecond within the second is
`ns`, `0 <= ns <= 999999999`: `date.millisecond` returns `ns div 1000000`, at
most 999; `date.microsecond` returns `ns div 1000`, at most 999999;
`date.nanosecond` returns `ns`; so `millisecond = microsecond div 1000 =
nanosecond div 1000000`. -/
theorem subsecond_spec (v : date.Value) (hn : v.nature = date.Nature.Time)
    (hns : v.time.nanosecond ≤ 999999999) :
    date.millisecond (some v) = .ok ((v.time.nanosecond / 1000000 : Nat) : Int) ∧
    v.time.nanosecond / 1000000 ≤ 999 ∧
    date.microsecond (some v) = .ok ((v.time.nanosecond / 1000 : Nat) : Int) ∧
    v.time.nanosecond / 1000 ≤ 999999 ∧
    date.nanosecond (some v) = .ok (v.time.nanosecond : Int) ∧
    v.time.nanosecond / 1000000 = v.time.nanosecond / 1000 / 1000 := by
  refine ⟨?_, by omega, ?_, by omega, ?_, by omega⟩
  · simp only [date.millisecond, hn, if_true]
    have hd : time.Millisecond = 1000000 := by decide
    rw [hd, subsecond_value _ hns 1000000 (by decide) (by decide)]
    rfl
  · simp only [date.microsecond, hn, if_true]
    have hd : time.Microsecond = 1000 := by decide
    rw [hd, subsecond_value _ hns 1000 (by decide) (by decide)]
    rfl
  · simp only [date.nanosecond, hn, if_true]
    rw [int64_of_range _ (by omega) (by omega)]

/-- C20, at the last nanosecond of a second. -/
theorem subsecond_spec_witness :
    date.millisecond (some ⟨.Time, ⟨1, 999999999⟩⟩) = .ok 999 ∧
    date.microsecond (some ⟨.Time, ⟨1, 999999999⟩⟩) = .ok 999999 ∧
    date.nanosecond (some ⟨.Time, ⟨1, 999999999⟩⟩) = .ok 999999999 :=
  ⟨(subsecond_spec ⟨.Time, ⟨1, 999999999⟩⟩ rfl (by decide)).1,
    (subsecond_spec ⟨.Time, ⟨1, 999999999⟩⟩ rfl (by decide)).2.2.1,
    (subsecond_spec ⟨.Time, ⟨1, 999999999⟩⟩ rfl (by decide)).2.2.2.2.1⟩
